import Mathlib

/-!
Verification of the `t` task manager (`t.py`).

The development shallowly embeds the program: Python strings become `List Char`
(`Str`), Python dicts become insertion-ordered association lists with unique
keys, the task record becomes a fixed-shape structure covering exactly the
fields this program reads and writes, and fallible code returns `Except`.
Functions named after the source (`_prefixes`, `_task_from_taskline`,
`_tasklines_from_tasks`, the `TaskDict` methods) are translated line by line
from `t.py`; `json.dumps`/`json.loads` are modelled by a concrete
printer/parser pair for the metadata objects this program serializes.

Identifier note: the Python name `prefix` is written `pfx` throughout.
-/

set_option maxRecDepth 4000

abbrev Str := List Char

/-- Boolean test that `p` is a leading substring of `s` (Python `s.startswith(p)`). -/
def isLead (p s : Str) : Bool := decide (s.take p.length = p)

/-- Python whitespace test (the characters `str.strip` removes). -/
def isSpc (c : Char) : Bool :=
  c = ' ' || c = '\t' || c = '\n' || c = '\x0d' || c = '\x0b' || c = '\x0c'

/-- Python `s.strip()`: drop leading and trailing whitespace. -/
def pyStrip (s : Str) : Str := (s.dropWhile isSpc).reverse.dropWhile isSpc |>.reverse

/-- Python `c in s` for a single character. -/
def hasChar (s : Str) (c : Char) : Bool := s.contains c

/-- Python `s.partition(sep)` for a one-character separator: split at the first
occurrence; when absent, the middle and right parts are empty. -/
def pyPartition (s : Str) (sep : Char) : Str × Str :=
  if hasChar s sep then (s.takeWhile (· ≠ sep), (s.dropWhile (· ≠ sep)).drop 1)
  else (s, [])

/-- Python `s.ljust(n)`: pad on the right with spaces to length `n`. -/
def ljust (s : Str) (n : Nat) : Str := s ++ List.replicate (n - s.length) ' '

/-- Python `s.rstrip('/')`: drop trailing slashes. -/
def rstripSlash (s : Str) : Str := s.reverse.dropWhile (· = '/') |>.reverse

/-- Python `sub in s` (substring containment, used by the grep filter). -/
def hasSub (sub s : Str) : Bool :=
  if isLead sub s then true
  else match s with
       | [] => false
       | _ :: rest => hasSub sub rest

/-- Python `s.lower()` restricted to ASCII case folding. -/
def pyLower (s : Str) : Str := s.map Char.toLower

/-- Model of a Python dict with string keys: an insertion-ordered association
list whose keys are unique. Lookup returns the first (only) binding. -/
def aGet? {β : Type} (ps : List (Str × β)) (k : Str) : Option β :=
  match ps with
  | [] => none
  | (k', v) :: rest => if k' = k then some v else aGet? rest k

/-- Python `ps[k] = v`: update in place if the key exists, else append at the end. -/
def aSet {β : Type} (ps : List (Str × β)) (k : Str) (v : β) : List (Str × β) :=
  match ps with
  | [] => [(k, v)]
  | (k', v') :: rest => if k' = k then (k, v) :: rest else (k', v') :: aSet rest k v

/-- Python `del ps[k]` and `ps.pop(k)`'s removal effect. -/
def aDel {β : Type} (ps : List (Str × β)) (k : Str) : List (Str × β) :=
  match ps with
  | [] => []
  | (k', v') :: rest => if k' = k then rest else (k', v') :: aDel rest k

/-- Dict used by `_prefixes`: both keys and values are strings. -/
abbrev PDict := List (Str × Str)

abbrev pdGet? (ps : PDict) (k : Str) : Option Str := aGet? ps k

abbrev pdSet (ps : PDict) (k v : Str) : PDict := aSet ps k v

abbrev pdDel (ps : PDict) (k : Str) : PDict := aDel ps k

/-- Break condition of the scan loop in `_prefixes`:
`(not prefix in ps) or (ps[prefix] and prefix != ps[prefix])`. -/
def breakCond (ps : PDict) (id : Str) (i : Nat) : Bool :=
  match pdGet? ps (id.take i) with
  | none => true
  | some v => decide (v ≠ [] ∧ id.take i ≠ v)

/-- Final value of `i` after `for i in range(1, id_len+1): ... break` in
`_prefixes` (on an empty id the Python loop body never runs; the claims only
concern non-empty ids). -/
def scanIdx (ps : PDict) (id : Str) : Nat :=
  match (List.range' 1 id.length).find? (fun i => breakCond ps id i) with
  | some i => i
  | none => id.length

/-- Collision loop of `_prefixes` (`for j in range(i, id_len+1): ... else: ...`
with `stop = id_len`), written with the count of remaining iterations as the
recursion argument: `count = 0` is the loop's `else:` clause (exhaustion). -/
def collideAux (other id : Str) (stop : Nat) : Nat → Nat → PDict → PDict
  | 0, _, ps => pdSet (pdSet ps (other.take (stop + 1)) other) id id
  | n + 1, j, ps =>
    if other.take j = id.take j then
      collideAux other id stop n (j + 1) (pdSet ps (id.take j) [])
    else
      pdSet (pdSet ps (other.take j) other) (id.take j) id

/-- The collision loop entered at `j`: it runs `j, j+1, ..., stop`. -/
def collide (other id : Str) (stop j : Nat) (ps : PDict) : PDict :=
  collideAux other id stop (stop + 1 - j) j ps

/-- Body of the main loop of `_prefixes` for one id. -/
def insId (ps : PDict) (id : Str) : PDict :=
  let i := scanIdx ps id
  match pdGet? ps (id.take i) with
  | some other => collide other id id.length i ps
  | none => pdSet ps (id.take i) id

/-- Python `dict(zip(ps.values(), ps.keys()))`. -/
def invert (ps : PDict) : PDict :=
  ps.foldl (fun acc kv => pdSet acc kv.2 kv.1) []

/-- Shallow embedding of `_prefixes`: a mapping of ids to prefixes. -/
def _prefixes (ids : List Str) : PDict :=
  pdDel (invert (ids.foldl insId [])) []

/-! Specification-side definitions for claim C1, written from the words of the
spec rather than from the algorithm. -/

/-- The candidate length `l` gives `x` a leading substring that is not a
leading substring of any other id in `ids`. -/
def uniqueAt (ids : List Str) (x : Str) (l : Nat) : Bool :=
  ids.all (fun y => y = x || !(isLead (x.take l) y))

/-- The shortest leading substring of `x` that is not a leading substring of
any other id, when one exists. -/
def shortestU (ids : List Str) (x : Str) : Option Str :=
  ((List.range' 1 x.length).find? (uniqueAt ids x)).map (x.take ·)

/-- The prefix the spec's general rule assigns: the shortest uniquely
identifying leading substring, or the full id when every leading substring of
`x` (including `x` itself) is a leading substring of some other id. -/
def expectedPfx (ids : List Str) (x : Str) : Str :=
  match shortestU ids x with
  | some p => p
  | none => x

/-! Task records and the task store. -/

/-- A task record, with exactly the fields `t.py` reads and writes. Optional
fields model dict keys that may be absent. The `pfx` field models the
`'prefix'` key that `print_list` stores into records. After loading, the
`timestamp`, `show_full_id` and `parent_id` keys are always present (defaulted
at lines 70-77 of `t.py`), so they are plain fields here; a record freshly
minted by `add_task` without those keys behaves identically for every
operation modelled. Python timestamps are floats; time values are opaque to
the program (only compared for display order), so they are modelled as `Nat`. -/
structure TaskRec where
  id : Str
  text : Str
  timestamp : Nat
  show_full_id : Bool
  parent_id : Option Str
  tags : Option (List Str)
  pfx : Option Str
deriving DecidableEq, Repr

/-- The two collections of a `TaskDict`: unfinished (`tasks`) and finished
(`done`), each a dict keyed by task id. -/
structure TaskDict where
  tasks : List (Str × TaskRec)
  done : List (Str × TaskRec)
deriving DecidableEq, Repr

/-- Failure outcomes. `unknownId`/`ambiguousId` model the UnknownPrefix and
AmbiguousPrefix exceptions; `keyErr`/`valueErr` model Python KeyError and
ValueError; `parseErr` models a `json.loads` failure (or a missing `'id'` key
during load, which raises KeyError in `TaskDict.__init__`); `outOfFuel` is a
model artifact for the recursion bound of `finish_task` and never occurs when
the bound is at least the number of open tasks plus one. -/
inductive TErr where
  | unknownId (p : Str)
  | ambiguousId (p : Str)
  | keyErr
  | valueErr
  | parseErr
  | outOfFuel
deriving DecidableEq, Repr

/-- The ids of open tasks whose id starts with `p`
(`[tid for tid in self.tasks.keys() if tid.startswith(prefix)]`). -/
def matchedIds (td : TaskDict) (p : Str) : List Str :=
  (td.tasks.map Prod.fst).filter (fun tid => isLead p tid)

/-- Shallow embedding of `TaskDict.__getitem__`. -/
def getItem (td : TaskDict) (p : Str) : Except TErr TaskRec :=
  let matched := matchedIds td p
  match matched with
  | [m] =>
      match aGet? td.tasks m with
      | some r => .ok r
      | none => .error .keyErr
  | [] => .error (.unknownId p)
  | _ =>
      if p ∈ matched then
        match aGet? td.tasks p with
        | some r => .ok r
        | none => .error .keyErr
      else
        .error (.ambiguousId p)

/-- Shallow embedding of `TaskDict.add_task`. The minted id comes from the
`mkId` parameter (modelling `_hash`, which mixes the clock into SHA1) and the
creation clock from `now`; an empty `task_id`/`parent_id` stands for Python
`None`/`''`, both falsy. Console output is not modelled. -/
def add_task (mkId : Str → Str) (now : Nat) (td : TaskDict)
    (text task_id parent_id : Str) : Except TErr TaskDict :=
  let tid := if task_id = [] then mkId text else task_id
  let showFull := task_id ≠ []
  match (if parent_id = [] then Except.ok none
         else (getItem td parent_id).map (fun r => some r.id)) with
  | .error e => .error e
  | .ok resolved =>
    let pid : Option Str := match resolved with
      | none => none
      | some rid => if rid = [] then none else some rid
    let r : TaskRec := { id := tid, text := text, timestamp := now,
                         show_full_id := showFull, parent_id := pid,
                         tags := none, pfx := none }
    .ok { td with tasks := aSet td.tasks tid r }

/-- Model of `re.sub(find, repl, s)` for patterns `find` containing no regular
expression metacharacters: every leftmost non-overlapping occurrence of `find`
in `s` is replaced by `repl`; an empty pattern matches at every position. -/
def subAllF (find repl : Str) : Nat → Str → Str
  | _, [] => if find = [] then repl else []
  | 0, s => s
  | fuel + 1, c :: rest =>
    if find = [] then
      repl ++ c :: subAllF find repl fuel rest
    else if isLead find (c :: rest) then
      repl ++ subAllF find repl fuel ((c :: rest).drop find.length)
    else
      c :: subAllF find repl fuel rest

/-- Entry point of the substitution with adequate fuel: every step consumes
at least one character of `s`, so `s.length` steps always complete. -/
def subAll (find repl : Str) (s : Str) : Str := subAllF find repl s.length s

/-- Model of `re.sub('^s?/', '', text)` on a text known to begin with `s/` or
`/`: drop that head. -/
def dropSlashHead (s : Str) : Str :=
  if isLead ['s', '/'] s then s.drop 2
  else if isLead ['/'] s then s.drop 1
  else s

/-- Shallow embedding of `TaskDict.edit_task`. The `if 'id' not in task`
branch of the source is unreachable here because every modelled record
carries its id. -/
def edit_task (td : TaskDict) (p text : Str) : Except TErr TaskDict :=
  match getItem td p with
  | .error e => .error e
  | .ok task =>
    let newText :=
      if isLead ['s', '/'] text || isLead ['/'] text then
        let t1 := rstripSlash (dropSlashHead text)
        let pr := pyPartition t1 '/'
        subAll pr.1 pr.2 task.text
      else text
    .ok { td with tasks := aSet td.tasks task.id { task with text := newText } }

/-- Shallow embedding of `TaskDict.add_tag` (append; duplicates permitted). -/
def addTag (task : TaskRec) (tag : Str) : TaskRec :=
  match task.tags with
  | some l => { task with tags := some (l ++ [tag]) }
  | none => { task with tags := some [tag] }

/-- Python `list.remove`: drop the first occurrence, ValueError when absent. -/
def listRemove (l : List Str) (x : Str) : Except TErr (List Str) :=
  match l with
  | [] => .error .valueErr
  | y :: rest => if y = x then .ok rest else (listRemove rest x).map (y :: ·)

/-- Shallow embedding of `TaskDict.remove_tag`. When the record has no
`'tags'` key the guarded `remove` is skipped but the unguarded
`len(task['tags'])` check still runs and raises KeyError; when the tag is
absent from the list, `list.remove` raises ValueError. -/
def removeTag (task : TaskRec) (tag : Str) : Except TErr TaskRec :=
  match task.tags with
  | some l =>
      match listRemove l tag with
      | .error e => .error e
      | .ok l' => .ok { task with tags := if l' = [] then none else some l' }
  | none => .error .keyErr

/-- Python `s.split(' ')` (single-space separator, empty tokens kept). -/
def splitSp (s : Str) : List Str :=
  match s with
  | [] => [[]]
  | c :: rest =>
      let r := splitSp rest
      if c = ' ' then [] :: r
      else match r with
           | [] => [[c]]
           | t :: ts => (c :: t) :: ts

/-- One token of the `TaskDict.tag` loop: empty tokens are skipped, a
leading `-` removes, anything else adds. -/
def tagStep (acc : Except TErr TaskRec) (tok : Str) : Except TErr TaskRec :=
  match acc with
  | .error e => Except.error e
  | .ok task =>
    if tok = [] then Except.ok task
    else if tok.take 1 = ['-'] then removeTag task (tok.drop 1)
    else Except.ok (addTag task tok)

/-- Shallow embedding of `TaskDict.tag`. A failing token stops the loop with
the exception; the in-memory effect of earlier tokens is irrelevant because
the program aborts before writing, so the model reports only the error. -/
def tagOp (td : TaskDict) (p tagsSpec : Str) : Except TErr TaskDict :=
  match getItem td p with
  | .error e => .error e
  | .ok task0 =>
    match (splitSp (pyStrip tagsSpec)).foldl tagStep (.ok task0) with
    | .error e => .error e
    | .ok task => .ok { td with tasks := aSet td.tasks task.id task }

/-- Shallow embedding of `TaskDict.children`: open tasks in dict order whose
`parent_id` equals this task's id. -/
def children (td : TaskDict) (task : TaskRec) : List TaskRec :=
  (td.tasks.filter (fun kv => kv.2.parent_id = some task.id)).map Prod.snd

/-- Shallow embedding of `TaskDict.num_children`. -/
def num_children (td : TaskDict) (task : TaskRec) : Nat :=
  (children td task).length

/-- The fold over a finished task's children (line 310-311 of `t.py`): an
exception from one child aborts the loop. -/
def finishFold (next : TaskDict → Str → Except TErr TaskDict)
    (acc : Except TErr TaskDict) (c : TaskRec) : Except TErr TaskDict :=
  match acc with
  | .error e => .error e
  | .ok s => next s c.id

/-- Shallow embedding of `TaskDict.finish_task`, fuel-indexed to bound the
recursion (Python recurses on a strictly smaller `tasks` dict, so a fuel of
`tasks.length + 1` always suffices). A blocked finish (open children, no
force) prints a warning and returns without mutating. The recursive calls
pass no `force` argument, exactly as in the source (line 311). -/
def finishTaskF (fuel : Nat) (td : TaskDict) (p : Str) (force : Bool) :
    Except TErr TaskDict :=
  match fuel with
  | 0 => .error .outOfFuel
  | fuel + 1 =>
    match getItem td p with
    | .error e => .error e
    | .ok t0 =>
      if ¬ force ∧ num_children td t0 > 0 then
        .ok td
      else
        match getItem td p with
        | .error e => .error e
        | .ok t1 =>
          match aGet? td.tasks t1.id with
          | none => .error .keyErr
          | some task =>
            let td1 : TaskDict :=
              { tasks := aDel td.tasks t1.id, done := aSet td.done task.id task }
            (children td1 task).foldl
              (finishFold (fun s cid => finishTaskF fuel s cid false))
              (.ok td1)

/-- Entry point of `finish_task` with adequate fuel. -/
def finish_task (td : TaskDict) (p : Str) (force : Bool) : Except TErr TaskDict :=
  finishTaskF (td.tasks.length + 1) td p force

/-- Shallow embedding of `TaskDict.remove_task`. -/
def remove_task (td : TaskDict) (p : Str) : Except TErr TaskDict :=
  match getItem td p with
  | .error e => .error e
  | .ok t =>
    match aGet? td.tasks t.id with
    | none => .error .keyErr
    | some _ => .ok { td with tasks := aDel td.tasks t.id }

/-! Serialization: decimal numbers, JSON strings, metadata objects. -/

/-- Decimal digit character. -/
def decChar (d : Nat) : Char := Char.ofNat (48 + d)

/-- Decimal rendering, fuel-indexed (the value shrinks by a factor of ten
each step, so `n + 1` steps always suffice). -/
def natToStrAux : Nat → Nat → Str
  | 0, _ => []
  | fuel + 1, n =>
    if n < 10 then [decChar n]
    else natToStrAux fuel (n / 10) ++ [decChar (n % 10)]

/-- Decimal rendering of a natural number (Python `%d` / `json.dumps` on an int). -/
def natToStr (n : Nat) : Str := natToStrAux (n + 1) n

/-- Lower-case hexadecimal digit character. -/
def hexChar (d : Nat) : Char :=
  if d < 10 then decChar d else Char.ofNat (97 + d - 10)

/-- Escaping of one character inside a JSON string, as `json.dumps` needs it:
quote and backslash are escaped, control characters become `\u00XX`. (The
Python encoder also `\u`-escapes non-ASCII characters and uses the short
forms `\n`, `\t`, ...; either spelling parses back to the same character, so
every record-level statement is unaffected by this choice.) -/
def jEsc (c : Char) : Str :=
  if c = '"' then ['\\', '"']
  else if c = '\\' then ['\\', '\\']
  else if c.toNat < 32 then
    ['\\', 'u', '0', '0', hexChar (c.toNat / 16), hexChar (c.toNat % 16)]
  else [c]

/-- JSON string literal for `s`. -/
def jStr (s : Str) : Str := '"' :: (s.flatMap jEsc ++ ['"'])

/-- JSON array of strings. -/
def jArr (l : List Str) : Str :=
  '[' :: (List.intercalate (", ".data) (l.map jStr) ++ [']'])

/-- Model of `json.dumps(meta, sort_keys=True)` for a task's metadata: the
`text` key is already removed, `show_full_id` only appears when true and
`parent_id` only when not `None` (lines 88-102 of `t.py`); keys are emitted
in sorted order with the default `", "`/`": "` separators. -/
def dumpsMeta (t : TaskRec) : Str :=
  let fields : List Str :=
    ["\"id\": ".data ++ jStr t.id]
    ++ (match t.parent_id with
        | some p => ["\"parent_id\": ".data ++ jStr p]
        | none => [])
    ++ (match t.pfx with
        | some p => ["\"prefix\": ".data ++ jStr p]
        | none => [])
    ++ (if t.show_full_id then ["\"show_full_id\": true".data] else [])
    ++ (match t.tags with
        | some l => ["\"tags\": ".data ++ jArr l]
        | none => [])
    ++ ["\"timestamp\": ".data ++ natToStr t.timestamp]
  "\x7b".data ++ (List.intercalate (", ".data) fields ++ "\x7d".data)

/-- Shallow embedding of `_tasklines_from_tasks`. A file is modelled as its
list of lines, so the trailing `'\n'` of each written line is implicit. -/
def _tasklines_from_tasks (tasks : List TaskRec) : List Str :=
  let textlen := (tasks.map (fun t => t.text.length)).foldl max 0
  tasks.map (fun t => ljust t.text textlen ++ " | ".data ++ dumpsMeta t)

/-- Python string `<` (lexicographic by code point). -/
def lexLt (a b : Str) : Bool :=
  match a, b with
  | [], [] => false
  | [], _ :: _ => true
  | _ :: _, [] => false
  | x :: xs, y :: ys => if x = y then lexLt xs ys else decide (x < y)

/-- Stable insertion: the new element goes after every element not
strictly greater, matching Python's stable `sorted`. -/
def insSorted (ltb : TaskRec → TaskRec → Bool) (l : List TaskRec) (x : TaskRec) :
    List TaskRec :=
  match l with
  | [] => [x]
  | y :: ys => if ltb x y then x :: y :: ys else y :: insSorted ltb ys x

/-- Python `sorted(...)` with the given strict comparison as key order. -/
def pySorted (ltb : TaskRec → TaskRec → Bool) (l : List TaskRec) : List TaskRec :=
  l.foldl (insSorted ltb) []

/-- Python `sorted(..., key=itemgetter('id'))` (stable ascending sort). -/
def sortById (l : List TaskRec) : List TaskRec :=
  pySorted (fun a b => lexLt a.id b.id) l

/-- Shallow embedding of `TaskDict.write` for one collection: values in dict
order, sorted by id, rendered to tasklines. -/
def writeKind (recs : List (Str × TaskRec)) : List Str :=
  _tasklines_from_tasks (sortById (recs.map Prod.snd))

/-- Shallow embedding of `TaskDict.write`: the lines of the open file and of
the done file (file-system errors and `delete_if_empty` are not modelled). -/
def writeStore (td : TaskDict) : List Str × List Str :=
  (writeKind td.tasks, writeKind td.done)

/-! Parsing: a concrete model of `json.loads` for the metadata objects this
program reads. Keys may come in any order and appear repeatedly (last one
wins, as in Python). Modelling limits, none of which any claim depends on:
numbers are unsigned integers (the program itself also writes float
timestamps), unknown keys are ignored rather than kept, a known key with an
unexpected value shape is a parse error, and `\u` escapes for surrogate pairs
are rejected. -/

/-- JSON whitespace skip (space, tab, newline, carriage return). -/
def jskip (s : Str) : Str :=
  s.dropWhile (fun c => c = ' ' || c = '\t' || c = '\n' || c = '\x0d')

theorem jskip_le (s : Str) : (jskip s).length ≤ s.length := by
  induction s with
  | nil => simp [jskip]
  | cons c rest ih =>
      simp only [jskip, List.dropWhile] at ih ⊢
      split
      · exact le_trans ih (by simp)
      · simp

/-- Value of a hexadecimal digit. -/
def hexVal (c : Char) : Option Nat :=
  if '0' ≤ c ∧ c ≤ '9' then some (c.toNat - 48)
  else if 'a' ≤ c ∧ c ≤ 'f' then some (c.toNat - 87)
  else if 'A' ≤ c ∧ c ≤ 'F' then some (c.toNat - 55)
  else none

/-- Single-character JSON escapes. -/
def escChar (c : Char) : Option Char :=
  if c = '"' then some '"'
  else if c = '\\' then some '\\'
  else if c = '/' then some '/'
  else if c = 'n' then some '\n'
  else if c = 't' then some '\t'
  else if c = 'r' then some '\x0d'
  else if c = 'b' then some '\x08'
  else if c = 'f' then some '\x0c'
  else none

/-- Parse the body of a JSON string up to its closing quote, returning the
decoded content and the remaining input. Raw control characters are rejected,
as in Python's strict mode. -/
def parseStringBody : Str → Option (Str × Str)
  | [] => none
  | '"' :: rest => some ([], rest)
  | '\\' :: 'u' :: h1 :: h2 :: h3 :: h4 :: rest =>
      match hexVal h1, hexVal h2, hexVal h3, hexVal h4 with
      | some a, some b, some c, some d =>
          let code := ((a * 16 + b) * 16 + c) * 16 + d
          if code < 55296 then
            (parseStringBody rest).map (fun pr => (Char.ofNat code :: pr.1, pr.2))
          else none
      | _, _, _, _ => none
  | '\\' :: e :: rest =>
      match escChar e with
      | some c => (parseStringBody rest).map (fun pr => (c :: pr.1, pr.2))
      | none => none
  | c :: rest =>
      if c.toNat < 32 then none
      else (parseStringBody rest).map (fun pr => (c :: pr.1, pr.2))

theorem parseStringBody_lt (s : Str) (p : Str × Str)
    (h : parseStringBody s = some p) : p.2.length < s.length := by
  induction s using parseStringBody.induct generalizing p <;> simp_all [parseStringBody]
  all_goals try (cases h; simp)
  all_goals try (obtain ⟨a, b, hab, rfl⟩ := h; rename_i ih; have := ih a b hab; simp; omega)
  all_goals try (obtain ⟨hc, a, b, hab, rfl⟩ := h; rename_i ih; have := ih a b hab; simp; omega)
  all_goals exact absurd h.1 (by omega)

/-- Parse the items of a non-empty JSON array of strings; the input starts
right after the opening quote of the first item. The fuel only bounds the
number of items; every iteration consumes at least two characters, so the
`length + 1` fuel the callers pass never cuts a parse short. -/
def parseItemsF : Nat → Str → Option (List Str × Str)
  | 0, _ => none
  | fuel + 1, s =>
    match parseStringBody s with
    | none => none
    | some (x, r1) =>
      match jskip r1 with
      | ']' :: r2 => some ([x], r2)
      | ',' :: r2 =>
        match jskip r2 with
        | '"' :: r3 =>
          match parseItemsF fuel r3 with
          | none => none
          | some (xs, r4) => some (x :: xs, r4)
        | _ => none
      | _ => none

/-- Decimal digit test (code points 48-57). -/
def isDig (c : Char) : Bool := decide (48 ≤ c.toNat) && decide (c.toNat ≤ 57)

/-- Value of a string of decimal digits. -/
def digsVal (ds : Str) : Nat := ds.foldl (fun a c => a * 10 + (c.toNat - 48)) 0

/-- Parse an unsigned decimal integer. -/
def parseNat (s : Str) : Option (Nat × Str) :=
  let ds := s.takeWhile isDig
  if ds = [] then none else some (digsVal ds, s.dropWhile isDig)

/-- JSON values that can occur in this program's metadata objects. -/
inductive JVal where
  | vstr (s : Str)
  | vnat (n : Nat)
  | vbool (b : Bool)
  | vnull
  | varr (l : List Str)
deriving DecidableEq, Repr

/-- Parse one JSON value of the shapes the metadata can hold. -/
def parseVal (s : Str) : Option (JVal × Str) :=
  match s with
  | '"' :: r => (parseStringBody r).map (fun pr => (.vstr pr.1, pr.2))
  | '[' :: r =>
      match jskip r with
      | ']' :: r2 => some (.varr [], r2)
      | '"' :: r2 => (parseItemsF (r2.length + 1) r2).map (fun pr => (.varr pr.1, pr.2))
      | _ => none
  | 't' :: r => if isLead "rue".data r then some (.vbool true, r.drop 3) else none
  | 'f' :: r => if isLead "alse".data r then some (.vbool false, r.drop 4) else none
  | 'n' :: r => if isLead "ull".data r then some (.vnull, r.drop 3) else none
  | s => (parseNat s).map (fun pr => (.vnat pr.1, pr.2))

/-- Parse the members of a non-empty JSON object; the input starts right
after the opening quote of the first key. The fuel bounds the number of
members and is always adequate for the callers, which pass `length + 1`. -/
def parsePairsF : Nat → Str → Option (List (Str × JVal) × Str)
  | 0, _ => none
  | fuel + 1, s =>
    match parseStringBody s with
    | none => none
    | some (key, r1) =>
      match jskip r1 with
      | ':' :: r2 =>
        match parseVal (jskip r2) with
        | none => none
        | some (v, r3) =>
          match jskip r3 with
          | '\x7d' :: r4 => some ([(key, v)], r4)
          | ',' :: r4 =>
            match jskip r4 with
            | '"' :: r5 =>
              match parsePairsF fuel r5 with
              | none => none
              | some (ps, r6) => some ((key, v) :: ps, r6)
            | _ => none
          | _ => none
      | _ => none

/-- The record all metadata defaults start from: this is the state of the
task dict before `json.loads`' result is merged and the defaults of lines
70-77 of `t.py` are applied. -/
def blankRec : TaskRec :=
  { id := [], text := [], timestamp := 0, show_full_id := false,
    parent_id := none, tags := none, pfx := none }

/-- Merge one parsed metadata member into the record. Known keys must carry
the value shape the program itself writes (`parent_id` also accepts `null`);
unknown keys are ignored. -/
def applyPair (t : TaskRec) (kv : Str × JVal) : Option TaskRec :=
  if kv.1 = "id".data then
    match kv.2 with | .vstr s => some { t with id := s } | _ => none
  else if kv.1 = "timestamp".data then
    match kv.2 with | .vnat n => some { t with timestamp := n } | _ => none
  else if kv.1 = "show_full_id".data then
    match kv.2 with | .vbool b => some { t with show_full_id := b } | _ => none
  else if kv.1 = "parent_id".data then
    match kv.2 with
    | .vstr s => some { t with parent_id := some s }
    | .vnull => some { t with parent_id := none }
    | _ => none
  else if kv.1 = "tags".data then
    match kv.2 with | .varr l => some { t with tags := some l } | _ => none
  else if kv.1 = "prefix".data then
    match kv.2 with | .vstr s => some { t with pfx := some s } | _ => none
  else some t

/-- Model of `json.loads` on the metadata part of a taskline, combined with
the defaulting of missing optional fields (lines 70-77 of `t.py`) and with
the requirement that an `'id'` key be present (its absence makes
`TaskDict.__init__` raise a KeyError right after parsing). -/
def parseMeta (s : Str) : Option TaskRec :=
  match jskip s with
  | '\x7b' :: r =>
    let pairsRes : Option (List (Str × JVal) × Str) :=
      match jskip r with
      | '\x7d' :: r2 => some ([], r2)
      | '"' :: r2 => parsePairsF (r2.length + 1) r2
      | _ => none
    match pairsRes with
    | none => none
    | some (pairs, rest) =>
      if jskip rest = [] then
        if pairs.any (fun kv => kv.1 = "id".data) then
          pairs.foldlM applyPair blankRec
        else none
      else none
  | _ => none

/-- Shallow embedding of `_task_from_taskline`. `mkId` models `_hash`. The
result is `none` for a skipped comment line; a parse failure (or missing id)
is an error that aborts the surrounding load, as the uncaught exception does
in Python. -/
def _task_from_taskline (mkId : Str → Str) (taskline : Str) :
    Except TErr (Option TaskRec) :=
  if isLead ['#'] (pyStrip taskline) then .ok none
  else if hasChar taskline '|' then
    let pr := pyPartition taskline '|'
    match parseMeta pr.2 with
    | none => .error .parseErr
    | some r => .ok (some { r with text := pyStrip pr.1 })
  else
    let text := pyStrip taskline
    .ok (some { id := mkId text, text := text, timestamp := 0,
                show_full_id := false, parent_id := none, tags := none,
                pfx := none })

/-- Loading of one collection in `TaskDict.__init__`: each line is stripped,
parsed, and inserted into the dict keyed by its id; `None` results
(comments) are skipped. A file is modelled as its list of lines. -/
def loadStep (mkId : Str → Str) (acc : Except TErr (List (Str × TaskRec)))
    (tl : Str) : Except TErr (List (Str × TaskRec)) :=
  match acc with
  | .error e => .error e
  | .ok d =>
    match _task_from_taskline mkId (pyStrip tl) with
    | .error e => .error e
    | .ok none => .ok d
    | .ok (some t) => .ok (aSet d t.id t)

def loadLines (mkId : Str → Str) (lines : List Str) :
    Except TErr (List (Str × TaskRec)) :=
  lines.foldl (loadStep mkId) (.ok [])

/-- Shallow embedding of `TaskDict.__init__` given the two files' lines. -/
def loadStore (mkId : Str → Str) (openLines doneLines : List Str) :
    Except TErr TaskDict :=
  match loadLines mkId openLines with
  | .error e => .error e
  | .ok ts =>
    match loadLines mkId doneLines with
    | .error e => .error e
    | .ok ds => .ok { tasks := ts, done := ds }

/-! The list command, `TaskDict.print_list`. -/

/-- The prefix-setting loop of `print_list` (lines 330-334): for every id,
store the computed prefix (or the full id when `show_full_id` is set) into
the shared task record under the `'prefix'` key. -/
def setPfxs (recs : List (Str × TaskRec)) : List (Str × TaskRec) :=
  (_prefixes (recs.map Prod.fst)).foldl
    (fun acc kv =>
      match aGet? acc kv.1 with
      | some r =>
          aSet acc kv.1 { r with pfx := some (if r.show_full_id then kv.1 else kv.2) }
      | none => acc)
    recs

/-- The field `task[label]` of the display loop. -/
def taskLabel (verbose : Bool) (t : TaskRec) : Str :=
  if verbose then t.id else t.pfx.getD []

/-- The rendered tags portion of a row. -/
def tagsStr (t : TaskRec) : Str :=
  match t.tags with
  | none => []
  | some l => List.intercalate " ".data (l.map (fun tg => '[' :: (tg ++ [']']))) ++ " ".data

/-- One printed row (line 346 of `t.py`). -/
def renderRow (indent : Str) (plen : Nat) (verbose quiet : Bool) (nChild : Nat)
    (t : TaskRec) : Str :=
  indent ++ ('(' :: (natToStr nChild ++ ") ".data))
    ++ (if ¬ quiet then ljust (taskLabel verbose t) plen ++ " - ".data else [])
    ++ tagsStr t ++ t.text

/-- Python `sorted(..., key=itemgetter('timestamp'))` (stable). -/
def sortByTime (l : List TaskRec) : List TaskRec :=
  pySorted (fun a b => decide (a.timestamp < b.timestamp)) l

/-- Shallow embedding of `TaskDict.print_list`, fuel-indexed for the
recursion into children (the displayed tasks of a parent chain are distinct,
so `collection length + 1` fuel is always enough). Returns the updated store
(the `'prefix'` keys written into shared records are the store mutation this
command performs) together with the displayed rows, each paired with the
record it was rendered from. The recursive call re-runs the prefix-setting
loop on the same collection, which is idempotent, exactly as in Python. -/
def colOf (td : TaskDict) (useDone : Bool) : List (Str × TaskRec) :=
  if useDone then td.done else td.tasks

def setCol (td : TaskDict) (useDone : Bool) (recs : List (Str × TaskRec)) : TaskDict :=
  if useDone then { td with done := recs } else { td with tasks := recs }

def walkStep (next : TaskDict → Option Str → Str → TaskDict × List (Str × TaskRec))
    (verbose quiet : Bool) (grep : Str) (parent : Option Str) (indent : Str)
    (plen : Nat) (acc : TaskDict × List (Str × TaskRec)) (t : TaskRec) :
    TaskDict × List (Str × TaskRec) :=
  if hasSub (pyLower grep) (pyLower t.text) then
    if parent = t.parent_id then
      let row := renderRow indent plen verbose quiet (num_children acc.1 t) t
      let rest := next acc.1 (some t.id) (indent ++ "  ".data)
      (rest.1, acc.2 ++ (row, t) :: rest.2)
    else acc
  else acc

def printWalkF (fuel : Nat) (td : TaskDict) (useDone verbose quiet : Bool)
    (grep : Str) (parent : Option Str) (indent : Str) :
    TaskDict × List (Str × TaskRec) :=
  match fuel with
  | 0 => (td, [])
  | fuel + 1 =>
    let col := colOf td useDone
    let col' := if verbose then col else setPfxs col
    let td' := setCol td useDone col'
    let vals := col'.map Prod.snd
    let plen := (vals.map (fun t => (taskLabel verbose t).length)).foldl max 0
    (sortByTime vals).foldl
      (walkStep (fun s p i => printWalkF fuel s useDone verbose quiet grep p i)
        verbose quiet grep parent indent plen)
      (td', [])

/-- Entry point of `print_list` with adequate fuel: the updated store and the
printed rows. -/
def print_list (td : TaskDict) (useDone verbose quiet : Bool) (grep : Str) :
    TaskDict × List Str :=
  let w := printWalkF ((colOf td useDone).length + 1) td
             useDone verbose quiet grep none []
  (w.1, w.2.map Prod.fst)

/-! Concrete fixtures used by individual findings. -/

/-- A fixed id generator standing in for `_hash` in concrete scenarios. -/
def mkIdC : Str → Str := fun _ => "h0".data

/-- A sample record builder for concrete stores. -/
def mkRec (i : String) (ts : Nat) (par : Option String) : TaskRec :=
  { id := i.data, text := ("task ".data ++ i.data), timestamp := ts,
    show_full_id := false, parent_id := par.map (fun s => s.data),
    tags := none, pfx := none }

/-- Open tasks `a`, `b` (child of `a`), `c` (child of `b`); nothing done. -/
def chainTD : TaskDict :=
  { tasks := [("a".data, mkRec "a" 1 none), ("b".data, mkRec "b" 2 (some "a")),
              ("c".data, mkRec "c" 3 (some "b"))],
    done := [] }

/-- The mapping claim C1 asserts: the shortest uniquely identifying leading
substring, except that any id related to another id of the set by the
leading-substring relation (in either direction) maps to its full identifier. -/
def claimedPfxC1 (ids : List Str) (x : Str) : Str :=
  if ids.any (fun y => decide (y ≠ x) && (isLead x y || isLead y x)) then x
  else expectedPfx ids x

instance {ε α : Type} [DecidableEq ε] [DecidableEq α] : DecidableEq (Except ε α) :=
  fun a b =>
    match a, b with
    | .ok x, .ok y => if h : x = y then .isTrue (by rw [h]) else .isFalse (by simp [h])
    | .error x, .error y => if h : x = y then .isTrue (by rw [h]) else .isFalse (by simp [h])
    | .ok _, .error _ => .isFalse (by simp)
    | .error _, .ok _ => .isFalse (by simp)

/-! Concrete findings. -/

/-- Claim C1 is false as stated: in the id set `{"ab", "abcd"}` the id `"ab"`
is a leading substring of `"abcd"`, so the claim requires both ids to map to
their full identifiers, but `_prefixes` maps `"abcd"` to `"abc"` (its
shortest uniquely identifying leading substring), not to `"abcd"`. -/
theorem C1_counterexample :
    pdGet? (_prefixes ["ab".data, "abcd".data]) "abcd".data = some "abc".data ∧
    claimedPfxC1 ["ab".data, "abcd".data] "abcd".data = "abcd".data ∧
    ("abc".data : Str) ≠ "abcd".data := by decide

/-- Claim C3 is right and the code is wrong: finishing task `a` of the chain
`a ← b ← c` with force set moves only `a` to done. The recursive call at
line 311 of `t.py` omits the `force` argument, so the cascade into `b` (which
has the open child `c`) is blocked by the guard it was supposed to override,
and `b` and `c` stay open. -/
theorem C3_force_not_propagated :
    finish_task chainTD "a".data true =
      .ok { tasks := [("b".data, mkRec "b" 2 (some "a")),
                      ("c".data, mkRec "c" 3 (some "b"))],
            done := [("a".data, mkRec "a" 1 none)] } := by decide

/-- One open task with text `"a|b"`; all metadata well-formed. -/
def pipeTD : TaskDict :=
  { tasks := [("x".data,
      { id := "x".data, text := "a|b".data, timestamp := 1,
        show_full_id := false, parent_id := none, tags := none, pfx := none })],
    done := [] }

/-- Claim C4 is false as stated: a store whose task text contains `'|'`
writes a taskline that does not load back. Loading splits at the first `'|'`
of the line, so the metadata part becomes `"b | {...}"`, which is not JSON,
and the reload fails instead of returning the original record. -/
theorem C4_counterexample :
    (writeStore pipeTD).1 =
      ["a|b | \x7b\"id\": \"x\", \"timestamp\": 1\x7d".data] ∧
    loadLines mkIdC (writeStore pipeTD).1 = .error .parseErr := by decide

/-- Claim C5 is false as stated, on two counts. A blank line is not skipped:
it becomes a brand-new task with empty text and a minted id. A line with two
`'|'` separators is split at the first one, not the last: the claim reads
`"a | \x7b\x7d | \x7b"id": "x"\x7d"` as text `"a | \x7b\x7d"` with metadata
`\x7b"id": "x"\x7d`, but the code hands `"\x7b\x7d | ..."` to the JSON
parser and load fails. -/
theorem C5_counterexample :
    _task_from_taskline mkIdC "".data =
      .ok (some { id := "h0".data, text := [], timestamp := 0,
                  show_full_id := false, parent_id := none, tags := none,
                  pfx := none }) ∧
    _task_from_taskline mkIdC "a | \x7b\x7d | \x7b\"id\": \"x\"\x7d".data =
      .error .parseErr := by decide

/-- Open tasks `a` and `b` (child of `a`). -/
def pcTD : TaskDict :=
  { tasks := [("a".data, mkRec "a" 1 none), ("b".data, mkRec "b" 2 (some "a"))],
    done := [] }

/-- Claim C6 is false in its display part: after removing `a`, the orphaned
child `b` (dangling `parent_id = "a"`) is retained in the store but a
subsequent list shows no rows at all — the dangling child is not displayed
as a top-level row, because the display filter only matches tasks whose
`parent_id` is literally the traversal parent. -/
theorem C6_counterexample :
    remove_task pcTD "a".data =
      .ok { tasks := [("b".data, mkRec "b" 2 (some "a"))], done := [] } ∧
    (print_list { tasks := [("b".data, mkRec "b" 2 (some "a"))], done := [] }
        false false false []).2 = [] := by decide

/-- One open task with text `"aa"`. -/
def aaTD : TaskDict :=
  { tasks := [("a".data, { mkRec "a" 1 none with text := "aa".data })],
    done := [] }

/-- Claim C7 is false as stated: `re.sub` without a count replaces every
non-overlapping occurrence, not only the first. Editing the text `"aa"` with
`"s/a/b/"` yields `"bb"`, while a single substitution on the first
occurrence would yield `"ba"`. -/
theorem C7_counterexample :
    edit_task aaTD "a".data "s/a/b/".data =
      .ok { tasks := [("a".data, { mkRec "a" 1 none with text := "bb".data })],
            done := [] } ∧
    ("bb".data : Str) ≠ "ba".data := by decide

/-- Claim C8 is right and the code is wrong: removing an absent tag is not a
no-op. With no `'tags'` key the unguarded `len(task['tags'])` check raises
KeyError; with a tags list not containing the tag, `list.remove` raises
ValueError. (Removing the last present tag does delete the field entirely:
the third conjunct returns the store to its tagless original.) -/
theorem C8_remove_tag_raises :
    tagOp chainTD "a".data "-x".data = .error .keyErr ∧
    (tagOp chainTD "a".data "p".data).bind
      (fun td => tagOp td "a".data "-q".data) = .error .valueErr ∧
    (tagOp chainTD "a".data "p".data).bind
      (fun td => tagOp td "a".data "-p".data) = .ok chainTD := by decide

set_option maxHeartbeats 2000000 in
/-- Claim C9 is right and the code is wrong: a non-verbose list is not
read-only. `print_list` copies the dict but shares the records, and stores
each computed prefix into the shared record under the `'prefix'` key, so
after listing, every open record has changed (and a later write persists the
new key). -/
theorem C9_print_list_mutates :
    (print_list chainTD false false false []).1 ≠ chainTD ∧
    (aGet? (print_list chainTD false false false []).1.tasks "a".data).map
        (fun r => r.pfx) = some (some "a".data) := by decide

/-- Claim C10 is false as stated: `add_task` with an explicit caller-supplied
id never checks the done collection, so adding id `"x"` while `"x"` is a done
task leaves `"x"` a key of both mappings at once. -/
theorem C10_counterexample :
    (add_task mkIdC 9 { tasks := [], done := [("x".data, mkRec "x" 1 none)] }
        "t".data "x".data []).map
      (fun td => (td.tasks.map Prod.fst, td.done.map Prod.fst)) =
    .ok ([ "x".data ], [ "x".data ]) := by decide

theorem aGet?_mem {β : Type} {l : List (Str × β)} {k : Str} {v : β}
    (h : aGet? l k = some v) : (k, v) ∈ l := by
  induction l with
  | nil => simp [aGet?] at h
  | cons kv rest ih =>
      simp only [aGet?] at h
      split at h
      · cases h
        rename_i he
        cases kv
        simp_all
      · simp [ih h]

theorem mem_keys_aGet? {β : Type} {l : List (Str × β)} {k : Str}
    (h : k ∈ l.map Prod.fst) : ∃ v, aGet? l k = some v := by
  induction l with
  | nil => simp at h
  | cons kv rest ih =>
      simp only [aGet?]
      split
      · exact ⟨kv.2, rfl⟩
      · rename_i hne
        simp only [List.map_cons, List.mem_cons] at h
        rcases h with h | h
        · exact absurd h.symm hne
        · exact ih h

/-- Claim C2: prefix resolution over the open collection. When exactly one
open id starts with the prefix, the task stored under it is returned; with no
match, UnknownPrefix; with several matches, AmbiguousPrefix unless the prefix
is itself one of the matching full ids, in which case that exact task is
returned. The hypothesis is the store invariant that every record is keyed by
its own id. -/
theorem C2_getitem_resolution (td : TaskDict) (p : Str)
    (hk : ∀ kv ∈ td.tasks, (kv.2 : TaskRec).id = kv.1) :
    (matchedIds td p = [] → getItem td p = .error (.unknownId p)) ∧
    (∀ i, matchedIds td p = [i] →
      ∃ r, aGet? td.tasks i = some r ∧ getItem td p = .ok r ∧
           isLead p r.id ∧ r.id = i) ∧
    (2 ≤ (matchedIds td p).length →
      ((p ∈ matchedIds td p →
        ∃ r, aGet? td.tasks p = some r ∧ getItem td p = .ok r ∧ r.id = p) ∧
       (p ∉ matchedIds td p → getItem td p = .error (.ambiguousId p)))) := by
  refine ⟨?_, ?_, ?_⟩
  · intro h
    rw [getItem, h]
  · intro i h
    have hmem : i ∈ matchedIds td p := by rw [h]; simp
    have hik : i ∈ td.tasks.map Prod.fst := List.mem_of_mem_filter hmem
    obtain ⟨r, hr⟩ := mem_keys_aGet? hik
    have hri : r.id = i := hk _ (aGet?_mem hr)
    refine ⟨r, hr, ?_, ?_, hri⟩
    · rw [getItem, h]
      simp [hr]
    · rw [hri]
      exact (List.mem_filter.mp hmem).2
  · intro hlen
    constructor
    · intro hp
      have hpk : p ∈ td.tasks.map Prod.fst := List.mem_of_mem_filter hp
      obtain ⟨r, hr⟩ := mem_keys_aGet? hpk
      have hrp : r.id = p := hk _ (aGet?_mem hr)
      refine ⟨r, hr, ?_, hrp⟩
      rw [getItem]
      match hm : matchedIds td p with
      | [] => rw [hm] at hlen; simp at hlen
      | [m] => rw [hm] at hlen; simp at hlen
      | m1 :: m2 :: rest =>
          rw [hm] at hp
          simp [hp, hr]
    · intro hp
      rw [getItem]
      match hm : matchedIds td p with
      | [] => rw [hm] at hlen; simp at hlen
      | [m] => rw [hm] at hlen; simp at hlen
      | m1 :: m2 :: rest =>
          rw [hm] at hp
          simp [hp]

/-- Witness for C2: resolving the full id `b` in the concrete chain store. -/
theorem C2_getitem_resolution_witness :
    getItem chainTD "b".data = .ok (mkRec "b" 2 (some "a")) := by
  obtain ⟨-, h1, -⟩ := C2_getitem_resolution chainTD "b".data (by decide)
  obtain ⟨r, hr, hg, -, -⟩ := h1 "b".data (by decide)
  have he : aGet? chainTD.tasks "b".data = some (mkRec "b" 2 (some "a")) := by decide
  rw [he] at hr
  cases hr
  exact hg

theorem insSorted_perm (ltb : TaskRec → TaskRec → Bool) (l : List TaskRec)
    (x : TaskRec) : (insSorted ltb l x).Perm (x :: l) := by
  induction l with
  | nil => rfl
  | cons y ys ih =>
      rw [insSorted]
      split
      · exact List.Perm.refl _
      · exact ((ih.cons y).trans (List.Perm.swap x y ys))

theorem pySorted_perm_aux (ltb : TaskRec → TaskRec → Bool) (l acc : List TaskRec) :
    (l.foldl (insSorted ltb) acc).Perm (acc ++ l) := by
  induction l generalizing acc with
  | nil => simp
  | cons x xs ih =>
      simp only [List.foldl_cons]
      exact (ih (insSorted ltb acc x)).trans
        (((insSorted_perm ltb acc x).append_right xs).trans List.perm_middle.symm)

theorem pySorted_perm (ltb : TaskRec → TaskRec → Bool) (l : List TaskRec) :
    (pySorted ltb l).Perm l := by
  simpa using pySorted_perm_aux ltb l []

/-- Claim C5 as amended: classification of one line by the loader. Comment
lines are skipped; a line containing `'|'` takes its text from the part
before the FIRST `'|'` (stripped) and its metadata from the JSON after it,
the load failing on invalid JSON; any other line — including a blank one —
becomes a brand-new unfinished task with minted id and timestamp 0. -/
theorem C5_amended_load_classification (mkId : Str → Str) (line : Str) :
    (isLead ['#'] (pyStrip line) = true → _task_from_taskline mkId line = .ok none) ∧
    (isLead ['#'] (pyStrip line) = false → hasChar line '|' = true →
       _task_from_taskline mkId line =
         (match parseMeta ((line.dropWhile (fun c => c ≠ '|')).drop 1) with
          | none => .error .parseErr
          | some r => .ok (some { r with text := pyStrip (line.takeWhile (fun c => c ≠ '|')) }))) ∧
    (isLead ['#'] (pyStrip line) = false → hasChar line '|' = false →
       _task_from_taskline mkId line =
         .ok (some { id := mkId (pyStrip line), text := pyStrip line, timestamp := 0,
                     show_full_id := false, parent_id := none, tags := none,
                     pfx := none })) := by
  refine ⟨?_, ?_, ?_⟩
  · intro h
    rw [_task_from_taskline, if_pos h]
  · intro h1 h2
    rw [_task_from_taskline, if_neg (by simp [h1]), if_pos h2]
    simp [pyPartition, h2]
  · intro h1 h2
    rw [_task_from_taskline, if_neg (by simp [h1]), if_neg (by simp [h2])]

/-- Witness for the amended C5 at the bare-text line `"hello"`. -/
theorem C5_amended_witness :
    _task_from_taskline mkIdC "hello".data =
      .ok (some { id := "h0".data, text := "hello".data, timestamp := 0,
                  show_full_id := false, parent_id := none, tags := none,
                  pfx := none }) := by
  have h := (C5_amended_load_classification mkIdC "hello".data).2.2
    (by decide) (by decide)
  rw [h]
  decide

/-- Position of the leftmost occurrence of `find` in `s`, if any (the empty
pattern matches at position 0). -/
def firstOcc (find : Str) : Str → Option Nat
  | [] => if find = [] then some 0 else none
  | c :: rest =>
      if isLead find (c :: rest) then some 0
      else (firstOcc find rest).map (· + 1)

theorem subAllF_irrel (find repl : Str) :
    ∀ (f1 : Nat) (s : Str) (f2 : Nat), s.length ≤ f1 → s.length ≤ f2 →
      subAllF find repl f1 s = subAllF find repl f2 s := by
  intro f1
  induction f1 with
  | zero =>
      intro s f2 h1 _
      cases s with
      | nil => cases f2 <;> rfl
      | cons c rest => simp at h1
  | succ f ih =>
      intro s f2 h1 h2
      cases s with
      | nil => cases f2 <;> rfl
      | cons c rest =>
          cases f2 with
          | zero => simp at h2
          | succ g =>
              simp only [subAllF]
              split
              · rename_i hemp
                simp at h1 h2
                rw [ih rest g (by omega) (by omega)]
              · split
                · rename_i hemp hl
                  have hfl : 1 ≤ find.length := by
                    cases find with
                    | nil => exact absurd rfl hemp
                    | cons a l => simp
                  simp only [List.length_cons] at h1 h2
                  rw [ih ((c :: rest).drop find.length) g
                        (by simp; omega) (by simp; omega)]
                · rename_i hemp hl
                  simp only [List.length_cons] at h1 h2
                  rw [ih rest g (by omega) (by omega)]

theorem subAll_not_occurs (find repl : Str) (hf : find ≠ []) :
    ∀ s : Str, firstOcc find s = none → subAll find repl s = s := by
  intro s
  induction s with
  | nil => intro _; simp [subAll, subAllF, hf]
  | cons c rest ih =>
      intro h
      rw [firstOcc] at h
      split at h
      · cases h
      · rename_i hl
        have hrest : firstOcc find rest = none := by
          cases hh : firstOcc find rest with
          | none => rfl
          | some k => rw [hh] at h; simp at h
        rw [subAll]
        simp only [List.length_cons, subAllF]
        rw [if_neg hf, if_neg hl]
        have hd : subAllF find repl rest.length rest = subAll find repl rest := rfl
        rw [hd, ih hrest]

theorem subAll_leftmost (find repl : Str) (hf : find ≠ []) :
    ∀ (s : Str) (k : Nat), firstOcc find s = some k →
      subAll find repl s =
        s.take k ++ repl ++ subAll find repl (s.drop (k + find.length)) := by
  intro s
  induction s with
  | nil => intro k h; simp [firstOcc, hf] at h
  | cons c rest ih =>
      intro k h
      rw [firstOcc] at h
      split at h
      · rename_i hl
        cases h
        have hfl : 1 ≤ find.length := by
          cases find with
          | nil => exact absurd rfl hf
          | cons a l => simp
        rw [subAll]
        simp only [List.length_cons, subAllF]
        rw [if_neg hf, if_pos hl]
        simp only [List.take_zero, List.nil_append, Nat.zero_add]
        rw [subAllF_irrel find repl rest.length ((c :: rest).drop find.length)
              ((c :: rest).drop find.length).length (by simp; omega) (le_refl _)]
        rfl
      · rename_i hl
        cases hh : firstOcc find rest with
        | none => rw [hh] at h; simp at h
        | some k' =>
            rw [hh] at h
            simp only [Option.map_some'] at h
            cases h
            rw [subAll]
            simp only [List.length_cons, subAllF]
            rw [if_neg hf, if_neg hl]
            have hd : subAllF find repl rest.length rest = subAll find repl rest := rfl
            rw [hd, ih k' hh]
            have harr : k' + 1 + find.length = (k' + find.length) + 1 := by omega
            rw [harr]
            simp [List.take_succ_cons, List.drop_succ_cons, List.cons_append]

/-- Record with replaced text. -/
def withText (task : TaskRec) (s : Str) : TaskRec := { task with text := s }

/-- Store with replaced open collection. -/
def setOpen (td : TaskDict) (recs : List (Str × TaskRec)) : TaskDict :=
  { td with tasks := recs }

/-- Claim C7 as amended: for a resolvable prefix, a `newText` starting with
`s/` or `/` runs a substitution whose pattern (modelled for patterns free of
regex metacharacters) is applied to every leftmost non-overlapping occurrence
in the current text — characterized below by the no-occurrence case and the
leftmost-occurrence recurrence — while any other `newText` replaces the text
verbatim. -/
theorem C7_amended_edit_subst (td : TaskDict) (p text : Str) (task : TaskRec)
    (hres : getItem td p = .ok task) :
    ((isLead ['s', '/'] text = false ∧ isLead ['/'] text = false) →
       edit_task td p text =
         .ok (setOpen td (aSet td.tasks task.id (withText task text)))) ∧
    ((isLead ['s', '/'] text = true ∨ isLead ['/'] text = true) →
       ∃ find repl,
         (find, repl) = pyPartition (rstripSlash (dropSlashHead text)) '/' ∧
         edit_task td p text =
           .ok (setOpen td (aSet td.tasks task.id
                  (withText task (subAll find repl task.text)))) ∧
         (find ≠ [] → firstOcc find task.text = none →
            subAll find repl task.text = task.text) ∧
         (∀ k, find ≠ [] → firstOcc find task.text = some k →
            subAll find repl task.text =
              task.text.take k ++ repl ++
                subAll find repl (task.text.drop (k + find.length)))) := by
  constructor
  · intro ⟨h1, h2⟩
    rw [edit_task, hres]
    simp [h1, h2, withText, setOpen]
  · intro hor
    refine ⟨(pyPartition (rstripSlash (dropSlashHead text)) '/').1,
            (pyPartition (rstripSlash (dropSlashHead text)) '/').2, rfl, ?_, ?_, ?_⟩
    · rw [edit_task, hres]
      have hb : (isLead ['s', '/'] text || isLead ['/'] text) = true := by
        rcases hor with h | h <;> simp [h]
      simp [hb, withText, setOpen]
    · intro hf hno
      exact subAll_not_occurs _ _ hf _ hno
    · intro k hf hk
      exact subAll_leftmost _ _ hf _ k hk

/-- Witness for the amended C7: the sed-form edit `s/a/b/` on text `"aa"`. -/
theorem C7_amended_witness :
    edit_task aaTD "a".data "s/a/b/".data =
      .ok { tasks := [("a".data, { mkRec "a" 1 none with text := "bb".data })],
            done := [] } := by
  obtain ⟨-, h2⟩ := C7_amended_edit_subst aaTD "a".data "s/a/b/".data
      ({ mkRec "a" 1 none with text := "aa".data }) (by decide)
  obtain ⟨find, repl, hfr, he, -, -⟩ := h2 (Or.inl (by decide))
  have hc : pyPartition (rstripSlash (dropSlashHead "s/a/b/".data)) '/' =
      ("a".data, "b".data) := by decide
  rw [hc] at hfr
  simp only [Prod.mk.injEq] at hfr
  obtain ⟨rfl, rfl⟩ := hfr
  rw [he]
  decide

/-! Store well-formedness: every record sits under its own id. -/

def keyedBy (recs : List (Str × TaskRec)) : Prop :=
  ∀ kv ∈ recs, (kv.2 : TaskRec).id = kv.1

instance (recs : List (Str × TaskRec)) : Decidable (keyedBy recs) :=
  List.decidableBAll _ recs

theorem aGet?_key_mem {β : Type} {l : List (Str × β)} {k : Str} {v : β}
    (h : aGet? l k = some v) : k ∈ l.map Prod.fst := by
  have := aGet?_mem h
  exact List.mem_map_of_mem Prod.fst this

theorem aSet_keys_of_mem {β : Type} {l : List (Str × β)} {k : Str} (v : β)
    (h : k ∈ l.map Prod.fst) : (aSet l k v).map Prod.fst = l.map Prod.fst := by
  induction l with
  | nil => simp at h
  | cons kv rest ih =>
      rw [aSet]
      split
      · rename_i he; simp [he]
      · rename_i hne
        simp only [List.map_cons, List.mem_cons] at h
        rcases h with h | h
        · exact absurd h.symm hne
        · simp [ih h]

theorem keyedBy_aSet {l : List (Str × TaskRec)} {k : Str} {v : TaskRec}
    (hl : keyedBy l) (hv : v.id = k) : keyedBy (aSet l k v) := by
  induction l with
  | nil => intro kv hkv; simp [aSet] at hkv; simp [hkv, hv]
  | cons kv0 rest ih =>
      intro kv hkv
      rw [aSet] at hkv
      split at hkv
      · rename_i he
        rcases List.mem_cons.mp hkv with h | h
        · simp [h, hv]
        · exact hl kv (List.mem_cons_of_mem _ h)
      · rcases List.mem_cons.mp hkv with h | h
        · exact hl kv (h ▸ List.mem_cons_self _ _)
        · have hrest : keyedBy rest := fun x hx => hl x (List.mem_cons_of_mem _ hx)
          exact ih hrest kv h

theorem aDel_subset {β : Type} {l : List (Str × β)} {k : Str} {kv : Str × β}
    (h : kv ∈ aDel l k) : kv ∈ l := by
  induction l with
  | nil => simp [aDel] at h
  | cons kv0 rest ih =>
      rw [aDel] at h
      split at h
      · exact List.mem_cons_of_mem _ h
      · rcases List.mem_cons.mp h with h | h
        · simp [h]
        · exact List.mem_cons_of_mem _ (ih h)

theorem mem_aDel {β : Type} {l : List (Str × β)} {k : Str} {kv : Str × β}
    (h : kv ∈ l) (hne : kv.1 ≠ k) : kv ∈ aDel l k := by
  induction l with
  | nil => simp at h
  | cons kv0 rest ih =>
      rw [aDel]
      split
      · rename_i he
        rcases List.mem_cons.mp h with h | h
        · exact absurd (h ▸ he) hne
        · exact h
      · rcases List.mem_cons.mp h with h | h
        · simp [h]
        · exact List.mem_cons_of_mem _ (ih h)

theorem aDel_not_mem {β : Type} {l : List (Str × β)} {k : Str}
    (h : (l.map Prod.fst).Nodup) : k ∉ (aDel l k).map Prod.fst := by
  induction l with
  | nil => simp [aDel]
  | cons kv0 rest ih =>
      rw [aDel]
      split
      · rename_i he
        intro hk
        obtain ⟨kv, hkv, hk1⟩ := List.mem_map.mp hk
        have : kv0.1 ∈ rest.map Prod.fst := by
          rw [he, ← hk1]; exact List.mem_map_of_mem _ hkv
        exact (List.nodup_cons.mp h).1 this
      · rename_i hne
        intro hk
        rcases List.mem_map.mp hk with ⟨kv, hkv, hk1⟩
        rcases List.mem_cons.mp hkv with h1 | h1
        · exact hne (by have := h1 ▸ hk1; simpa using this)
        · have hm : kv.1 ∈ (aDel rest k).map Prod.fst := List.mem_map_of_mem _ h1
          rw [hk1] at hm
          exact ih (List.nodup_cons.mp h).2 hm

theorem setPfxs_fold_inv (ql : PDict) :
    ∀ acc : List (Str × TaskRec),
      ((ql.foldl (fun acc kv =>
          match aGet? acc kv.1 with
          | some r =>
              aSet acc kv.1 { r with pfx := some (if r.show_full_id then kv.1 else kv.2) }
          | none => acc) acc).map Prod.fst = acc.map Prod.fst)
      ∧ (keyedBy acc →
         keyedBy (ql.foldl (fun acc kv =>
          match aGet? acc kv.1 with
          | some r =>
              aSet acc kv.1 { r with pfx := some (if r.show_full_id then kv.1 else kv.2) }
          | none => acc) acc)) := by
  induction ql with
  | nil => intro acc; exact ⟨rfl, fun h => h⟩
  | cons kv0 rest ih =>
      intro acc
      simp only [List.foldl_cons]
      cases hq : aGet? acc kv0.1 with
      | none => simpa [hq] using ih acc
      | some r =>
          have hkm : kv0.1 ∈ acc.map Prod.fst := aGet?_key_mem hq
          simp only [hq]
          constructor
          · rw [(ih _).1, aSet_keys_of_mem _ hkm]
          · intro hkb
            refine (ih _).2 ?_
            have hr : r.id = kv0.1 := hkb _ (aGet?_mem hq)
            exact keyedBy_aSet hkb (by simp [hr])

theorem setPfxs_keys (recs : List (Str × TaskRec)) :
    (setPfxs recs).map Prod.fst = recs.map Prod.fst :=
  (setPfxs_fold_inv (_prefixes (recs.map Prod.fst)) recs).1

theorem setPfxs_keyedBy {recs : List (Str × TaskRec)} (h : keyedBy recs) :
    keyedBy (setPfxs recs) :=
  (setPfxs_fold_inv (_prefixes (recs.map Prod.fst)) recs).2 h

theorem val_id_mem {recs : List (Str × TaskRec)} {t : TaskRec}
    (hk : keyedBy recs) (h : t ∈ recs.map Prod.snd) :
    t.id ∈ recs.map Prod.fst := by
  obtain ⟨kv, hkv, rfl⟩ := List.mem_map.mp h
  rw [hk kv hkv]
  exact List.mem_map_of_mem _ hkv

theorem mem_sortByTime {l : List TaskRec} {t : TaskRec}
    (h : t ∈ sortByTime l) : t ∈ l :=
  (pySorted_perm _ l).mem_iff.mp h

/-- Fold invariant of one display level, for any recursion behavior `next`
that preserves keys and keyed-ness and whose rows point at its parent or at a
member of its collection. -/
theorem walk_fold_inv (u v q : Bool) (g : Str) (par : Option Str) (ind : Str)
    (plen : Nat) (K : List Str)
    (next : TaskDict → Option Str → Str → TaskDict × List (Str × TaskRec))
    (hnext : ∀ s p i, keyedBy (colOf s u) →
        ((colOf (next s p i).1 u).map Prod.fst = (colOf s u).map Prod.fst
          ∧ keyedBy (colOf (next s p i).1 u))
        ∧ (∀ pr ∈ (next s p i).2,
             pr.2.parent_id = p ∨
             ∃ j ∈ (colOf s u).map Prod.fst, pr.2.parent_id = some j)) :
    ∀ (l : List TaskRec) (acc : TaskDict × List (Str × TaskRec)),
      (∀ t ∈ l, t.id ∈ K) →
      ((colOf acc.1 u).map Prod.fst = K ∧ keyedBy (colOf acc.1 u)) →
      (∀ pr ∈ acc.2, pr.2.parent_id = par ∨ ∃ j ∈ K, pr.2.parent_id = some j) →
      (((colOf (l.foldl (walkStep next v q g par ind plen) acc).1 u).map Prod.fst = K
         ∧ keyedBy (colOf (l.foldl (walkStep next v q g par ind plen) acc).1 u))
       ∧ (∀ pr ∈ (l.foldl (walkStep next v q g par ind plen) acc).2,
            pr.2.parent_id = par ∨ ∃ j ∈ K, pr.2.parent_id = some j)) := by
  intro l
  induction l with
  | nil => intro acc _ hacc hrows; exact ⟨hacc, hrows⟩
  | cons t ts ihl =>
      intro acc hids hacc hrows
      simp only [List.foldl_cons]
      have hts : ∀ x ∈ ts, x.id ∈ K := fun x hx => hids x (List.mem_cons_of_mem _ hx)
      by_cases h1 : hasSub (pyLower g) (pyLower t.text) = true
      · by_cases h2 : par = t.parent_id
        · have hn := hnext acc.1 (some t.id) (ind ++ "  ".data) hacc.2
          have hstep : walkStep next v q g par ind plen acc t =
              ((next acc.1 (some t.id) (ind ++ "  ".data)).1,
               acc.2 ++ (renderRow ind plen v q (num_children acc.1 t) t, t) ::
                 (next acc.1 (some t.id) (ind ++ "  ".data)).2) := by
            rw [walkStep, if_pos h1, if_pos h2]
          rw [hstep]
          apply ihl _ hts
          · exact ⟨hn.1.1.trans hacc.1, hn.1.2⟩
          · intro pr hpr
            simp only [List.mem_append, List.mem_cons] at hpr
            rcases hpr with hpr | hpr | hpr
            · exact hrows pr hpr
            · left; rw [hpr]; exact h2.symm
            · rcases hn.2 pr hpr with hp | ⟨j, hj, hp⟩
              · exact Or.inr ⟨t.id, hids t (List.mem_cons_self _ _), hp⟩
              · rw [hacc.1] at hj
                exact Or.inr ⟨j, hj, hp⟩
        · have hstep : walkStep next v q g par ind plen acc t = acc := by
            rw [walkStep, if_pos h1, if_neg h2]
          rw [hstep]
          exact ihl acc hts hacc hrows
      · have hstep : walkStep next v q g par ind plen acc t = acc := by
          rw [walkStep, if_neg h1]
        rw [hstep]
        exact ihl acc hts hacc hrows

/-- Structural invariant of the display walk: the walk never changes the key
set of the listed collection, keeps it keyed by id, and every displayed
record's `parent_id` is either the parent the walk was asked for or the id of
some member of the listed collection. -/
theorem printWalkF_inv (fuel : Nat) :
    ∀ (td : TaskDict) (u v q : Bool) (g : Str) (par : Option Str) (ind : Str),
      keyedBy (colOf td u) →
      ((colOf (printWalkF fuel td u v q g par ind).1 u).map Prod.fst
          = (colOf td u).map Prod.fst
       ∧ keyedBy (colOf (printWalkF fuel td u v q g par ind).1 u))
      ∧ (∀ pr ∈ (printWalkF fuel td u v q g par ind).2,
           pr.2.parent_id = par ∨
           ∃ i ∈ (colOf td u).map Prod.fst, pr.2.parent_id = some i) := by
  induction fuel with
  | zero =>
      intro td u v q g par ind hk
      exact ⟨⟨rfl, hk⟩, by intro pr hpr; simp [printWalkF] at hpr⟩
  | succ fuel ih =>
      intro td u v q g par ind hk
      have hcol' : ((if v then colOf td u else setPfxs (colOf td u)).map Prod.fst
          = (colOf td u).map Prod.fst) := by
        split
        · rfl
        · exact setPfxs_keys _
      have hcol'k : keyedBy (if v then colOf td u else setPfxs (colOf td u)) := by
        split
        · exact hk
        · exact setPfxs_keyedBy hk
      have hset : colOf (setCol td u (if v then colOf td u else setPfxs (colOf td u))) u
          = (if v then colOf td u else setPfxs (colOf td u)) := by
        cases u <;> simp [colOf, setCol]
      simp only [printWalkF]
      apply walk_fold_inv u v q g par ind _ ((colOf td u).map Prod.fst)
        (fun s p i => printWalkF fuel s u v q g p i)
        (fun s p i hks => ih s u v q g p i hks)
      · intro t ht
        have hvals := mem_sortByTime ht
        have := val_id_mem hcol'k hvals
        rw [hcol'] at this
        exact this
      · rw [hset]
        exact ⟨hcol', hcol'k⟩
      · intro pr hpr
        simp at hpr

theorem getItem_ok_get {td : TaskDict} {p : Str} {t : TaskRec}
    (hk : keyedBy td.tasks) (h : getItem td p = .ok t) :
    aGet? td.tasks t.id = some t := by
  rw [getItem] at h
  match hm : matchedIds td p with
  | [m] =>
      rw [hm] at h
      match hg : aGet? td.tasks m with
      | some r =>
          simp only [hg] at h
          cases h
          rw [hk _ (aGet?_mem hg)]
          exact hg
      | none => simp only [hg] at h; cases h
  | [] => rw [hm] at h; cases h
  | m1 :: m2 :: ms =>
      rw [hm] at h
      by_cases hp : p ∈ m1 :: m2 :: ms
      · match hg : aGet? td.tasks p with
        | some r =>
            simp only [hp, if_true, hg] at h
            cases h
            rw [hk _ (aGet?_mem hg)]
            exact hg
        | none => simp only [hp, if_true, hg] at h; cases h
      · simp only [hp, if_false] at h; cases h

/-- Claim C6 as amended: removal deletes exactly the resolved task — the done
collection and every other open record (children included, with their now
dangling `parent_id`) survive verbatim — and a subsequent list terminates
normally but displays none of the orphaned children: no displayed row can
carry the removed id as its `parent_id`. -/
theorem C6_amended_remove_no_cascade (td : TaskDict) (p : Str) (t : TaskRec)
    (hkey : keyedBy td.tasks) (hnd : (td.tasks.map Prod.fst).Nodup)
    (hres : getItem td p = .ok t) :
    remove_task td p = .ok (setOpen td (aDel td.tasks t.id)) ∧
    (setOpen td (aDel td.tasks t.id)).done = td.done ∧
    (∀ kv ∈ td.tasks, kv.1 ≠ t.id → kv ∈ (setOpen td (aDel td.tasks t.id)).tasks) ∧
    (∀ fuel v q g ind,
       ∀ pr ∈ (printWalkF fuel (setOpen td (aDel td.tasks t.id))
                 false v q g none ind).2,
         pr.2.parent_id ≠ some t.id) := by
  have hget := getItem_ok_get hkey hres
  refine ⟨?_, rfl, ?_, ?_⟩
  · rw [remove_task, hres]
    simp [hget, setOpen]
  · intro kv hkv hne
    exact mem_aDel hkv hne
  · intro fuel v q g ind pr hpr
    have hkd : keyedBy (colOf (setOpen td (aDel td.tasks t.id)) false) := by
      intro kv hkv
      exact hkey kv (aDel_subset hkv)
    have hinv := (printWalkF_inv fuel (setOpen td (aDel td.tasks t.id))
      false v q g none ind hkd).2 pr hpr
    intro hpid
    rcases hinv with hp | ⟨i, hi, hp⟩
    · rw [hpid] at hp; cases hp
    · rw [hpid] at hp
      cases hp
      exact aDel_not_mem hnd hi

/-- Witness for the amended C6 at the two-task store: removing `a` keeps the
orphan `b` in the store, and the subsequent list displays no row with the
removed parent. -/
theorem C6_amended_witness :
    remove_task pcTD "a".data = .ok (setOpen pcTD (aDel pcTD.tasks "a".data)) ∧
    (∀ pr ∈ (printWalkF ((aDel pcTD.tasks ("a".data : Str)).length + 1)
        (setOpen pcTD (aDel pcTD.tasks "a".data)) false false false [] none []).2,
       pr.2.parent_id ≠ some "a".data) := by
  obtain ⟨h1, -, -, h4⟩ := C6_amended_remove_no_cascade pcTD "a".data
      (mkRec "a" 1 none) (by decide) (by decide) (by decide)
  exact ⟨h1, fun pr hpr => h4 _ false false [] [] pr hpr⟩

theorem mem_aSet_keys {β : Type} {l : List (Str × β)} {k k' : Str} {v : β}
    (h : k' ∈ (aSet l k v).map Prod.fst) : k' = k ∨ k' ∈ l.map Prod.fst := by
  induction l with
  | nil => simp [aSet] at h; exact Or.inl h
  | cons kv rest ih =>
      rw [aSet] at h
      split at h
      · rename_i he
        simp only [List.map_cons, List.mem_cons] at h
        rcases h with h | h
        · exact Or.inl h
        · exact Or.inr (by rw [List.map_cons]; exact List.mem_cons.mpr (Or.inr h))
      · simp only [List.map_cons, List.mem_cons] at h
        rcases h with h | h
        · exact Or.inr (by rw [List.map_cons]; exact List.mem_cons.mpr (Or.inl h))
        · rcases ih h with h | h
          · exact Or.inl h
          · exact Or.inr (by rw [List.map_cons]; exact List.mem_cons.mpr (Or.inr h))

theorem aSet_nodup {β : Type} {l : List (Str × β)} {k : Str} {v : β}
    (h : (l.map Prod.fst).Nodup) : ((aSet l k v).map Prod.fst).Nodup := by
  by_cases hk : k ∈ l.map Prod.fst
  · rw [aSet_keys_of_mem v hk]; exact h
  · have : (aSet l k v).map Prod.fst = l.map Prod.fst ++ [k] := by
      clear h
      induction l with
      | nil => simp [aSet]
      | cons kv rest ih =>
          rw [aSet]
          split
          · rename_i he
            exact absurd (by rw [List.map_cons]; exact List.mem_cons.mpr (Or.inl he.symm)) hk
          · have hk' : k ∉ rest.map Prod.fst :=
              fun hm => hk (by rw [List.map_cons]; exact List.mem_cons.mpr (Or.inr hm))
            simp only [List.map_cons, ih hk', List.cons_append]
    rw [this]
    simp [List.nodup_append, h, hk]

theorem aDel_sublist {β : Type} (l : List (Str × β)) (k : Str) :
    (aDel l k).Sublist l := by
  induction l with
  | nil => simp [aDel]
  | cons kv rest ih =>
      rw [aDel]
      split
      · exact List.sublist_cons_self _ _
      · exact ih.cons₂ kv

theorem aDel_keys_nodup {β : Type} {l : List (Str × β)} {k : Str}
    (h : (l.map Prod.fst).Nodup) : ((aDel l k).map Prod.fst).Nodup :=
  ((aDel_sublist l k).map Prod.fst).nodup h

theorem aDel_keys_mem {β : Type} {l : List (Str × β)} {k k' : Str}
    (h : k' ∈ (aDel l k).map Prod.fst) : k' ∈ l.map Prod.fst := by
  obtain ⟨kv, hkv, rfl⟩ := List.mem_map.mp h
  exact List.mem_map_of_mem _ (aDel_subset hkv)

/-! Store invariants and their preservation by the five operations. -/

/-- Keys of a collection are pairwise distinct (true of any Python dict). -/
def uniqKeys {β : Type} (l : List (Str × β)) : Prop := (l.map Prod.fst).Nodup

/-- No id is a key of both collections. -/
def disjointKeys (td : TaskDict) : Prop :=
  ∀ k, k ∈ td.tasks.map Prod.fst → k ∉ td.done.map Prod.fst

/-- Well-formedness of a store: both dicts are keyed by the record ids, have
unique keys, and share no key. -/
def StoreInv (td : TaskDict) : Prop :=
  keyedBy td.tasks ∧ keyedBy td.done ∧ uniqKeys td.tasks ∧ uniqKeys td.done ∧
    disjointKeys td

theorem keyedBy_aDel {l : List (Str × TaskRec)} {k : Str} (h : keyedBy l) :
    keyedBy (aDel l k) := fun kv hkv => h kv (aDel_subset hkv)

theorem addTag_id (t : TaskRec) (tag : Str) : (addTag t tag).id = t.id := by
  cases hm : t.tags <;> simp [addTag, hm]

theorem removeTag_id {t : TaskRec} {tag : Str} {t' : TaskRec}
    (h : removeTag t tag = .ok t') : t'.id = t.id := by
  cases hm : t.tags with
  | none => simp [removeTag, hm] at h
  | some l0 =>
      cases hlr : listRemove l0 tag with
      | error e => simp [removeTag, hm, hlr] at h
      | ok l' =>
          simp [removeTag, hm, hlr] at h
          rw [← h]

theorem tagStep_id : ∀ (toks : List Str) (acc : Except TErr TaskRec)
    (task' : TaskRec) (i : Str),
    (∀ t, acc = .ok t → t.id = i) →
    toks.foldl tagStep acc = .ok task' → task'.id = i := by
  intro toks
  induction toks with
  | nil => intro acc task' i hacc h; exact hacc _ h
  | cons tok ts ih =>
      intro acc task' i hacc h
      simp only [List.foldl_cons] at h
      refine ih _ _ _ ?_ h
      intro t ht
      match hc : acc with
      | .error e => simp only [tagStep] at ht; cases ht
      | .ok t0 =>
          have h0 := hacc t0 rfl
          simp only [tagStep] at ht
          split at ht
          · cases ht; exact h0
          · split at ht
            · exact (removeTag_id ht).trans h0
            · cases ht
              exact (addTag_id t0 tok).trans h0

theorem add_task_inv (mkId : Str → Str) (now : Nat) (td : TaskDict)
    (text tid pid : Str) (td' : TaskDict) (hinv : StoreInv td)
    (hfresh : (if tid = [] then mkId text else tid) ∉ td.done.map Prod.fst)
    (h : add_task mkId now td text tid pid = .ok td') : StoreInv td' := by
  obtain ⟨hk1, hk2, hu1, hu2, hd⟩ := hinv
  rw [add_task] at h
  split at h
  · cases h
  · rename_i resolved heq
    simp only [] at h
    cases h
    refine ⟨?_, hk2, ?_, hu2, ?_⟩
    · exact keyedBy_aSet hk1 rfl
    · exact aSet_nodup hu1
    · intro k hk
      rcases mem_aSet_keys hk with rfl | hk
      · exact hfresh
      · exact hd k hk

theorem edit_task_inv (td : TaskDict) (p text : Str) (td' : TaskDict)
    (hinv : StoreInv td) (h : edit_task td p text = .ok td') : StoreInv td' := by
  obtain ⟨hk1, hk2, hu1, hu2, hd⟩ := hinv
  match hg : getItem td p with
  | .error e => rw [edit_task, hg] at h; cases h
  | .ok task =>
      rw [edit_task, hg] at h
      simp only [] at h
      cases h
      have hmem : task.id ∈ td.tasks.map Prod.fst :=
        aGet?_key_mem (getItem_ok_get hk1 hg)
      refine ⟨keyedBy_aSet hk1 rfl, hk2, ?_, hu2, ?_⟩
      · unfold uniqKeys
        rw [aSet_keys_of_mem _ hmem]
        exact hu1
      · intro k hk
        rw [aSet_keys_of_mem _ hmem] at hk
        exact hd k hk

theorem tagOp_inv (td : TaskDict) (p spec : Str) (td' : TaskDict)
    (hinv : StoreInv td) (h : tagOp td p spec = .ok td') : StoreInv td' := by
  obtain ⟨hk1, hk2, hu1, hu2, hd⟩ := hinv
  match hg : getItem td p with
  | .error e => rw [tagOp, hg] at h; cases h
  | .ok task0 =>
      rw [tagOp, hg] at h
      simp only [] at h
      match hf : (splitSp (pyStrip spec)).foldl tagStep (.ok task0) with
      | .error e => rw [hf] at h; cases h
      | .ok task =>
          rw [hf] at h
          cases h
          have hid : task.id = task0.id :=
            tagStep_id _ _ _ task0.id (by intro t ht; cases ht; rfl) hf
          have hmem : task.id ∈ td.tasks.map Prod.fst := by
            rw [hid]
            exact aGet?_key_mem (getItem_ok_get hk1 hg)
          refine ⟨keyedBy_aSet hk1 rfl, hk2, ?_, hu2, ?_⟩
          · unfold uniqKeys
            rw [aSet_keys_of_mem _ hmem]
            exact hu1
          · intro k hk
            rw [aSet_keys_of_mem _ hmem] at hk
            exact hd k hk

theorem remove_task_inv (td : TaskDict) (p : Str) (td' : TaskDict)
    (hinv : StoreInv td) (h : remove_task td p = .ok td') : StoreInv td' := by
  obtain ⟨hk1, hk2, hu1, hu2, hd⟩ := hinv
  match hg : getItem td p with
  | .error e => rw [remove_task, hg] at h; cases h
  | .ok t =>
      rw [remove_task, hg] at h
      simp only [] at h
      match ha : aGet? td.tasks t.id with
      | none => rw [ha] at h; cases h
      | some r =>
          rw [ha] at h
          simp only [] at h
          cases h
          refine ⟨keyedBy_aDel hk1, hk2, aDel_keys_nodup hu1, hu2, ?_⟩
          intro k hk
          exact hd k (aDel_keys_mem hk)

theorem finishFold_err (next : TaskDict → Str → Except TErr TaskDict) (e : TErr) :
    ∀ l : List TaskRec, l.foldl (finishFold next) (.error e) = .error e := by
  intro l
  induction l with
  | nil => rfl
  | cons c cs ih => simp only [List.foldl_cons, finishFold]; exact ih

theorem finishFold_inv (next : TaskDict → Str → Except TErr TaskDict)
    (hnext : ∀ s cid td', StoreInv s → next s cid = .ok td' → StoreInv td') :
    ∀ (l : List TaskRec) (acc : Except TErr TaskDict) (td' : TaskDict),
      (∀ s, acc = .ok s → StoreInv s) →
      l.foldl (finishFold next) acc = .ok td' → StoreInv td' := by
  intro l
  induction l with
  | nil => intro acc td' hacc h; exact hacc _ h
  | cons c cs ih =>
      intro acc td' hacc h
      simp only [List.foldl_cons] at h
      refine ih _ _ ?_ h
      intro s hs
      match hc : acc with
      | .error e => simp only [finishFold] at hs; cases hs
      | .ok s0 => exact hnext s0 c.id s (hacc s0 rfl) (by simpa [finishFold] using hs)

theorem finishTaskF_inv : ∀ (fuel : Nat) (td : TaskDict) (p : Str) (force : Bool)
    (td' : TaskDict), StoreInv td → finishTaskF fuel td p force = .ok td' →
    StoreInv td' := by
  intro fuel
  induction fuel with
  | zero => intro td p force td' hinv h; simp [finishTaskF] at h
  | succ fuel ih =>
      intro td p force td' hinv h
      obtain ⟨hk1, hk2, hu1, hu2, hd⟩ := hinv
      simp only [finishTaskF] at h
      match hg : getItem td p with
      | .error e => rw [hg] at h; cases h
      | .ok t0 =>
          simp only [hg] at h
          split at h
          · cases h; exact ⟨hk1, hk2, hu1, hu2, hd⟩
          · match ha : aGet? td.tasks t0.id with
            | none => simp only [ha] at h; cases h
            | some task =>
                simp only [ha] at h
                have htid : task.id = t0.id := hk1 _ (aGet?_mem ha)
                have hnotin : t0.id ∉ (aDel td.tasks t0.id).map Prod.fst :=
                  aDel_not_mem hu1
                have hinv1 : StoreInv
                    { tasks := aDel td.tasks t0.id,
                      done := aSet td.done task.id task } := by
                  refine ⟨keyedBy_aDel hk1, keyedBy_aSet hk2 rfl, ?_, ?_, ?_⟩
                  · exact aDel_keys_nodup hu1
                  · exact aSet_nodup hu2
                  · intro k hk
                    have hkm : k ∈ td.tasks.map Prod.fst := aDel_keys_mem hk
                    have hkne : k ≠ t0.id := by
                      intro hkk
                      rw [hkk] at hk
                      exact hnotin hk
                    intro hkd
                    rcases mem_aSet_keys hkd with hkk | hkd2
                    · exact hkne (hkk.trans htid)
                    · exact hd k hkm hkd2
                exact finishFold_inv _
                  (fun s cid td'' hs h' => ih s cid false td'' hs h')
                  _ _ _ (fun s hs => by cases hs; exact hinv1) h

/-- Entry-point form of the preservation of the store invariant by finish. -/
theorem finish_task_inv (td : TaskDict) (p : Str) (force : Bool) (td' : TaskDict)
    (hinv : StoreInv td) (h : finish_task td p force = .ok td') : StoreInv td' :=
  finishTaskF_inv _ td p force td' hinv h

theorem loadStep_wf (mkId : Str → Str) :
    ∀ (lines : List Str) (acc : Except TErr (List (Str × TaskRec)))
      (d' : List (Str × TaskRec)),
      (∀ d, acc = .ok d → keyedBy d ∧ uniqKeys d) →
      lines.foldl (loadStep mkId) acc = .ok d' → keyedBy d' ∧ uniqKeys d' := by
  intro lines
  induction lines with
  | nil => intro acc d' hacc h; exact hacc _ h
  | cons tl tls ih =>
      intro acc d' hacc h
      simp only [List.foldl_cons] at h
      refine ih _ _ ?_ h
      intro d hd
      match hc : acc with
      | .error e => simp only [loadStep] at hd; cases hd
      | .ok d0 =>
          obtain ⟨hk0, hu0⟩ := hacc d0 rfl
          simp only [loadStep] at hd
          match ht : _task_from_taskline mkId (pyStrip tl) with
          | .error e => rw [ht] at hd; cases hd
          | .ok none => rw [ht] at hd; cases hd; exact ⟨hk0, hu0⟩
          | .ok (some t) =>
              rw [ht] at hd
              cases hd
              exact ⟨keyedBy_aSet hk0 rfl, aSet_nodup hu0⟩

/-- Every loaded collection is keyed by its record ids with unique keys. -/
theorem loadLines_wf {mkId : Str → Str} {lines : List Str}
    {d : List (Str × TaskRec)} (h : loadLines mkId lines = .ok d) :
    keyedBy d ∧ uniqKeys d := by
  refine loadStep_wf mkId lines _ d ?_ h
  intro d0 h0
  cases h0
  constructor
  · intro kv hkv
    cases hkv
  · simp [uniqKeys]

/-- One invocation-level operation of the store. -/
inductive Op where
  | add (text task_id parent_id : Str) (now : Nat)
  | edit (p text : Str)
  | tag (p spec : Str)
  | finish (p : Str) (force : Bool)
  | remove (p : Str)

/-- Dispatch of one operation. -/
def applyOp (mkId : Str → Str) (td : TaskDict) : Op → Except TErr TaskDict
  | .add text tid pid now => add_task mkId now td text tid pid
  | .edit p text => edit_task td p text
  | .tag p spec => tagOp td p spec
  | .finish p force => finish_task td p force
  | .remove p => remove_task td p

/-- State after one operation: a failing operation aborts the invocation
before any write, so the persisted store is unchanged. -/
def stepOp (mkId : Str → Str) (td : TaskDict) (op : Op) : TaskDict :=
  match applyOp mkId td op with
  | .ok td' => td'
  | .error _ => td

/-- State after a sequence of invocations. -/
def runOps (mkId : Str → Str) (td : TaskDict) (ops : List Op) : TaskDict :=
  ops.foldl (stepOp mkId) td

/-- The id an add operation inserts under. -/
def addId (mkId : Str → Str) (text task_id : Str) : Str :=
  if task_id = [] then mkId text else task_id

/-- The freshness condition of the amended claim C10: along the whole
sequence, the id each add inserts (explicit, or minted by the generator) is
not a key of the done collection at that moment. -/
def addsFresh (mkId : Str → Str) : TaskDict → List Op → Prop
  | _, [] => True
  | td, op :: ops =>
      (∀ text tid pid now, op = .add text tid pid now →
        addId mkId text tid ∉ td.done.map Prod.fst)
      ∧ addsFresh mkId (stepOp mkId td op) ops

theorem stepOp_inv (mkId : Str → Str) (td : TaskDict) (op : Op)
    (hinv : StoreInv td)
    (hfresh : ∀ text tid pid now, op = .add text tid pid now →
        addId mkId text tid ∉ td.done.map Prod.fst) :
    StoreInv (stepOp mkId td op) := by
  cases op with
  | add text tid pid now =>
      rw [stepOp, applyOp]
      match h : add_task mkId now td text tid pid with
      | .error e => exact hinv
      | .ok td' =>
          exact add_task_inv mkId now td text tid pid td' hinv
            (hfresh text tid pid now rfl) h
  | edit p text =>
      rw [stepOp, applyOp]
      match h : edit_task td p text with
      | .error e => exact hinv
      | .ok td' => exact edit_task_inv td p text td' hinv h
  | tag p spec =>
      rw [stepOp, applyOp]
      match h : tagOp td p spec with
      | .error e => exact hinv
      | .ok td' => exact tagOp_inv td p spec td' hinv h
  | finish p force =>
      rw [stepOp, applyOp]
      match h : finish_task td p force with
      | .error e => exact hinv
      | .ok td' => exact finish_task_inv td p force td' hinv h
  | remove p =>
      rw [stepOp, applyOp]
      match h : remove_task td p with
      | .error e => exact hinv
      | .ok td' => exact remove_task_inv td p td' hinv h

theorem runOps_inv (mkId : Str → Str) :
    ∀ (ops : List Op) (td : TaskDict), StoreInv td → addsFresh mkId td ops →
      StoreInv (runOps mkId td ops) := by
  intro ops
  induction ops with
  | nil => intro td h _; exact h
  | cons op rest ih =>
      intro td hinv hf
      rw [runOps, List.foldl_cons]
      exact ih _ (stepOp_inv mkId td op hinv hf.1) hf.2

instance (td : TaskDict) : Decidable (disjointKeys td) :=
  List.decidableBAll _ _

/-- Claim C10 as amended: starting from a loaded store whose two mappings
share no key, any sequence of add/edit/tag/finish/remove operations in which
every add inserts an id (explicit or minted) that is not currently a done
key preserves disjointness: each id is a key of at most one of the two
mappings. -/
theorem C10_amended_disjoint (mkId mkId0 : Str → Str) (ol dl : List Str)
    (td : TaskDict) (ops : List Op)
    (hload : loadStore mkId0 ol dl = .ok td)
    (hdisj : disjointKeys td)
    (hfresh : addsFresh mkId td ops) :
    disjointKeys (runOps mkId td ops) := by
  have hinv : StoreInv td := by
    rw [loadStore] at hload
    match hl1 : loadLines mkId0 ol with
    | .error e => rw [hl1] at hload; cases hload
    | .ok ts =>
        rw [hl1] at hload
        match hl2 : loadLines mkId0 dl with
        | .error e => rw [hl2] at hload; cases hload
        | .ok ds =>
            rw [hl2] at hload
            cases hload
            obtain ⟨ha, hb⟩ := loadLines_wf hl1
            obtain ⟨hc, hd2⟩ := loadLines_wf hl2
            exact ⟨ha, hc, hb, hd2, hdisj⟩
  exact (runOps_inv mkId ops td hinv hfresh).2.2.2.2

/-- Witness for the amended C10: a store loaded with one done task `x`, then
one add of the fresh explicit id `y`. -/
theorem C10_amended_witness :
    disjointKeys (runOps mkIdC
      { tasks := [], done := [("x".data, mkRec "x" 1 none)] }
      [Op.add "t".data "y".data [] 9]) := by
  apply C10_amended_disjoint mkIdC mkIdC []
    ["task x | \x7b\"id\": \"x\", \"timestamp\": 1\x7d".data]
  · decide
  · decide
  · constructor
    · intro text tid pid now h
      cases h
      decide
    · trivial

/-! Round-trip lemmas: the metadata printer's output parses back. -/

theorem toNat_ofNat_valid {n : Nat} (h : n < 55296) : (Char.ofNat n).toNat = n := by
  unfold Char.ofNat
  split
  · rfl
  · rename_i hv
    exact absurd (Or.inl h) hv

/-- The escape of one character parses back in front of any string-body
continuation. -/
theorem jEsc_chars (c : Char) : ∀ (tail : Str) (res : Option (Str × Str)),
    parseStringBody tail = res →
    parseStringBody (jEsc c ++ tail) =
      (res.map (fun pr => (c :: pr.1, pr.2))) := by
  intro tail res hres
  by_cases hq : c = '"'
  · subst hq
    simp [jEsc, parseStringBody, escChar, hres]
  · by_cases hb : c = '\\'
    · subst hb
      simp [jEsc, parseStringBody, escChar, hres]
    · by_cases hc : c.toNat < 32
      · have h16a : c.toNat / 16 < 16 := by omega
        have h16b : c.toNat % 16 < 16 := by omega
        have hhex : ∀ d, d < 16 → hexVal (hexChar d) = some d := by decide
        have hv0 : hexVal '0' = some 0 := by decide
        simp only [jEsc, if_neg hq, if_neg hb, if_pos hc, List.cons_append,
          List.nil_append, parseStringBody, hv0, hhex _ h16a, hhex _ h16b]
        have hcode : ((0 * 16 + 0) * 16 + c.toNat / 16) * 16 + c.toNat % 16 = c.toNat := by
          omega
        rw [hcode]
        have hlt : c.toNat < 55296 := by omega
        simp only [if_pos hlt, hres, Char.ofNat_toNat]
      · have hne : c.toNat ≥ 32 := by omega
        simp only [jEsc, if_neg hq, if_neg hb, if_neg hc, List.cons_append,
          List.nil_append]
        rw [parseStringBody.eq_def]
        split
        · rename_i heq; cases heq
        · rename_i heq
          cases heq
          exact absurd rfl hq
        · rename_i h1 h2 h3 h4 h5 heq
          cases heq
          exact absurd rfl hb
        · rename_i he heq
          cases heq
          exact absurd rfl hb
        · rename_i c' rest' heq
          cases heq
          rw [if_neg (by omega), hres]

/-- Body of a printed JSON string. -/
def escChars (s : Str) : Str := s.flatMap jEsc

theorem parseStringBody_print (s : Str) : ∀ rest : Str,
    parseStringBody (escChars s ++ '"' :: rest) = some (s, rest) := by
  induction s with
  | nil => intro rest; simp [escChars, parseStringBody]
  | cons c cs ih =>
      intro rest
      have : escChars (c :: cs) ++ '"' :: rest =
          jEsc c ++ (escChars cs ++ '"' :: rest) := by
        simp [escChars]
      rw [this, jEsc_chars c _ _ (ih rest)]
      rfl

theorem isDig_decChar {d : Nat} (h : d < 10) : isDig (decChar d) = true := by
  simp only [isDig, decChar, Bool.and_eq_true, decide_eq_true_eq]
  rw [toNat_ofNat_valid (by omega)]
  omega

theorem natToStrAux_spec : ∀ (fuel n : Nat), n < fuel →
    ((∀ c ∈ natToStrAux fuel n, isDig c = true)
      ∧ digsVal (natToStrAux fuel n) = n
      ∧ natToStrAux fuel n ≠ []) := by
  intro fuel
  induction fuel with
  | zero => intro n h; omega
  | succ fuel ih =>
      intro n h
      by_cases h10 : n < 10
      · rw [natToStrAux, if_pos h10]
        refine ⟨?_, ?_, by simp⟩
        · intro c hc
          simp at hc
          rw [hc]
          exact isDig_decChar h10
        · simp only [digsVal, List.foldl_cons, List.foldl_nil, decChar]
          rw [toNat_ofNat_valid (by omega)]
          omega
      · rw [natToStrAux, if_neg h10]
        have hdiv : n / 10 < fuel := by
          have := Nat.div_lt_self (by omega : 0 < n) (by omega : 1 < 10)
          omega
        obtain ⟨ha, hb, hc⟩ := ih (n / 10) hdiv
        refine ⟨?_, ?_, by simp⟩
        · intro c hcm
          rw [List.mem_append] at hcm
          rcases hcm with hcm | hcm
          · exact ha c hcm
          · simp at hcm
            rw [hcm]
            exact isDig_decChar (by omega)
        · have happ : digsVal (natToStrAux fuel (n / 10) ++ [decChar (n % 10)])
              = digsVal (natToStrAux fuel (n / 10)) * 10 + ((decChar (n % 10)).toNat - 48) := by
            simp [digsVal, List.foldl_append]
          rw [happ, hb]
          simp only [decChar]
          rw [toNat_ofNat_valid (by omega)]
          omega

theorem takeWhile_all_append (p : Char → Bool) : ∀ (a b : Str),
    (∀ c ∈ a, p c = true) → (∀ c, b.head? = some c → p c = false) →
    (a ++ b).takeWhile p = a ∧ (a ++ b).dropWhile p = b := by
  intro a
  induction a with
  | nil =>
      intro b _ hb
      cases b with
      | nil => simp
      | cons c bs =>
          have := hb c rfl
          simp [List.takeWhile, List.dropWhile, this]
  | cons c cs ih =>
      intro b ha hb
      have hc : p c = true := ha c (List.mem_cons_self _ _)
      obtain ⟨h1, h2⟩ := ih b (fun x hx => ha x (List.mem_cons_of_mem _ hx)) hb
      simp [List.takeWhile, List.dropWhile, hc, h1, h2]

theorem parseNat_print (n : Nat) (rest : Str)
    (hrest : ∀ c, rest.head? = some c → isDig c = false) :
    parseNat (natToStr n ++ rest) = some (n, rest) := by
  obtain ⟨ha, hb, hc⟩ := natToStrAux_spec (n + 1) n (by omega)
  have ha' : ∀ c ∈ natToStr n, isDig c = true := ha
  have hb' : digsVal (natToStr n) = n := hb
  have hc' : natToStr n ≠ [] := hc
  obtain ⟨h1, h2⟩ := takeWhile_all_append isDig (natToStr n) rest ha' hrest
  rw [parseNat]
  simp only [h1, h2, if_neg hc']
  rw [hb']

/-- Printer for one JSON value (the forms `dumpsMeta` writes). -/
def printVal : JVal → Str
  | .vstr s => jStr s
  | .vnat n => natToStr n
  | .vbool true => "true".data
  | .vbool false => "false".data
  | .vnull => "null".data
  | .varr l => jArr l

theorem intercalate_two (sep a b : Str) (l : List Str) :
    List.intercalate sep (a :: b :: l) = a ++ sep ++ List.intercalate sep (b :: l) := by
  simp [List.intercalate, List.intersperse]

theorem intercalate_one (sep a : Str) : List.intercalate sep [a] = a := by
  simp [List.intercalate]

/-- Items of a printed non-empty string array, starting right after the
opening quote of the first item. -/
def itemsTail : List Str → Str
  | [] => []
  | [x] => escChars x ++ ['"']
  | x :: y :: r => escChars x ++ '"' :: ',' :: ' ' :: '"' :: itemsTail (y :: r)

theorem arrBody_eq : ∀ (l : List Str) (x : Str),
    List.intercalate ", ".data (List.map jStr (x :: l)) = '"' :: itemsTail (x :: l) := by
  intro l
  induction l with
  | nil => intro x; simp [intercalate_one, jStr, itemsTail, escChars]
  | cons y r ih =>
      intro x
      rw [List.map_cons, List.map_cons]
      rw [show (jStr x :: jStr y :: List.map jStr r) =
            (jStr x :: (jStr y :: List.map jStr r)) from rfl]
      rw [intercalate_two, ← List.map_cons]
      rw [ih y]
      simp [jStr, itemsTail, escChars]

theorem jArr_eq (l : List Str) (x : Str) (h : l = x :: l.tail) :
    jArr l = '[' :: '"' :: (itemsTail l ++ [']']) := by
  rw [jArr, h, arrBody_eq]
  simp

theorem itemsTail_len : ∀ (l : List Str), l.length ≤ (itemsTail l).length := by
  intro l
  match l with
  | [] => simp [itemsTail]
  | [x] => simp [itemsTail]
  | x :: y :: r =>
      have := itemsTail_len (y :: r)
      simp only [itemsTail, List.length_append, List.length_cons]
      simp at this ⊢
      omega

theorem jskip_cons_nonws {c : Char} (r : Str)
    (h : (c = ' ' || c = '\t' || c = '\n' || c = '\x0d') = false) :
    jskip (c :: r) = c :: r := by
  simp only [jskip, List.dropWhile, h]

theorem jskip_cons_ws {c : Char} (r : Str)
    (h : (c = ' ' || c = '\t' || c = '\n' || c = '\x0d') = true) :
    jskip (c :: r) = jskip r := by
  simp only [jskip, List.dropWhile, h]

theorem parseItemsF_spec : ∀ (l : List Str) (fuel : Nat) (rest : Str),
    l ≠ [] → l.length ≤ fuel →
    parseItemsF fuel (itemsTail l ++ ']' :: rest) = some (l, rest) := by
  intro l
  induction l with
  | nil => intro fuel rest h; exact absurd rfl h
  | cons x xs ih =>
      intro fuel rest _ hlen
      match fuel with
      | 0 => simp at hlen
      | fuel + 1 =>
          cases xs with
          | nil =>
              have hb : itemsTail [x] ++ ']' :: rest =
                  escChars x ++ '"' :: (']' :: rest) := by
                simp [itemsTail]
              rw [hb, parseItemsF]
              simp only [parseStringBody_print]
              rw [jskip_cons_nonws _ (by decide)]
              rfl
          | cons y r =>
              have hb : itemsTail (x :: y :: r) ++ ']' :: rest =
                  escChars x ++ '"' :: (',' :: ' ' :: '"' :: (itemsTail (y :: r) ++ ']' :: rest)) := by
                simp [itemsTail]
              rw [hb, parseItemsF]
              simp only [parseStringBody_print]
              rw [jskip_cons_nonws _ (by decide)]
              have h2 : jskip (' ' :: '"' :: (itemsTail (y :: r) ++ ']' :: rest)) =
                  '"' :: (itemsTail (y :: r) ++ ']' :: rest) := by
                rw [jskip_cons_ws _ (by decide), jskip_cons_nonws _ (by decide)]
              simp only [h2]
              rw [ih fuel rest (by simp) (by simp at hlen ⊢; omega)]

theorem isDig_ne {c : Char} (h : isDig c = true) :
    c ≠ '"' ∧ c ≠ '[' ∧ c ≠ 't' ∧ c ≠ 'f' ∧ c ≠ 'n' := by
  refine ⟨?_, ?_, ?_, ?_, ?_⟩ <;> (rintro rfl; revert h; decide)

theorem parseVal_other {c : Char} (r : Str)
    (h1 : c ≠ '"') (h2 : c ≠ '[') (h3 : c ≠ 't') (h4 : c ≠ 'f') (h5 : c ≠ 'n') :
    parseVal (c :: r) = (parseNat (c :: r)).map (fun pr => (.vnat pr.1, pr.2)) := by
  rw [parseVal.eq_def]
  split
  · rename_i heq
    injection heq with hc _
    exact absurd hc h1
  · rename_i heq
    injection heq with hc _
    exact absurd hc h2
  · rename_i heq
    injection heq with hc _
    exact absurd hc h3
  · rename_i heq
    injection heq with hc _
    exact absurd hc h4
  · rename_i heq
    injection heq with hc _
    exact absurd hc h5
  · rfl

theorem isLead_self_append (p b : Str) : isLead p (p ++ b) = true := by
  simp [isLead, List.take_left]


theorem parseVal_print (v : JVal) (suffix : Str)
    (hs : ∀ c, suffix.head? = some c → isDig c = false) :
    parseVal (printVal v ++ suffix) = some (v, suffix) := by
  match v with
  | .vstr s =>
      have hb : printVal (.vstr s) ++ suffix =
          '"' :: (escChars s ++ '"' :: suffix) := by
        simp [printVal, jStr, escChars]
      rw [hb]
      show (parseStringBody (escChars s ++ '"' :: suffix)).map _ = _
      rw [parseStringBody_print]
      rfl
  | .vnat n =>
      match hnn : natToStr n with
      | [] =>
          exact absurd hnn (natToStrAux_spec (n + 1) n (by omega)).2.2
      | c :: rr =>
          have hdig : isDig c = true :=
            (natToStrAux_spec (n + 1) n (by omega)).1 c
              (by rw [show natToStrAux (n + 1) n = natToStr n from rfl, hnn]
                  exact List.mem_cons_self _ _)
          obtain ⟨n1, n2, n3, n4, n5⟩ := isDig_ne hdig
          have hb : printVal (.vnat n) ++ suffix = c :: (rr ++ suffix) := by
            simp [printVal, hnn]
          rw [hb, parseVal_other _ n1 n2 n3 n4 n5]
          have hc2 : (c :: (rr ++ suffix)) = natToStr n ++ suffix := by simp [hnn]
          rw [hc2, parseNat_print n suffix hs]
          rfl
  | .vbool true =>
      have hb : printVal (.vbool true) ++ suffix = 't' :: ("rue".data ++ suffix) := by
        simp [printVal]
      rw [hb]
      have hl : isLead "rue".data ("rue".data ++ suffix) = true := isLead_self_append _ _
      show (if isLead "rue".data ("rue".data ++ suffix)
            then some (JVal.vbool true, ("rue".data ++ suffix).drop 3) else none) =
          some (JVal.vbool true, suffix)
      rw [hl]
      simp
  | .vbool false =>
      have hb : printVal (.vbool false) ++ suffix = 'f' :: ("alse".data ++ suffix) := by
        simp [printVal]
      rw [hb]
      have hl : isLead "alse".data ("alse".data ++ suffix) = true := isLead_self_append _ _
      show (if isLead "alse".data ("alse".data ++ suffix)
            then some (JVal.vbool false, ("alse".data ++ suffix).drop 4) else none) =
          some (JVal.vbool false, suffix)
      rw [hl]
      simp
  | .vnull =>
      have hb : printVal .vnull ++ suffix = 'n' :: ("ull".data ++ suffix) := by
        simp [printVal]
      rw [hb]
      have hl : isLead "ull".data ("ull".data ++ suffix) = true := isLead_self_append _ _
      show (if isLead "ull".data ("ull".data ++ suffix)
            then some (JVal.vnull, ("ull".data ++ suffix).drop 3) else none) =
          some (JVal.vnull, suffix)
      rw [hl]
      simp
  | .varr [] =>
      have hb : printVal (.varr []) ++ suffix = '[' :: (']' :: suffix) := by
        simp [printVal, jArr, List.intercalate]
      rw [hb]
      show (match jskip (']' :: suffix) with
            | ']' :: r2 => some (JVal.varr [], r2)
            | '"' :: r2 => (parseItemsF (r2.length + 1) r2).map
                (fun (pr : List Str × Str) => (JVal.varr pr.1, pr.2))
            | _ => none) = some (JVal.varr [], suffix)
      rw [jskip_cons_nonws _ (by decide)]
      rfl
  | .varr (x :: xs) =>
      have hb : printVal (.varr (x :: xs)) ++ suffix =
          '[' :: '"' :: (itemsTail (x :: xs) ++ ']' :: suffix) := by
        rw [printVal, jArr_eq (x :: xs) x rfl]
        simp
      rw [hb]
      show (match jskip ('"' :: (itemsTail (x :: xs) ++ ']' :: suffix)) with
            | ']' :: r2 => some (JVal.varr [], r2)
            | '"' :: r2 => (parseItemsF (r2.length + 1) r2).map
                (fun (pr : List Str × Str) => (JVal.varr pr.1, pr.2))
            | _ => none) = some (JVal.varr (x :: xs), suffix)
      rw [jskip_cons_nonws _ (by decide)]
      show (parseItemsF ((itemsTail (x :: xs) ++ ']' :: suffix).length + 1)
          (itemsTail (x :: xs) ++ ']' :: suffix)).map
          (fun (pr : List Str × Str) => (JVal.varr pr.1, pr.2)) =
        some (JVal.varr (x :: xs), suffix)
      rw [parseItemsF_spec (x :: xs) _ suffix (by simp)
        (le_trans (itemsTail_len (x :: xs)) (by simp; omega))]
      rfl

/-- Members of a printed non-empty JSON object, starting right after the
opening quote of the first key. -/
def pairsTail : List (Str × JVal) → Str
  | [] => []
  | [(k, v)] => escChars k ++ '"' :: ':' :: ' ' :: printVal v
  | (k, v) :: y :: r =>
      escChars k ++ '"' :: ':' :: ' ' :: (printVal v ++ ',' :: ' ' :: '"' :: pairsTail (y :: r))

theorem isDig_nonws {c : Char} (h : isDig c = true) :
    ((c = ' ' || c = '\t' || c = '\n' || c = '\x0d') : Bool) = false := by
  have h1 : c ≠ ' ' := by rintro rfl; revert h; decide
  have h2 : c ≠ '\t' := by rintro rfl; revert h; decide
  have h3 : c ≠ '\n' := by rintro rfl; revert h; decide
  have h4 : c ≠ '\x0d' := by rintro rfl; revert h; decide
  simp [h1, h2, h3, h4]

theorem jskip_printVal (v : JVal) (s : Str) :
    jskip (printVal v ++ s) = printVal v ++ s := by
  match v with
  | .vstr s0 =>
      have hb : printVal (.vstr s0) ++ s = '"' :: (escChars s0 ++ '"' :: s) := by
        simp [printVal, jStr, escChars]
      rw [hb, jskip_cons_nonws _ (by decide), ← hb]
  | .vnat n =>
      match hnn : natToStr n with
      | [] => exact absurd hnn (natToStrAux_spec (n + 1) n (by omega)).2.2
      | c :: rr =>
          have hdig : isDig c = true :=
            (natToStrAux_spec (n + 1) n (by omega)).1 c
              (by rw [show natToStrAux (n + 1) n = natToStr n from rfl, hnn]
                  exact List.mem_cons_self _ _)
          have hb : printVal (.vnat n) ++ s = c :: (rr ++ s) := by
            simp [printVal, hnn]
          rw [hb, jskip_cons_nonws _ (isDig_nonws hdig), ← hb]
  | .vbool true =>
      have hb : printVal (.vbool true) ++ s = 't' :: ("rue".data ++ s) := by
        simp [printVal]
      rw [hb, jskip_cons_nonws _ (by decide), ← hb]
  | .vbool false =>
      have hb : printVal (.vbool false) ++ s = 'f' :: ("alse".data ++ s) := by
        simp [printVal]
      rw [hb, jskip_cons_nonws _ (by decide), ← hb]
  | .vnull =>
      have hb : printVal .vnull ++ s = 'n' :: ("ull".data ++ s) := by
        simp [printVal]
      rw [hb, jskip_cons_nonws _ (by decide), ← hb]
  | .varr l =>
      have hb : printVal (.varr l) ++ s =
          '[' :: (List.intercalate (", ".data) (l.map jStr) ++ [']'] ++ s) := by
        simp [printVal, jArr]
      rw [hb, jskip_cons_nonws _ (by decide), ← hb]

theorem parsePairsF_spec : ∀ (ps : List (Str × JVal)) (fuel : Nat) (rest : Str),
    ps ≠ [] → ps.length ≤ fuel →
    parsePairsF fuel (pairsTail ps ++ '\x7d' :: rest) = some (ps, rest) := by
  intro ps
  induction ps with
  | nil => intro fuel rest h; exact absurd rfl h
  | cons kv tl ih =>
      intro fuel rest _ hlen
      obtain ⟨k, v⟩ := kv
      match fuel with
      | 0 => simp at hlen
      | fuel + 1 =>
          cases tl with
          | nil =>
              have hb : pairsTail [(k, v)] ++ '\x7d' :: rest =
                  escChars k ++ '"' :: (':' :: ' ' :: (printVal v ++ '\x7d' :: rest)) := by
                simp [pairsTail]
              rw [hb, parsePairsF]
              simp only [parseStringBody_print]
              rw [jskip_cons_nonws _ (by decide)]
              have h2 : jskip (' ' :: (printVal v ++ '\x7d' :: rest)) =
                  printVal v ++ '\x7d' :: rest := by
                rw [jskip_cons_ws _ (by decide), jskip_printVal]
              simp only [h2]
              simp only [parseVal_print v ('\x7d' :: rest)
                (by intro c hc; simp at hc; rw [← hc]; decide)]
              rw [jskip_cons_nonws _ (by decide)]
              rfl
          | cons y r =>
              have hb : pairsTail ((k, v) :: y :: r) ++ '\x7d' :: rest =
                  escChars k ++ '"' :: (':' :: ' ' ::
                    (printVal v ++ ',' :: ' ' :: '"' :: (pairsTail (y :: r) ++ '\x7d' :: rest))) := by
                simp [pairsTail]
              rw [hb, parsePairsF]
              simp only [parseStringBody_print]
              rw [jskip_cons_nonws _ (by decide)]
              have h2 : jskip (' ' :: (printVal v ++ ',' :: ' ' :: '"' ::
                  (pairsTail (y :: r) ++ '\x7d' :: rest))) =
                  printVal v ++ ',' :: ' ' :: '"' :: (pairsTail (y :: r) ++ '\x7d' :: rest) := by
                rw [jskip_cons_ws _ (by decide), jskip_printVal]
              simp only [h2]
              simp only [parseVal_print v
                (',' :: ' ' :: '"' :: (pairsTail (y :: r) ++ '\x7d' :: rest))
                (by intro c hc; simp at hc; rw [← hc]; decide)]
              rw [jskip_cons_nonws _ (by decide)]
              have h3 : jskip (' ' :: '"' :: (pairsTail (y :: r) ++ '\x7d' :: rest)) =
                  '"' :: (pairsTail (y :: r) ++ '\x7d' :: rest) := by
                rw [jskip_cons_ws _ (by decide), jskip_cons_nonws _ (by decide)]
              simp only [h3]
              rw [ih fuel rest (by simp) (by simp at hlen ⊢; omega)]

/-- The metadata object `dumpsMeta` prints, as a key/value list. -/
def metaPairs (t : TaskRec) : List (Str × JVal) :=
  [("id".data, .vstr t.id)]
  ++ (match t.parent_id with | some p => [("parent_id".data, .vstr p)] | none => [])
  ++ (match t.pfx with | some p => [("prefix".data, .vstr p)] | none => [])
  ++ (if t.show_full_id then [("show_full_id".data, .vbool true)] else [])
  ++ (match t.tags with | some l => [("tags".data, .varr l)] | none => [])
  ++ [("timestamp".data, .vnat t.timestamp)]

theorem dumpsMeta_eq (t : TaskRec) :
    dumpsMeta t = '\x7b' :: '"' :: (pairsTail (metaPairs t) ++ ['\x7d']) := by
  cases hp : t.parent_id <;> cases hx : t.pfx <;> cases hs : t.show_full_id <;>
    cases ht : t.tags <;>
    simp [dumpsMeta, metaPairs, pairsTail, hp, hx, hs, ht, intercalate_two,
      intercalate_one, jStr, escChars, printVal, jEsc]

theorem pairsTail_len : ∀ (ps : List (Str × JVal)), ps.length ≤ (pairsTail ps).length := by
  intro ps
  match ps with
  | [] => simp [pairsTail]
  | [(k, v)] => simp [pairsTail]; omega
  | (k, v) :: y :: r =>
      have := pairsTail_len (y :: r)
      simp only [pairsTail, List.length_append, List.length_cons]
      simp at this ⊢
      omega

theorem fold_metaPairs (t : TaskRec) :
    (metaPairs t).foldlM applyPair blankRec = some { t with text := [] } := by
  obtain ⟨tid, ttext, tts, tsfi, tpid, ttags, tpfx⟩ := t
  cases tpid <;> cases tpfx <;> cases tsfi <;> cases ttags <;>
    simp [metaPairs, applyPair, blankRec, List.foldlM]

theorem parseMeta_print (t : TaskRec) :
    parseMeta (dumpsMeta t) = some { t with text := [] } := by
  have hmp : metaPairs t = ("id".data, .vstr t.id) :: (metaPairs t).tail := by
    simp [metaPairs]
  rw [dumpsMeta_eq, parseMeta]
  rw [jskip_cons_nonws _ (by decide)]
  show (match
      (match jskip ('"' :: (pairsTail (metaPairs t) ++ ['\x7d'])) with
       | '\x7d' :: r2 => some (([] : List (Str × JVal)), r2)
       | '"' :: r2 => parsePairsF (r2.length + 1) r2
       | _ => none) with
    | none => none
    | some (pairs, rest) =>
      if jskip rest = [] then
        if pairs.any (fun kv => kv.1 = "id".data) then
          pairs.foldlM applyPair blankRec
        else none
      else none) = some { t with text := [] }
  rw [jskip_cons_nonws _ (by decide)]
  have hany : (metaPairs t).any (fun kv => kv.1 = "id".data) = true := by
    rw [hmp]
    simp
  simp only [parsePairsF_spec (metaPairs t) ((pairsTail (metaPairs t) ++ ['\x7d']).length + 1) []
    (by rw [hmp]; simp)
    (le_trans (pairsTail_len (metaPairs t)) (by simp; omega))]
  simp [jskip, hany, fold_metaPairs]

theorem dropWhile_head_fail (p : Char → Bool) (l : Str)
    (h : ∀ c, l.head? = some c → p c = false) : l.dropWhile p = l := by
  cases l with
  | nil => rfl
  | cons c cs => simp [List.dropWhile, h c rfl]

theorem dropWhile_length_le (p : Char → Bool) : ∀ l : Str,
    (l.dropWhile p).length ≤ l.length := by
  intro l
  induction l with
  | nil => simp
  | cons c cs ih =>
      by_cases hc : p c = true
      · simp [List.dropWhile, hc]; omega
      · simp [List.dropWhile, hc]

theorem dropWhile_eq_of_length (p : Char → Bool) (l : Str)
    (h : (l.dropWhile p).length = l.length) : l.dropWhile p = l := by
  cases l with
  | nil => rfl
  | cons c cs =>
      by_cases hc : p c = true
      · exfalso
        have := dropWhile_length_le p cs
        simp [List.dropWhile, hc] at h
        omega
      · simp [List.dropWhile, hc]

theorem pyStrip_parts {s : Str} (h : pyStrip s = s) :
    s.dropWhile isSpc = s ∧ s.reverse.dropWhile isSpc = s.reverse := by
  have hlen : ((s.dropWhile isSpc).reverse.dropWhile isSpc).length =
      ((s.dropWhile isSpc).reverse.dropWhile isSpc).length := rfl
  have h1le := dropWhile_length_le isSpc s
  have h2le := dropWhile_length_le isSpc (s.dropWhile isSpc).reverse
  have hs : ((s.dropWhile isSpc).reverse.dropWhile isSpc).reverse.length = s.length := by
    rw [pyStrip] at h
    rw [h]
  simp only [List.length_reverse] at hs h2le
  have hlen1 : (s.dropWhile isSpc).length = s.length := by omega
  have hd : s.dropWhile isSpc = s := dropWhile_eq_of_length _ _ hlen1
  refine ⟨hd, ?_⟩
  rw [pyStrip, hd] at h
  have hlen2 : (s.reverse.dropWhile isSpc).length = s.reverse.length := by
    have := congrArg List.length h
    simp only [List.length_reverse] at this ⊢
    omega
  exact dropWhile_eq_of_length _ _ hlen2

theorem dropWhile_replicate_space (n : Nat) (r : Str) :
    (List.replicate n ' ' ++ r).dropWhile isSpc = r.dropWhile isSpc := by
  induction n with
  | zero => simp
  | succ m ih => simpa [List.replicate_succ, List.dropWhile]

theorem pyStrip_id_of (s : Str)
    (h1 : ∀ c, s.head? = some c → isSpc c = false)
    (h2 : ∀ c, s.reverse.head? = some c → isSpc c = false) : pyStrip s = s := by
  rw [pyStrip, dropWhile_head_fail _ _ h1, dropWhile_head_fail _ _ h2]
  simp

theorem dropWhile_self_head (p : Char → Bool) (l : Str) (h : l.dropWhile p = l) :
    ∀ c, l.head? = some c → p c = false := by
  cases l with
  | nil => intro c hc; simp at hc
  | cons x xs =>
      intro c hc
      rw [List.head?_cons] at hc
      injection hc with hx
      subst hx
      by_cases hp : p x = true
      · exfalso
        rw [List.dropWhile_cons_of_pos hp] at h
        have h1 := dropWhile_length_le p xs
        have h2 := congrArg List.length h
        simp at h2
        omega
      · simpa using hp

theorem dumpsMeta_split (t : TaskRec) :
    dumpsMeta t = ('\x7b' :: '"' :: pairsTail (metaPairs t)) ++ ['\x7d'] := by
  rw [dumpsMeta_eq]
  simp

theorem pyStrip_pad (a : Str) (n : Nat) (h : pyStrip a = a) :
    pyStrip (a ++ List.replicate n ' ' ++ [' ']) = a := by
  obtain ⟨h1, h2⟩ := pyStrip_parts h
  cases a with
  | nil =>
      simp only [List.nil_append]
      rw [pyStrip, dropWhile_replicate_space]
      simp [List.dropWhile, isSpc]
  | cons c cs =>
      have hc : isSpc c = false := dropWhile_self_head _ _ h1 c rfl
      rw [pyStrip]
      rw [show (c :: cs ++ List.replicate n ' ' ++ [' ']) =
        c :: (cs ++ List.replicate n ' ' ++ [' ']) by simp]
      rw [List.dropWhile_cons_of_neg (by simp [hc])]
      have hrev : (c :: (cs ++ List.replicate n ' ' ++ [' '])).reverse =
          ' ' :: (List.replicate n ' ' ++ (c :: cs).reverse) := by
        simp
      rw [hrev]
      rw [List.dropWhile_cons_of_pos (by simp [isSpc])]
      rw [dropWhile_replicate_space, h2]
      simp

theorem append_meta_rev_head (t : TaskRec) (a : Str) :
    ((a ++ dumpsMeta t).reverse).head? = some '\x7d' := by
  rw [dumpsMeta_split]
  rw [show a ++ (('\x7b' :: '"' :: pairsTail (metaPairs t)) ++ ['\x7d']) =
    (a ++ ('\x7b' :: '"' :: pairsTail (metaPairs t))) ++ ['\x7d'] by simp]
  simp

theorem parseMeta_ws (x : Str) : parseMeta (' ' :: x) = parseMeta x := by
  unfold parseMeta
  rw [jskip_cons_ws _ (by decide)]

theorem taskline_roundtrip (mkId : Str → Str) (t : TaskRec) (L : Nat)
    (hnb : hasChar t.text '|' = false)
    (hst : pyStrip t.text = t.text)
    (hh : isLead ['#'] t.text = false) :
    _task_from_taskline mkId (pyStrip (ljust t.text L ++ " | ".data ++ dumpsMeta t)) =
      .ok (some t) := by
  cases htext : t.text with
  | nil =>
      have hS : pyStrip (ljust ([] : Str) L ++ " | ".data ++ dumpsMeta t) =
          '|' :: ' ' :: dumpsMeta t := by
        rw [show ljust ([] : Str) L ++ " | ".data ++ dumpsMeta t =
          List.replicate L ' ' ++ (' ' :: '|' :: ' ' :: dumpsMeta t) by simp [ljust]]
        rw [pyStrip, dropWhile_replicate_space]
        rw [List.dropWhile_cons_of_pos (by simp [isSpc])]
        rw [List.dropWhile_cons_of_neg (by simp [isSpc])]
        rw [dropWhile_head_fail isSpc _ (by
          intro x hx
          rw [show ('|' :: ' ' :: dumpsMeta t) = ['|', ' '] ++ dumpsMeta t from rfl,
            append_meta_rev_head t ['|', ' ']] at hx
          injection hx with hx
          rw [← hx]
          decide)]
        simp
      rw [hS, _task_from_taskline]
      have hps : pyStrip ('|' :: ' ' :: dumpsMeta t) = '|' :: ' ' :: dumpsMeta t := by
        refine pyStrip_id_of _ (by intro x hx; injection hx with hx; rw [← hx]; decide) ?_
        intro x hx
        rw [show ('|' :: ' ' :: dumpsMeta t) = ['|', ' '] ++ dumpsMeta t from rfl,
          append_meta_rev_head t ['|', ' ']] at hx
        injection hx with hx
        rw [← hx]
        decide
      rw [hps]
      have h1 : isLead ['#'] ('|' :: ' ' :: dumpsMeta t) = false := by
        simp [isLead]
      have h2 : hasChar ('|' :: ' ' :: dumpsMeta t) '|' = true := by
        simp [hasChar]
      have hpart : pyPartition ('|' :: ' ' :: dumpsMeta t) '|' =
          ([], ' ' :: dumpsMeta t) := by
        rw [pyPartition, if_pos h2]
        simp [List.takeWhile, List.dropWhile]
      simp only [h1, h2, hpart, Bool.false_eq_true, if_false, if_true]
      simp only [parseMeta_ws, parseMeta_print]
      rw [show pyStrip ([] : Str) = t.text by rw [htext]; rfl]
  | cons c cs =>
      rw [htext] at hnb hst hh
      have hc_nws : isSpc c = false :=
        dropWhile_self_head isSpc (c :: cs) (pyStrip_parts hst).1 c rfl
      have hcn : c ≠ '#' := by
        simp [isLead] at hh
        exact hh
      have hnotbar : '|' ∉ c :: cs := by
        simpa [hasChar] using hnb
      have hline : ljust (c :: cs) L ++ " | ".data ++ dumpsMeta t =
          c :: (cs ++ List.replicate (L - (c :: cs).length) ' ' ++
            (' ' :: '|' :: ' ' :: dumpsMeta t)) := by
        simp [ljust]
      have hSid : pyStrip (ljust (c :: cs) L ++ " | ".data ++ dumpsMeta t) =
          ljust (c :: cs) L ++ " | ".data ++ dumpsMeta t := by
        refine pyStrip_id_of _ ?_ ?_
        · intro x hx
          rw [hline] at hx
          injection hx with hx
          rw [← hx]
          exact hc_nws
        · intro x hx
          rw [append_meta_rev_head t (ljust (c :: cs) L ++ " | ".data)] at hx
          injection hx with hx
          rw [← hx]
          decide
      rw [hSid, _task_from_taskline, hSid]
      have h1 : isLead ['#'] (ljust (c :: cs) L ++ " | ".data ++ dumpsMeta t) = false := by
        rw [hline]
        simp [isLead, hcn]
      have h2 : hasChar (ljust (c :: cs) L ++ " | ".data ++ dumpsMeta t) '|' = true := by
        rw [hline]
        simp [hasChar]
      have hpart : pyPartition (ljust (c :: cs) L ++ " | ".data ++ dumpsMeta t) '|' =
          ((c :: cs) ++ List.replicate (L - (c :: cs).length) ' ' ++ [' '],
            ' ' :: dumpsMeta t) := by
        rw [pyPartition, if_pos h2]
        have hsplit : ljust (c :: cs) L ++ " | ".data ++ dumpsMeta t =
            ((c :: cs) ++ List.replicate (L - (c :: cs).length) ' ' ++ [' ']) ++
            ('|' :: ' ' :: dumpsMeta t) := by
          simp [ljust]
        rw [hsplit]
        have hall : ∀ x ∈ (c :: cs) ++ List.replicate (L - (c :: cs).length) ' ' ++ [' '],
            decide (x ≠ '|') = true := by
          intro x hx
          simp only [decide_eq_true_eq]
          intro hbar
          subst hbar
          rw [List.append_assoc] at hx
          rcases List.mem_append.mp hx with hx | hx
          · exact hnotbar hx
          · rcases List.mem_append.mp hx with hx | hx
            · exact absurd (List.eq_of_mem_replicate hx) (by decide)
            · exact absurd (List.mem_singleton.mp hx) (by decide)
        obtain ⟨ht1, ht2⟩ := takeWhile_all_append (fun x => decide (x ≠ '|'))
          ((c :: cs) ++ List.replicate (L - (c :: cs).length) ' ' ++ [' '])
          ('|' :: ' ' :: dumpsMeta t)
          hall
          (by intro x hx; injection hx with hx; rw [← hx]; decide)
        rw [ht1, ht2]
        rfl
      simp only [h1, h2, hpart, Bool.false_eq_true, if_false, if_true]
      simp only [parseMeta_ws, parseMeta_print]
      rw [show pyStrip ((c :: cs) ++ List.replicate (L - (c :: cs).length) ' ' ++ [' ']) =
        t.text by rw [pyStrip_pad _ _ hst, htext]]

/-- The text conditions under which a task's line survives the load's
stripping, comment test and `'|'` split unchanged. -/
def cleanText (t : TaskRec) : Prop :=
  hasChar t.text '|' = false ∧ pyStrip t.text = t.text ∧ isLead ['#'] t.text = false

theorem aSet_fresh {β : Type} : ∀ (d : List (Str × β)) (k : Str) (v : β),
    k ∉ d.map Prod.fst → aSet d k v = d ++ [(k, v)] := by
  intro d
  induction d with
  | nil => intro k v _; rfl
  | cons kv rest ih =>
      intro k v hk
      obtain ⟨k', v'⟩ := kv
      have hk1 : k' ≠ k := by
        intro h
        exact hk (by rw [List.map_cons, h]; exact List.mem_cons_self _ _)
      have hk2 : k ∉ rest.map Prod.fst := by
        intro h
        exact hk (by rw [List.map_cons]; exact List.mem_cons_of_mem _ h)
      rw [aSet, if_neg hk1, ih k v hk2]
      rfl

theorem foldl_aSet_fresh : ∀ (ts : List TaskRec) (d : List (Str × TaskRec)),
    (∀ t ∈ ts, t.id ∉ d.map Prod.fst) → (ts.map (fun t => t.id)).Nodup →
    ts.foldl (fun d t => aSet d t.id t) d = d ++ ts.map (fun t => (t.id, t)) := by
  intro ts
  induction ts with
  | nil => intro d _ _; simp
  | cons t ts ih =>
      intro d hfresh hnd
      rw [List.foldl_cons]
      rw [aSet_fresh d t.id t (hfresh t (List.mem_cons_self _ _))]
      simp only [List.map_cons, List.nodup_cons] at hnd
      rw [ih (d ++ [(t.id, t)])
        (by
          intro u hu
          simp only [List.map_append, List.mem_append]
          rintro (h | h)
          · exact hfresh u (List.mem_cons_of_mem _ hu) h
          · simp at h
            exact hnd.1 (h ▸ List.mem_map_of_mem _ hu))
        hnd.2]
      simp

theorem loadLines_of_tasks (mkId : Str → Str) : ∀ (ts : List TaskRec) (L : Nat)
    (d : List (Str × TaskRec)),
    (∀ t ∈ ts, cleanText t) →
    (ts.map (fun t => ljust t.text L ++ " | ".data ++ dumpsMeta t)).foldl
      (loadStep mkId) (.ok d) =
    .ok (ts.foldl (fun d t => aSet d t.id t) d) := by
  intro ts
  induction ts with
  | nil => intro L d _; rfl
  | cons t ts ih =>
      intro L d hclean
      obtain ⟨hc1, hc2, hc3⟩ := hclean t (List.mem_cons_self _ _)
      rw [List.map_cons, List.foldl_cons, List.foldl_cons]
      rw [show loadStep mkId (.ok d) (ljust t.text L ++ " | ".data ++ dumpsMeta t) =
          .ok (aSet d t.id t) by
        rw [loadStep, taskline_roundtrip mkId t L hc1 hc2 hc3]]
      exact ih L _ (fun u hu => hclean u (List.mem_cons_of_mem _ hu))

theorem keyedBy_map_pair : ∀ (recs : List (Str × TaskRec)), keyedBy recs →
    (recs.map Prod.snd).map (fun t => (t.id, t)) = recs := by
  intro recs
  induction recs with
  | nil => intro _; rfl
  | cons kv rest ih =>
      intro hk
      obtain ⟨k, v⟩ := kv
      have hid : v.id = k := hk (k, v) (List.mem_cons_self _ _)
      simp only [List.map_cons, hid]
      rw [ih (fun p hp => hk p (List.mem_cons_of_mem _ hp))]

theorem loadKind_roundtrip (mkId : Str → Str) (recs : List (Str × TaskRec))
    (hk : keyedBy recs) (hu : uniqKeys recs)
    (hc : ∀ kv ∈ recs, cleanText kv.2) :
    loadLines mkId (writeKind recs) =
      .ok ((sortById (recs.map Prod.snd)).map (fun t => (t.id, t))) := by
  have hperm : (sortById (recs.map Prod.snd)).Perm (recs.map Prod.snd) :=
    pySorted_perm _ _
  have hids : (recs.map Prod.snd).map (fun t => t.id) = recs.map Prod.fst := by
    rw [List.map_map]
    exact List.map_congr_left (fun kv hkv => hk kv hkv)
  have hnodup : ((sortById (recs.map Prod.snd)).map (fun t => t.id)).Nodup := by
    refine ((hperm.map (fun t => t.id)).nodup_iff).mpr ?_
    rw [hids]
    exact hu
  rw [writeKind, loadLines]
  simp only [_tasklines_from_tasks]
  rw [loadLines_of_tasks mkId (sortById (recs.map Prod.snd)) _ []
    (by
      intro u hu'
      have hmem : u ∈ recs.map Prod.snd := hperm.mem_iff.mp hu'
      obtain ⟨kv, hkv, rfl⟩ := List.mem_map.mp hmem
      exact hc kv hkv)]
  rw [foldl_aSet_fresh _ [] (by simp) hnodup]
  simp

/-- CLAIM C4 (amended). Writing the store and reloading the written lines is
lossless for stores whose texts contain no `'|'`, are unchanged by stripping,
and do not start with `'#'`: the load succeeds and each reloaded collection
is the original list of records sorted by id — a permutation of the original
collection with every record intact. Moreover a task that never had tags and
the same task after one tag-add followed by a tag-remove of that tag are the
same record, so they serialize to identical tasklines. -/
theorem C4_amended_roundtrip (mkId : Str → Str) (td : TaskDict)
    (hk1 : keyedBy td.tasks) (hu1 : uniqKeys td.tasks)
    (hc1 : ∀ kv ∈ td.tasks, cleanText kv.2)
    (hk2 : keyedBy td.done) (hu2 : uniqKeys td.done)
    (hc2 : ∀ kv ∈ td.done, cleanText kv.2) :
    (loadStore mkId (writeStore td).1 (writeStore td).2 =
      .ok { tasks := (sortById (td.tasks.map Prod.snd)).map (fun t => (t.id, t)),
            done := (sortById (td.done.map Prod.snd)).map (fun t => (t.id, t)) } ∧
     ((sortById (td.tasks.map Prod.snd)).map (fun t => (t.id, t))).Perm td.tasks ∧
     ((sortById (td.done.map Prod.snd)).map (fun t => (t.id, t))).Perm td.done) ∧
    (∀ (t : TaskRec) (tag : Str), t.tags = none →
      ∃ t', removeTag (addTag t tag) tag = .ok t' ∧
        ∀ L, ljust t'.text L ++ " | ".data ++ dumpsMeta t' =
          ljust t.text L ++ " | ".data ++ dumpsMeta t) := by
  refine ⟨⟨?_, ?_, ?_⟩, ?_⟩
  · rw [loadStore]
    rw [show (writeStore td).1 = writeKind td.tasks from rfl,
        show (writeStore td).2 = writeKind td.done from rfl]
    rw [loadKind_roundtrip mkId td.tasks hk1 hu1 hc1,
        loadKind_roundtrip mkId td.done hk2 hu2 hc2]
  · have hp : (sortById (td.tasks.map Prod.snd)).Perm (td.tasks.map Prod.snd) :=
      pySorted_perm _ _
    have := hp.map (fun t => (t.id, t))
    rw [keyedBy_map_pair td.tasks hk1] at this
    exact this
  · have hp : (sortById (td.done.map Prod.snd)).Perm (td.done.map Prod.snd) :=
      pySorted_perm _ _
    have := hp.map (fun t => (t.id, t))
    rw [keyedBy_map_pair td.done hk2] at this
    exact this
  · intro t tag htags
    refine ⟨t, ?_, fun L => rfl⟩
    simp only [addTag, htags]
    simp only [removeTag, listRemove, if_pos rfl]
    rw [← htags]
    simp

instance {β : Type} (l : List (Str × β)) : Decidable (uniqKeys l) :=
  List.nodupDecidable _

instance (t : TaskRec) : Decidable (cleanText t) := by
  unfold cleanText
  infer_instance

/-- Records of a small well-formed store for the roundtrip witness. -/
def c4r1 : TaskRec :=
  { id := "ab12".data, text := "buy milk".data, timestamp := 3,
    show_full_id := false, parent_id := none, tags := some ["p1".data],
    pfx := none }

def c4r2 : TaskRec :=
  { id := "cd34".data, text := "call home".data, timestamp := 1,
    show_full_id := true, parent_id := some ("ab12".data), tags := none,
    pfx := none }

def c4r3 : TaskRec :=
  { id := "ef56".data, text := "pay rent".data, timestamp := 2,
    show_full_id := false, parent_id := none, tags := none, pfx := none }

/-- A small well-formed two-collection store for the roundtrip witness. -/
def c4TD : TaskDict :=
  { tasks := [("ab12".data, c4r1), ("cd34".data, c4r2)],
    done := [("ef56".data, c4r3)] }

/-- Witness for C4: the roundtrip theorem applied to a concrete store, every
hypothesis discharged by computation. -/
theorem C4_amended_witness :
    (keyedBy c4TD.tasks ∧ uniqKeys c4TD.tasks ∧ (∀ kv ∈ c4TD.tasks, cleanText kv.2) ∧
     keyedBy c4TD.done ∧ uniqKeys c4TD.done ∧ (∀ kv ∈ c4TD.done, cleanText kv.2)) ∧
    ((loadStore mkIdC (writeStore c4TD).1 (writeStore c4TD).2 =
      .ok { tasks := (sortById (c4TD.tasks.map Prod.snd)).map (fun t => (t.id, t)),
            done := (sortById (c4TD.done.map Prod.snd)).map (fun t => (t.id, t)) } ∧
     ((sortById (c4TD.tasks.map Prod.snd)).map (fun t => (t.id, t))).Perm c4TD.tasks ∧
     ((sortById (c4TD.done.map Prod.snd)).map (fun t => (t.id, t))).Perm c4TD.done) ∧
    (∀ (t : TaskRec) (tag : Str), t.tags = none →
      ∃ t', removeTag (addTag t tag) tag = .ok t' ∧
        ∀ L, ljust t'.text L ++ " | ".data ++ dumpsMeta t' =
          ljust t.text L ++ " | ".data ++ dumpsMeta t)) :=
  ⟨⟨by decide, by decide, by decide, by decide, by decide, by decide⟩,
    C4_amended_roundtrip mkIdC c4TD (by decide) (by decide) (by decide)
      (by decide) (by decide) (by decide)⟩

/-! Claim C1: correctness of `_prefixes`. Groundwork: association-list
lookup lemmas, leading-substring facts, and the longest-common-prefix
length. -/

theorem aGet?_aSet_self {β : Type} (d : List (Str × β)) (k : Str) (v : β) :
    aGet? (aSet d k v) k = some v := by
  induction d with
  | nil => simp [aSet, aGet?]
  | cons kv rest ih =>
      obtain ⟨k', v'⟩ := kv
      by_cases hk : k' = k
      · rw [aSet, if_pos hk, aGet?, if_pos rfl]
      · rw [aSet, if_neg hk, aGet?, if_neg hk]
        exact ih

theorem aGet?_aSet_ne {β : Type} (d : List (Str × β)) (k k' : Str) (v : β)
    (h : k' ≠ k) : aGet? (aSet d k v) k' = aGet? d k' := by
  induction d with
  | nil =>
      rw [aSet]
      show (if k = k' then some v else aGet? ([] : List (Str × β)) k') =
        aGet? ([] : List (Str × β)) k'
      rw [if_neg (fun he => h he.symm)]
  | cons kv rest ih =>
      obtain ⟨k0, v0⟩ := kv
      by_cases hk : k0 = k
      · rw [aSet, if_pos hk, aGet?, if_neg (fun he => h he.symm), aGet?, if_neg]
        rw [hk]
        exact fun he => h he.symm
      · rw [aSet, if_neg hk, aGet?, aGet?]
        by_cases h0 : k0 = k'
        · rw [if_pos h0, if_pos h0]
        · rw [if_neg h0, if_neg h0]
          exact ih

theorem aGet?_aDel_ne {β : Type} (d : List (Str × β)) (k k' : Str)
    (h : k' ≠ k) : aGet? (aDel d k) k' = aGet? d k' := by
  induction d with
  | nil => rfl
  | cons kv rest ih =>
      obtain ⟨k0, v0⟩ := kv
      by_cases hk : k0 = k
      · rw [aDel, if_pos hk, aGet?, if_neg]
        rw [hk]
        exact fun he => h (he.symm)
      · rw [aDel, if_neg hk, aGet?, aGet?]
        by_cases h0 : k0 = k'
        · rw [if_pos h0, if_pos h0]
        · rw [if_neg h0, if_neg h0]
          exact ih

theorem mem_aGet? {β : Type} : ∀ {l : List (Str × β)} {k : Str} {v : β},
    uniqKeys l → (k, v) ∈ l → aGet? l k = some v := by
  intro l
  induction l with
  | nil => intro k v _ h; simp at h
  | cons kv rest ih =>
      intro k v hu hm
      obtain ⟨k0, v0⟩ := kv
      have hu' := hu
      rw [uniqKeys, List.map_cons, List.nodup_cons] at hu'
      rcases List.mem_cons.mp hm with he | hm2
      · injection he with he1 he2
        rw [aGet?, ← he1, if_pos rfl, he2]
      · have hne : k0 ≠ k := by
          intro he
          have hk : k ∈ rest.map Prod.fst := List.mem_map_of_mem Prod.fst hm2
          rw [← he] at hk
          exact hu'.1 hk
        rw [aGet?, if_neg hne]
        exact ih hu'.2 hm2

theorem aGet?_none_not_mem {β : Type} : ∀ {l : List (Str × β)} {k : Str},
    aGet? l k = none → ∀ v, (k, v) ∉ l := by
  intro l
  induction l with
  | nil => intro k _ v h; simp at h
  | cons kv rest ih =>
      intro k hn v hm
      obtain ⟨k0, v0⟩ := kv
      rw [aGet?] at hn
      by_cases he : k0 = k
      · rw [if_pos he] at hn
        cases hn
      · rw [if_neg he] at hn
        rcases List.mem_cons.mp hm with hh | hh
        · injection hh with h1 h2
          exact he h1.symm
        · exact ih hn v hh

theorem isLead_iff {p s : Str} : isLead p s = true ↔ s.take p.length = p := by
  rw [isLead, decide_eq_true_iff]

theorem isLead_take (x : Str) (l : Nat) : isLead (x.take l) x = true := by
  rw [isLead_iff, List.length_take]
  exact List.take_eq_take.mpr (by omega)

theorem isLead_length {p s : Str} (h : isLead p s = true) : p.length ≤ s.length := by
  rw [isLead_iff] at h
  have := congrArg List.length h
  rw [List.length_take] at this
  omega

theorem isLead_trans {p q s : Str} (h1 : isLead p q = true) (h2 : isLead q s = true) :
    isLead p s = true := by
  rw [isLead_iff] at h1 h2 ⊢
  have hlen : p.length ≤ q.length := isLead_length (by rw [isLead_iff]; exact h1)
  calc s.take p.length = (s.take q.length).take p.length := by
        rw [List.take_take]
        congr 1
        omega
    _ = q.take p.length := by rw [h2]
    _ = p := h1

theorem isLead_take_mono {x y : Str} {l l' : Nat} (h : l ≤ l')
    (hy : isLead (x.take l') y = true) : isLead (x.take l) y = true := by
  refine isLead_trans ?_ hy
  rw [isLead_iff, List.length_take, List.take_take]
  exact List.take_eq_take.mpr (by omega)

/-- Length of the longest common prefix. -/
def lcp : Str → Str → Nat
  | a :: as, b :: bs => if a = b then lcp as bs + 1 else 0
  | _, _ => 0

theorem lcp_le_left : ∀ (a b : Str), lcp a b ≤ a.length := by
  intro a
  induction a with
  | nil => intro b; cases b <;> simp [lcp]
  | cons x xs ih =>
      intro b
      cases b with
      | nil => simp [lcp]
      | cons y ys =>
          rw [lcp]
          by_cases hxy : x = y
          · rw [if_pos hxy]
            have := ih ys
            simp
            omega
          · rw [if_neg hxy]
            simp

theorem lcp_le_right : ∀ (a b : Str), lcp a b ≤ b.length := by
  intro a
  induction a with
  | nil => intro b; cases b <;> simp [lcp]
  | cons x xs ih =>
      intro b
      cases b with
      | nil => simp [lcp]
      | cons y ys =>
          rw [lcp]
          by_cases hxy : x = y
          · rw [if_pos hxy]
            have := ih ys
            simp
            omega
          · rw [if_neg hxy]
            simp

theorem take_eq_iff_lcp : ∀ (a b : Str), a ≠ b → ∀ j,
    (a.take j = b.take j ↔ j ≤ lcp a b) := by
  intro a
  induction a with
  | nil =>
      intro b hab j
      cases b with
      | nil => exact absurd rfl hab
      | cons y ys =>
          simp only [List.take_nil, lcp]
          constructor
          · intro h
            cases j with
            | zero => omega
            | succ m => rw [List.take_succ_cons] at h; cases h
          · intro h
            have : j = 0 := by omega
            rw [this, List.take_zero]
  | cons x xs ih =>
      intro b hab j
      cases b with
      | nil =>
          simp only [List.take_nil, lcp]
          constructor
          · intro h
            cases j with
            | zero => omega
            | succ m => rw [List.take_succ_cons] at h; cases h
          · intro h
            have : j = 0 := by omega
            rw [this, List.take_zero]
      | cons y ys =>
          by_cases hxy : x = y
          · subst hxy
            have hne : xs ≠ ys := by
              intro h; exact hab (by rw [h])
            cases j with
            | zero => simp [lcp]
            | succ m =>
                rw [List.take_succ_cons, List.take_succ_cons, lcp, if_pos rfl]
                constructor
                · intro h
                  have := (ih ys hne m).mp (by injection h)
                  omega
                · intro h
                  rw [(ih ys hne m).mpr (by omega)]
          · cases j with
            | zero => simp
            | succ m =>
                rw [List.take_succ_cons, List.take_succ_cons, lcp, if_neg hxy]
                constructor
                · intro h
                  injection h with h1 _
                  exact absurd h1 hxy
                · intro h
                  omega

theorem isLead_take_iff {y id : Str} (hne : y ≠ id) (l : Nat) :
    isLead (y.take l) id = true ↔ min l y.length ≤ lcp y id := by
  rw [isLead_iff, List.length_take]
  rw [show y.take l = y.take (min l y.length) from (List.take_eq_take.mpr (by omega)).symm]
  constructor
  · intro h
    exact (take_eq_iff_lcp y id hne _).mp h.symm
  · intro h
    exact ((take_eq_iff_lcp y id hne _).mpr h).symm

theorem range'_find?_some {P : Nat → Bool} : ∀ (n s l : Nat),
    (List.range' s n).find? P = some l →
    P l = true ∧ s ≤ l ∧ l < s + n ∧ ∀ m, s ≤ m → m < l → P m = false := by
  intro n
  induction n with
  | zero => intro s l h; simp [List.range'] at h
  | succ m ih =>
      intro s l h
      rw [List.range'_succ, List.find?_cons] at h
      by_cases hp : P s = true
      · simp only [hp] at h
        injection h with h
        subst h
        exact ⟨hp, le_refl _, by omega, fun m h1 h2 => absurd h1 (by omega)⟩
      · rw [Bool.not_eq_true] at hp
        simp only [hp] at h
        obtain ⟨hl1, hl2, hl3, hl4⟩ := ih (s + 1) l h
        refine ⟨hl1, by omega, by omega, ?_⟩
        intro q hq1 hq2
        by_cases hqs : q = s
        · rw [hqs]
          exact hp
        · exact hl4 q (by omega) hq2

theorem range'_find?_none {P : Nat → Bool} : ∀ (n s : Nat),
    (List.range' s n).find? P = none →
    ∀ m, s ≤ m → m < s + n → P m = false := by
  intro n
  induction n with
  | zero => intro s _ m h1 h2; omega
  | succ k ih =>
      intro s h m h1 h2
      rw [List.range'_succ, List.find?_cons] at h
      by_cases hp : P s = true
      · simp only [hp] at h
        cases h
      · rw [Bool.not_eq_true] at hp
        simp only [hp] at h
        by_cases hms : m = s
        · rw [hms]; exact hp
        · exact ih (s + 1) h m (by omega) (by omega)

/-- The index `expectedPfx` truncates at. -/
def nlen (ids : List Str) (x : Str) : Nat :=
  match (List.range' 1 x.length).find? (uniqueAt ids x) with
  | some l => l
  | none => x.length

theorem expectedPfx_take (ids : List Str) (x : Str) :
    expectedPfx ids x = x.take (nlen ids x) := by
  rw [expectedPfx, shortestU, nlen]
  match h : (List.range' 1 x.length).find? (uniqueAt ids x) with
  | some l => rfl
  | none =>
      show x = x.take x.length
      rw [List.take_of_length_le (le_refl _)]

theorem nlen_pos (ids : List Str) (x : Str) (hx : x ≠ []) : 1 ≤ nlen ids x := by
  match hf : (List.range' 1 x.length).find? (uniqueAt ids x) with
  | some l =>
      have hm : nlen ids x = l := by rw [nlen, hf]
      have := (range'_find?_some _ _ _ hf).2.1
      omega
  | none =>
      have hm : nlen ids x = x.length := by rw [nlen, hf]
      have : x.length ≠ 0 := fun h0 => hx (List.eq_nil_of_length_eq_zero h0)
      omega

theorem nlen_le (ids : List Str) (x : Str) : nlen ids x ≤ x.length := by
  match hf : (List.range' 1 x.length).find? (uniqueAt ids x) with
  | some l =>
      have hm : nlen ids x = l := by rw [nlen, hf]
      have := (range'_find?_some _ _ _ hf).2.2.1
      omega
  | none =>
      have hm : nlen ids x = x.length := by rw [nlen, hf]
      omega

theorem nlen_min (ids : List Str) (x : Str) :
    ∀ l, 1 ≤ l → l < nlen ids x → uniqueAt ids x l = false := by
  intro l h1 h2
  match hf : (List.range' 1 x.length).find? (uniqueAt ids x) with
  | some m =>
      have hm : nlen ids x = m := by rw [nlen, hf]
      exact (range'_find?_some _ _ _ hf).2.2.2 l h1 (by omega)
  | none =>
      have hm : nlen ids x = x.length := by rw [nlen, hf]
      exact range'_find?_none _ _ hf l h1 (by omega)

theorem nlen_found (ids : List Str) (x : Str) (h : nlen ids x < x.length) :
    uniqueAt ids x (nlen ids x) = true := by
  match hf : (List.range' 1 x.length).find? (uniqueAt ids x) with
  | some m =>
      have hm : nlen ids x = m := by rw [nlen, hf]
      rw [hm]
      exact (range'_find?_some _ _ _ hf).1
  | none =>
      have hm : nlen ids x = x.length := by rw [nlen, hf]
      omega

theorem nlen_all_false (ids : List Str) (x : Str)
    (h : ∀ l, 1 ≤ l → l < x.length → uniqueAt ids x l = false) :
    nlen ids x = x.length := by
  match hf : (List.range' 1 x.length).find? (uniqueAt ids x) with
  | some m =>
      have hm : nlen ids x = m := by rw [nlen, hf]
      obtain ⟨h1, h2, h3, _⟩ := range'_find?_some _ _ _ hf
      by_cases hmx : m = x.length
      · omega
      · exact absurd h1 (by rw [h m h2 (by omega)]; simp)
  | none =>
      rw [nlen, hf]

theorem nlen_det (ids : List Str) (x : Str) (m : Nat) (h1 : 1 ≤ m)
    (h2 : m ≤ x.length)
    (hlow : ∀ l, 1 ≤ l → l < m → uniqueAt ids x l = false)
    (hm : uniqueAt ids x m = true) : nlen ids x = m := by
  match hf : (List.range' 1 x.length).find? (uniqueAt ids x) with
  | some l =>
      have hq : nlen ids x = l := by rw [nlen, hf]
      obtain ⟨q1, q2, q3, q4⟩ := range'_find?_some _ _ _ hf
      by_cases hlm : l = m
      · omega
      · rcases Nat.lt_or_ge l m with hh | hh
        · exact absurd q1 (by rw [hlow l q2 hh]; simp)
        · exact absurd hm (by rw [q4 m h1 (by omega)]; simp)
  | none =>
      exact absurd hm (by rw [range'_find?_none _ _ hf m h1 (by omega)]; simp)

theorem uniqueAt_sem {ids : List Str} {x : Str} {l : Nat} :
    uniqueAt ids x l = true ↔ ∀ y ∈ ids, y ≠ x → isLead (x.take l) y = false := by
  rw [uniqueAt, List.all_eq_true]
  constructor
  · intro h y hy hne
    have := h y hy
    rcases Bool.or_eq_true_iff.mp this with h1 | h1
    · exact absurd (by exact decide_eq_true_iff.mp h1) hne
    · rw [Bool.not_eq_true'] at h1
      exact h1
  · intro h y hy
    by_cases hne : y = x
    · exact Bool.or_eq_true_iff.mpr (Or.inl (decide_eq_true_iff.mpr hne))
    · refine Bool.or_eq_true_iff.mpr (Or.inr ?_)
      rw [Bool.not_eq_true']
      exact h y hy hne

theorem uniqueAt_mono {ids : List Str} {x : Str} {l l' : Nat} (h : l ≤ l')
    (hu : uniqueAt ids x l = true) : uniqueAt ids x l' = true := by
  rw [uniqueAt_sem] at hu ⊢
  intro y hy hne
  by_cases hl : isLead (x.take l') y = true
  · exact absurd (isLead_take_mono h hl) (by rw [hu y hy hne]; simp)
  · exact Bool.eq_false_iff.mpr hl

theorem uniqueAt_append {L : List Str} {id x : Str} {l : Nat} :
    uniqueAt (L ++ [id]) x l = true ↔
      uniqueAt L x l = true ∧ (id ≠ x → isLead (x.take l) id = false) := by
  rw [uniqueAt_sem, uniqueAt_sem]
  constructor
  · intro h
    refine ⟨fun y hy => h y (List.mem_append.mpr (Or.inl hy)), ?_⟩
    exact h id (List.mem_append.mpr (Or.inr (List.mem_singleton.mpr rfl)))
  · intro ⟨h1, h2⟩ y hy hne
    rcases List.mem_append.mp hy with hh | hh
    · exact h1 y hh hne
    · rw [List.mem_singleton.mp hh]
      exact h2 (List.mem_singleton.mp hh ▸ hne)

theorem nlen_append_fallback {L : List Str} {id y : Str} (hy : y ≠ [])
    (h : nlen L y = y.length) : nlen (L ++ [id]) y = y.length := by
  refine nlen_all_false _ _ ?_
  intro l h1 h2
  have hfL : uniqueAt L y l = false := nlen_min L y l h1 (by omega)
  by_cases ht : uniqueAt (L ++ [id]) y l = true
  · have := (uniqueAt_append.mp ht).1
    rw [hfL] at this
    cases this
  · exact Bool.eq_false_iff.mpr ht

theorem nlen_append_keep {L : List Str} {id y : Str}
    (h1 : nlen L y < y.length)
    (h2 : isLead (y.take (nlen L y)) id = false) :
    nlen (L ++ [id]) y = nlen L y := by
  refine nlen_det _ _ _ (nlen_pos L y ?_) (by omega) ?_ ?_
  · intro he
    rw [he] at h1
    simp at h1
  · intro l hl1 hl2
    have hfL : uniqueAt L y l = false := nlen_min L y l hl1 hl2
    by_cases ht : uniqueAt (L ++ [id]) y l = true
    · have := (uniqueAt_append.mp ht).1
      rw [hfL] at this
      cases this
    · exact Bool.eq_false_iff.mpr ht
  · exact uniqueAt_append.mpr ⟨nlen_found L y h1, fun _ => h2⟩

theorem nlen_append_shift {L : List Str} {id y : Str} (hne : y ≠ id)
    (h1 : nlen L y < y.length)
    (h2 : isLead (y.take (nlen L y)) id = true) :
    nlen (L ++ [id]) y = min (lcp y id + 1) y.length := by
  have hc : nlen L y ≤ lcp y id := by
    have := (isLead_take_iff hne (nlen L y)).mp h2
    omega
  have hlowlead : ∀ l, l ≤ lcp y id → isLead (y.take l) id = true := by
    intro l hl
    exact (isLead_take_iff hne l).mpr (by omega)
  have hlow : ∀ l, 1 ≤ l → l ≤ lcp y id → uniqueAt (L ++ [id]) y l = false := by
    intro l hl1 hl2
    by_cases ht : uniqueAt (L ++ [id]) y l = true
    · have := (uniqueAt_append.mp ht).2 (fun he => hne he.symm)
      rw [hlowlead l hl2] at this
      cases this
    · exact Bool.eq_false_iff.mpr ht
  rcases Nat.lt_or_ge (lcp y id) y.length with hcl | hcl
  · have hmin : min (lcp y id + 1) y.length = lcp y id + 1 := by omega
    rw [hmin]
    refine nlen_det _ _ _ (by omega) (by omega) ?_ ?_
    · intro l hl1 hl2
      exact hlow l hl1 (by omega)
    · refine uniqueAt_append.mpr ⟨?_, ?_⟩
      · exact uniqueAt_mono (by omega) (nlen_found L y h1)
      · intro _
        by_cases hl : isLead (y.take (lcp y id + 1)) id = true
        · have := (isLead_take_iff hne _).mp hl
          omega
        · exact Bool.eq_false_iff.mpr hl
  · have hmin : min (lcp y id + 1) y.length = y.length := by omega
    rw [hmin]
    refine nlen_all_false _ _ ?_
    intro l hl1 hl2
    exact hlow l hl1 (by omega)

theorem collider_unique_aux {L : List Str} {id y1 y2 : Str}
    (hm2 : y2 ∈ L) (hne : y1 ≠ y2)
    (h1 : nlen L y1 < y1.length) (h2 : nlen L y2 < y2.length)
    (hle : nlen L y1 ≤ nlen L y2)
    (hl1 : isLead (y1.take (nlen L y1)) id = true)
    (hl2 : isLead (y2.take (nlen L y2)) id = true) : False := by
  have hp1 : id.take (nlen L y1) = y1.take (nlen L y1) := by
    have := isLead_iff.mp hl1
    rw [List.length_take] at this
    rw [show min (nlen L y1) y1.length = nlen L y1 by omega] at this
    exact this
  have hp2 : id.take (nlen L y2) = y2.take (nlen L y2) := by
    have := isLead_iff.mp hl2
    rw [List.length_take] at this
    rw [show min (nlen L y2) y2.length = nlen L y2 by omega] at this
    exact this
  have hn1id : nlen L y1 ≤ id.length := by
    have := isLead_length hl1
    rw [List.length_take] at this
    omega
  have hstep : isLead (y1.take (nlen L y1)) (y2.take (nlen L y2)) = true := by
    rw [isLead_iff, ← hp1, ← hp2, List.length_take, List.take_take]
    exact List.take_eq_take.mpr (by omega)
  have hlead : isLead (y1.take (nlen L y1)) y2 = true :=
    isLead_trans hstep (isLead_take y2 (nlen L y2))
  have := uniqueAt_sem.mp (nlen_found L y1 h1) y2 hm2 (fun he => hne he.symm)
  rw [hlead] at this
  cases this

theorem uniqueAt_self_append (L : List Str) (id : Str) (l : Nat) :
    uniqueAt (L ++ [id]) id l = uniqueAt L id l := by
  by_cases h : uniqueAt L id l = true
  · rw [h]
    rw [uniqueAt_append.mpr ⟨h, fun hne => absurd rfl hne⟩]
  · rw [Bool.eq_false_iff.mpr h]
    by_cases h2 : uniqueAt (L ++ [id]) id l = true
    · exact absurd (uniqueAt_append.mp h2).1 h
    · exact Bool.eq_false_iff.mpr h2

theorem nlen_self_append (L : List Str) (id : Str) :
    nlen (L ++ [id]) id = nlen L id := by
  rw [nlen, nlen]
  have : ∀ l, uniqueAt (L ++ [id]) id l = uniqueAt L id l :=
    uniqueAt_self_append L id
  rw [show (uniqueAt (L ++ [id]) id) = (uniqueAt L id) from funext this]

theorem take_ne_of_len {id : Str} {l l' : Nat} (h : l ≠ l') (h1 : l ≤ id.length)
    (h2 : l' ≤ id.length) : id.take l ≠ id.take l' := by
  intro he
  have := congrArg List.length he
  rw [List.length_take, List.length_take] at this
  omega

theorem take_nonempty {id : Str} {l : Nat} (h1 : 1 ≤ l) (h2 : id ≠ []) :
    id.take l ≠ [] := by
  intro he
  have hlen := congrArg List.length he
  rw [List.length_take, List.length_nil] at hlen
  have hid : id.length ≠ 0 := fun h0 => h2 (List.eq_nil_of_length_eq_zero h0)
  omega

theorem scanIdx_pos (ps : PDict) (id : Str) (h : id ≠ []) : 1 ≤ scanIdx ps id := by
  match hf : (List.range' 1 id.length).find? (fun i => breakCond ps id i) with
  | some l =>
      have hm : scanIdx ps id = l := by rw [scanIdx, hf]
      have := (range'_find?_some _ _ _ hf).2.1
      omega
  | none =>
      have hm : scanIdx ps id = id.length := by rw [scanIdx, hf]
      have : id.length ≠ 0 := fun h0 => h (List.eq_nil_of_length_eq_zero h0)
      omega

theorem scanIdx_le (ps : PDict) (id : Str) : scanIdx ps id ≤ id.length := by
  match hf : (List.range' 1 id.length).find? (fun i => breakCond ps id i) with
  | some l =>
      have hm : scanIdx ps id = l := by rw [scanIdx, hf]
      have := (range'_find?_some _ _ _ hf).2.2.1
      omega
  | none =>
      have hm : scanIdx ps id = id.length := by rw [scanIdx, hf]
      omega

theorem scanIdx_min (ps : PDict) (id : Str) :
    ∀ l, 1 ≤ l → l < scanIdx ps id → breakCond ps id l = false := by
  intro l h1 h2
  match hf : (List.range' 1 id.length).find? (fun i => breakCond ps id i) with
  | some m =>
      have hm : scanIdx ps id = m := by rw [scanIdx, hf]
      exact (range'_find?_some _ _ _ hf).2.2.2 l h1 (by omega)
  | none =>
      have hm : scanIdx ps id = id.length := by rw [scanIdx, hf]
      exact range'_find?_none _ _ hf l h1 (by omega)

theorem scanIdx_breaks (ps : PDict) (id : Str) :
    breakCond ps id (scanIdx ps id) = true ∨
    (scanIdx ps id = id.length ∧
      ∀ l, 1 ≤ l → l ≤ id.length → breakCond ps id l = false) := by
  match hf : (List.range' 1 id.length).find? (fun i => breakCond ps id i) with
  | some m =>
      have hm : scanIdx ps id = m := by rw [scanIdx, hf]
      rw [hm]
      exact Or.inl (range'_find?_some _ _ _ hf).1
  | none =>
      have hm : scanIdx ps id = id.length := by rw [scanIdx, hf]
      refine Or.inr ⟨hm, ?_⟩
      intro l h1 h2
      exact range'_find?_none _ _ hf l h1 (by omega)

theorem breakCond_false {ps : PDict} {id : Str} {l : Nat}
    (h : breakCond ps id l = false) :
    ∃ v, pdGet? ps (id.take l) = some v ∧ (v = [] ∨ v = id.take l) := by
  rw [breakCond] at h
  match hv : pdGet? ps (id.take l) with
  | none => rw [hv] at h; cases h
  | some v =>
      rw [hv] at h
      refine ⟨v, rfl, ?_⟩
      rw [decide_eq_false_iff_not] at h
      by_cases hv0 : v = []
      · exact Or.inl hv0
      · by_cases hpv : id.take l = v
        · exact Or.inr hpv.symm
        · exact absurd ⟨hv0, hpv⟩ h

theorem breakCond_true {ps : PDict} {id : Str} {l : Nat}
    (h : breakCond ps id l = true) :
    pdGet? ps (id.take l) = none ∨
    ∃ v, pdGet? ps (id.take l) = some v ∧ v ≠ [] ∧ id.take l ≠ v := by
  rw [breakCond] at h
  match hv : pdGet? ps (id.take l) with
  | none => exact Or.inl rfl
  | some v =>
      rw [hv] at h
      rw [decide_eq_true_iff] at h
      exact Or.inr ⟨v, rfl, h⟩

/-- The tombstoning prefix-run of the collision loop: sets
`id.take j, ..., id.take (j+k-1)` to the empty marker, in order. -/
def tombs (id : Str) : Nat → Nat → PDict → PDict
  | 0, _, ps => ps
  | k + 1, j, ps => tombs id k (j + 1) (pdSet ps (id.take j) [])

theorem tombs_lookup_out (id : Str) : ∀ (k j : Nat) (ps : PDict) (p : Str),
    (∀ l, j ≤ l → l < j + k → p ≠ id.take l) →
    aGet? (tombs id k j ps) p = aGet? ps p := by
  intro k
  induction k with
  | zero => intro j ps p _; rfl
  | succ m ih =>
      intro j ps p hp
      rw [tombs, ih (j + 1) _ p (fun l h1 h2 => hp l (by omega) (by omega))]
      rw [aGet?_aSet_ne _ _ _ _ (hp j (le_refl _) (by omega))]

theorem tombs_lookup_in (id : Str) : ∀ (k j : Nat) (ps : PDict),
    j + k ≤ id.length + 1 →
    ∀ l, j ≤ l → l < j + k → aGet? (tombs id k j ps) (id.take l) = some [] := by
  intro k
  induction k with
  | zero => intro j ps _ l h1 h2; omega
  | succ m ih =>
      intro j ps hk l h1 h2
      rw [tombs]
      by_cases hl : l = j
      · subst hl
        rw [tombs_lookup_out id m (l + 1) _ _ ?_]
        · exact aGet?_aSet_self _ _ _
        · intro l' hl1 hl2
          exact take_ne_of_len (by omega) (by omega) (by omega)
      · exact ih (j + 1) _ (by omega) l (by omega) (by omega)

theorem pdGet?_pdSet_self (d : PDict) (k v : Str) :
    pdGet? (pdSet d k v) k = some v := aGet?_aSet_self d k v

theorem pdGet?_pdSet_ne (d : PDict) (k k' v : Str) (h : k' ≠ k) :
    pdGet? (pdSet d k v) k' = pdGet? d k' := aGet?_aSet_ne d k k' v h

theorem pdGet?_tombs_out (id : Str) (k j : Nat) (ps : PDict) (p : Str)
    (h : ∀ l, j ≤ l → l < j + k → p ≠ id.take l) :
    pdGet? (tombs id k j ps) p = pdGet? ps p := tombs_lookup_out id k j ps p h

theorem pdGet?_tombs_in (id : Str) (k j : Nat) (ps : PDict)
    (hk : j + k ≤ id.length + 1) (l : Nat) (h1 : j ≤ l) (h2 : l < j + k) :
    pdGet? (tombs id k j ps) (id.take l) = some [] :=
  tombs_lookup_in id k j ps hk l h1 h2

theorem tombs_uniq (id : Str) : ∀ (k j : Nat) (ps : PDict),
    uniqKeys ps → uniqKeys (tombs id k j ps) := by
  intro k
  induction k with
  | zero => intro j ps h; exact h
  | succ m ih =>
      intro j ps h
      rw [tombs]
      exact ih (j + 1) _ (aSet_nodup h)

theorem collideAux_break (other id : Str) (n c : Nat) (hne : other ≠ id)
    (hc : lcp other id = c) (hcn : c + 1 ≤ n) :
    ∀ (k j : Nat) (ps : PDict), j + k = c + 1 → 1 ≤ j →
    collideAux other id n (n + 1 - j) j ps =
      pdSet (pdSet (tombs id k j ps) (other.take (c + 1)) other)
        (id.take (c + 1)) id := by
  intro k
  induction k with
  | zero =>
      intro j ps hj _
      have hj' : j = c + 1 := by omega
      subst hj'
      have hneq : ¬ other.take (c + 1) = id.take (c + 1) := by
        intro he
        have := (take_eq_iff_lcp other id hne (c + 1)).mp he
        omega
      rw [show n + 1 - (c + 1) = (n - (c + 1)) + 1 by omega, collideAux, if_neg hneq]
      rfl
  | succ m ih =>
      intro j ps hj hj1
      have hjc : j ≤ c := by omega
      rw [show n + 1 - j = (n - j) + 1 by omega, collideAux]
      rw [if_pos ((take_eq_iff_lcp other id hne j).mpr (by omega))]
      rw [show n - j = n + 1 - (j + 1) by omega]
      rw [ih (j + 1) _ (by omega) (by omega)]
      rw [tombs]

theorem collideAux_exhaust (other id : Str) (n c : Nat) (hne : other ≠ id)
    (hc : lcp other id = c) (hcn : n ≤ c) (hn : n = id.length) :
    ∀ (k j : Nat) (ps : PDict), j + k = n + 1 → 1 ≤ j →
    collideAux other id n (n + 1 - j) j ps =
      pdSet (pdSet (tombs id k j ps) (other.take (n + 1)) other) id id := by
  intro k
  induction k with
  | zero =>
      intro j ps hj _
      have hj' : j = n + 1 := by omega
      subst hj'
      rw [show n + 1 - (n + 1) = 0 by omega, collideAux]
      rfl
  | succ m ih =>
      intro j ps hj hj1
      have hjc : j ≤ n := by omega
      rw [show n + 1 - j = (n - j) + 1 by omega, collideAux]
      rw [if_pos ((take_eq_iff_lcp other id hne j).mpr (by omega))]
      rw [show n - j = n + 1 - (j + 1) by omega]
      rw [ih (j + 1) _ (by omega) (by omega)]
      rw [tombs]

/-- The invariant of the main loop of `_prefixes`: after processing the ids
of `L`, the dict holds, for every leading substring `p` of a processed id up
to that id's final prefix length, a slot; the slot at exactly the prefix of
`z` holds `z`, every other slot holds the empty tombstone. -/
def INV (L : List Str) (ps : PDict) : Prop :=
  uniqKeys ps ∧
  (∀ p v, pdGet? ps p = some v → p = [] → v = []) ∧
  (∀ p v, pdGet? ps p = some v → p ≠ [] →
    ∃ z, z ∈ L ∧ isLead p z = true ∧ p.length ≤ nlen L z) ∧
  (∀ z, z ∈ L → ∀ l, 1 ≤ l → l ≤ nlen L z → pdGet? ps (z.take l) ≠ none) ∧
  (∀ z, z ∈ L → pdGet? ps (z.take (nlen L z)) = some z) ∧
  (∀ p v, pdGet? ps p = some v → v ≠ [] → v ∈ L ∧ p = v.take (nlen L v))

theorem INV_nil : INV [] [] := by
  refine ⟨List.nodup_nil, ?_, ?_, ?_, ?_, ?_⟩
  · intro p v h; cases h
  · intro p v h; cases h
  · intro z hz; cases hz
  · intro z hz; cases hz
  · intro p v h; cases h

theorem nlen_append_of_no_collider {L : List Str} {id : Str}
    (hnc : ∀ z, z ∈ L → z ≠ [] → nlen L z < z.length →
      isLead (z.take (nlen L z)) id = false) :
    ∀ z, z ∈ L → z ≠ [] → nlen (L ++ [id]) z = nlen L z := by
  intro z hz hzne
  rcases Nat.lt_or_ge (nlen L z) z.length with h | h
  · exact nlen_append_keep h (hnc z hz hzne h)
  · have he : nlen L z = z.length := by
      have := nlen_le L z
      omega
    rw [he]
    exact nlen_append_fallback hzne he

theorem owner_slot_clash {L : List Str} {ps : PDict} {id z : Str}
    (hq5 : ∀ z, z ∈ L → pdGet? ps (z.take (nlen L z)) = some z)
    (hz : z ∈ L) (hzne : z ≠ [])
    (hproper : nlen L z < z.length)
    (heq : z.take (nlen L z) = id.take (nlen L z))
    (hbf : breakCond ps id (nlen L z) = false) : False := by
  obtain ⟨v, hv, hvor⟩ := breakCond_false hbf
  rw [← heq, hq5 z hz] at hv
  injection hv with hv
  rcases hvor with h | h
  · exact hzne (by rw [hv, h])
  · have hlen := congrArg List.length h
    rw [← hv] at hlen
    rw [List.length_take] at hlen
    omega

/-- A slot lookup hit from a leading substring of a scanned id implies the
candidate length is not unique for the new id. -/
theorem slot_not_unique {L : List Str} {ps : PDict} {id : Str} {l : Nat}
    (hq3 : ∀ p v, pdGet? ps p = some v → p ≠ [] →
      ∃ z, z ∈ L ∧ isLead p z = true ∧ p.length ≤ nlen L z)
    (hnm : id ∉ L) (hne : id ≠ []) (h1 : 1 ≤ l)
    {v : Str} (hv : pdGet? ps (id.take l) = some v) :
    uniqueAt (L ++ [id]) id l = false := by
  obtain ⟨z, hz, hlead, _⟩ := hq3 _ _ hv (take_nonempty h1 hne)
  rw [uniqueAt_self_append]
  by_cases ht : uniqueAt L id l = true
  · have := uniqueAt_sem.mp ht z hz (fun he => hnm (he ▸ hz))
    rw [hlead] at this
    cases this
  · exact Bool.eq_false_iff.mpr ht

theorem step_free {L : List Str} {ps : PDict} {id : Str}
    (hinv : INV L ps) (hnm : id ∉ L) (hne : id ≠ [])
    (hLne : ∀ z, z ∈ L → z ≠ [])
    (hfree : pdGet? ps (id.take (scanIdx ps id)) = none) :
    INV (L ++ [id]) (pdSet ps (id.take (scanIdx ps id)) id) := by
  obtain ⟨hq1, hq2, hq3, hq4, hq5, hq6⟩ := hinv
  have hi1 : 1 ≤ scanIdx ps id := scanIdx_pos ps id hne
  have hin : scanIdx ps id ≤ id.length := scanIdx_le ps id
  have hklen : (id.take (scanIdx ps id)).length = scanIdx ps id := by
    rw [List.length_take]
    omega
  have hkne : id.take (scanIdx ps id) ≠ [] := take_nonempty hi1 hne
  -- the shortest-unique length of the new id is exactly the scan index
  have hlow : ∀ l, 1 ≤ l → l < scanIdx ps id →
      uniqueAt (L ++ [id]) id l = false := by
    intro l h1 h2
    obtain ⟨v, hv, _⟩ := breakCond_false (scanIdx_min ps id l h1 h2)
    exact slot_not_unique hq3 hnm hne h1 hv
  have hmid : uniqueAt (L ++ [id]) id (scanIdx ps id) = true := by
    rw [uniqueAt_self_append, uniqueAt_sem]
    intro y hy hyne
    by_cases hl : isLead (id.take (scanIdx ps id)) y = true
    · exfalso
      have hyne' : y ≠ [] := hLne y hy
      have hyt : y.take (scanIdx ps id) = id.take (scanIdx ps id) := by
        have := isLead_iff.mp hl
        rw [hklen] at this
        exact this
      rcases Nat.lt_or_ge (nlen L y) (scanIdx ps id) with hc | hc
      · -- the slot of y's prefix sits strictly before the scan index
        have hbf : breakCond ps id (nlen L y) = false :=
          scanIdx_min ps id _ (nlen_pos L y hyne') hc
        have hproper : nlen L y < y.length := by
          have := isLead_length hl
          rw [hklen] at this
          omega
        have heq : y.take (nlen L y) = id.take (nlen L y) := by
          have h1 : y.take (nlen L y) = (y.take (scanIdx ps id)).take (nlen L y) := by
            rw [List.take_take]
            congr 1
            omega
          rw [h1, hyt, List.take_take]
          congr 1
          omega
        exact owner_slot_clash hq5 hy hyne' hproper heq hbf
      · -- the slot of y's shared prefix at the scan index must exist
        have := hq4 y hy (scanIdx ps id) hi1 hc
        rw [hyt] at this
        exact this hfree
    · exact Bool.eq_false_iff.mpr hl
  have hnl' : nlen (L ++ [id]) id = scanIdx ps id := by
    rw [nlen_self_append]
    refine nlen_det _ _ _ hi1 hin ?_ ?_
    · intro l h1 h2
      have := hlow l h1 h2
      rw [uniqueAt_self_append] at this
      exact this
    · have := hmid
      rw [uniqueAt_self_append] at this
      exact this
  have hnc : ∀ w, w ∈ L → w ≠ [] → nlen L w < w.length →
      isLead (w.take (nlen L w)) id = false := by
    intro w hw hwne hproper
    by_cases hl : isLead (w.take (nlen L w)) id = true
    · exfalso
      have hwlen : nlen L w ≤ id.length := by
        have := isLead_length hl
        rw [List.length_take] at this
        omega
      have heq : w.take (nlen L w) = id.take (nlen L w) := by
        have h0 := isLead_iff.mp hl
        rw [List.length_take, show min (nlen L w) w.length = nlen L w by omega] at h0
        exact h0.symm
      rcases Nat.lt_trichotomy (nlen L w) (scanIdx ps id) with hc | hc | hc
      · exact owner_slot_clash hq5 hw hwne hproper heq
          (scanIdx_min ps id _ (nlen_pos L w hwne) hc)
      · have h5 := hq5 w hw
        rw [heq, hc, hfree] at h5
        cases h5
      · have h4 := hq4 w hw (scanIdx ps id) hi1 (by omega)
        have hwt : w.take (scanIdx ps id) = id.take (scanIdx ps id) := by
          have h1 : w.take (scanIdx ps id) = (w.take (nlen L w)).take (scanIdx ps id) := by
            rw [List.take_take]
            congr 1
            omega
          rw [h1, heq, List.take_take]
          congr 1
          omega
        rw [hwt] at h4
        exact h4 hfree
    · exact Bool.eq_false_iff.mpr hl
  have hsame : ∀ z, z ∈ L → nlen (L ++ [id]) z = nlen L z :=
    fun z hz => nlen_append_of_no_collider hnc z hz (hLne z hz)
  refine ⟨aSet_nodup hq1, ?_, ?_, ?_, ?_, ?_⟩
  · intro p v hv hp
    have hpk : p ≠ id.take (scanIdx ps id) := by
      rw [hp]
      exact fun he => hkne he.symm
    rw [pdGet?_pdSet_ne _ _ _ _ hpk] at hv
    exact hq2 _ _ hv hp
  · intro p v hv hp
    by_cases hk : p = id.take (scanIdx ps id)
    · refine ⟨id, List.mem_append.mpr (Or.inr (List.mem_singleton.mpr rfl)), ?_, ?_⟩
      · rw [hk]
        exact isLead_take id _
      · rw [hnl', hk, hklen]
    · rw [pdGet?_pdSet_ne _ _ _ _ hk] at hv
      obtain ⟨z, hz, hlz, hlen⟩ := hq3 _ _ hv hp
      exact ⟨z, List.mem_append.mpr (Or.inl hz), hlz, by rw [hsame z hz]; exact hlen⟩
  · intro z hz l h1 h2
    rcases List.mem_append.mp hz with hzL | hzid
    · rw [hsame z hzL] at h2
      by_cases hk : z.take l = id.take (scanIdx ps id)
      · rw [hk, pdGet?_pdSet_self]
        exact fun h => Option.noConfusion h
      · rw [pdGet?_pdSet_ne _ _ _ _ hk]
        exact hq4 z hzL l h1 h2
    · have hzid' : z = id := List.mem_singleton.mp hzid
      rw [hzid'] at h2 ⊢
      rw [hnl'] at h2
      by_cases hl : l = scanIdx ps id
      · rw [hl, pdGet?_pdSet_self]
        exact fun h => Option.noConfusion h
      · have hkne2 : id.take l ≠ id.take (scanIdx ps id) :=
          take_ne_of_len (by omega) (by omega) (by omega)
        rw [pdGet?_pdSet_ne _ _ _ _ hkne2]
        obtain ⟨v, hv, _⟩ := breakCond_false (scanIdx_min ps id l h1 (by omega))
        rw [hv]
        exact fun h => Option.noConfusion h
  · intro z hz
    rcases List.mem_append.mp hz with hzL | hzid
    · rw [hsame z hzL]
      have hkne5 : z.take (nlen L z) ≠ id.take (scanIdx ps id) := by
        intro he
        have h5 := hq5 z hzL
        rw [he, hfree] at h5
        cases h5
      rw [pdGet?_pdSet_ne _ _ _ _ hkne5]
      exact hq5 z hzL
    · have hzid' : z = id := List.mem_singleton.mp hzid
      rw [hzid', hnl', pdGet?_pdSet_self]
  · intro p v hv hvne
    by_cases hk : p = id.take (scanIdx ps id)
    · rw [hk, pdGet?_pdSet_self] at hv
      injection hv with hv
      refine ⟨?_, ?_⟩
      · rw [← hv]
        exact List.mem_append.mpr (Or.inr (List.mem_singleton.mpr rfl))
      · rw [← hv, hnl', hk]
    · rw [pdGet?_pdSet_ne _ _ _ _ hk] at hv
      obtain ⟨hvL, hkey⟩ := hq6 _ _ hv hvne
      exact ⟨List.mem_append.mpr (Or.inl hvL), by rw [hsame v hvL]; exact hkey⟩

/-- Any processed id sharing the owner's prefix-slot length with the owner
contradicts the uniqueness of the owner's prefix. -/
theorem share_clash {L : List Str} {other z : Str} {i : Nat}
    (hoL : other ∈ L) (hio : nlen L other = i) (hproper : i < other.length)
    (hz : z ∈ L) (hzo : z ≠ other)
    (hshare : z.take i = other.take i) : False := by
  have hu : uniqueAt L other i = true := by
    rw [← hio]
    exact nlen_found L other (by omega)
  have hl : isLead (other.take i) z = true := by
    rw [isLead_iff, List.length_take, show min i other.length = i by omega]
    exact hshare
  have := uniqueAt_sem.mp hu z hz hzo
  rw [hl] at this
  cases this

theorem step_owner {L : List Str} {ps : PDict} {id other : Str}
    (hinv : INV L ps) (hnm : id ∉ L) (hne : id ≠ [])
    (hLne : ∀ z, z ∈ L → z ≠ [])
    (hsome : pdGet? ps (id.take (scanIdx ps id)) = some other)
    (hone : other ≠ []) (hkno : id.take (scanIdx ps id) ≠ other) :
    INV (L ++ [id]) (collide other id id.length (scanIdx ps id) ps) := by
  obtain ⟨hq1, hq2, hq3, hq4, hq5, hq6⟩ := hinv
  have hi1 : 1 ≤ scanIdx ps id := scanIdx_pos ps id hne
  have hin : scanIdx ps id ≤ id.length := scanIdx_le ps id
  obtain ⟨hoL, hokey⟩ := hq6 _ _ hsome hone
  -- the scan index is exactly the owner's prefix length
  have hio : nlen L other = scanIdx ps id := by
    have := congrArg List.length hokey
    rw [List.length_take, List.length_take] at this
    have h1 := nlen_le L other
    omega
  have hoid : other ≠ id := fun he => hnm (he ▸ hoL)
  have hproper : scanIdx ps id < other.length := by
    rcases Nat.lt_or_ge (scanIdx ps id) other.length with h | h
    · exact h
    · exfalso
      refine hkno ?_
      rw [hokey, hio, List.take_of_length_le (by omega)]
  have heq0 : other.take (scanIdx ps id) = id.take (scanIdx ps id) := by
    rw [hokey, hio]
  have hic : scanIdx ps id ≤ lcp other id :=
    (take_eq_iff_lcp other id hoid _).mp heq0
  have hcn : lcp other id ≤ id.length := lcp_le_right other id
  have hcol : isLead (other.take (nlen L other)) id = true := by
    rw [hio, heq0]
    exact isLead_take id _
  -- the final dict, uniformly over break and loop-exhaustion
  have hshape : collide other id id.length (scanIdx ps id) ps =
      pdSet (pdSet (tombs id (lcp other id + 1 - scanIdx ps id) (scanIdx ps id) ps)
        (other.take (lcp other id + 1)) other) (id.take (lcp other id + 1)) id := by
    rcases Nat.lt_or_ge (lcp other id) id.length with hA | hB
    · exact collideAux_break other id id.length (lcp other id) hoid rfl (by omega)
        (lcp other id + 1 - scanIdx ps id) (scanIdx ps id) ps (by omega) hi1
    · have hceq : lcp other id = id.length := by omega
      rw [collide, collideAux_exhaust other id id.length (lcp other id) hoid rfl
        hB rfl (id.length + 1 - scanIdx ps id) (scanIdx ps id) ps (by omega) hi1]
      rw [hceq, show id.take (id.length + 1) = id from List.take_of_length_le (by omega)]
  rw [hshape]
  -- new prefix lengths
  have hno : nlen (L ++ [id]) other = min (lcp other id + 1) other.length :=
    nlen_append_shift hoid (by omega) hcol
  have hlow : ∀ l, 1 ≤ l → l ≤ lcp other id → uniqueAt L id l = false := by
    intro l hl1 hl2
    by_cases ht : uniqueAt L id l = true
    · exfalso
      have hlead : isLead (id.take l) other = true := by
        rw [isLead_iff, List.length_take]
        rw [show id.take l = id.take (min l id.length) from
          (List.take_eq_take.mpr (by omega)).symm]
        exact (take_eq_iff_lcp other id hoid _).mpr (by omega)
      have := uniqueAt_sem.mp ht other hoL hoid
      rw [hlead] at this
      cases this
    · exact Bool.eq_false_iff.mpr ht
  have hni : nlen (L ++ [id]) id = min (lcp other id + 1) id.length := by
    rw [nlen_self_append]
    rcases Nat.lt_or_ge (lcp other id) id.length with hA | hB
    · rw [show min (lcp other id + 1) id.length = lcp other id + 1 by omega]
      refine nlen_det _ _ _ (by omega) (by omega) ?_ ?_
      · intro l h1 h2
        exact hlow l h1 (by omega)
      · rw [uniqueAt_sem]
        intro y hy hyne
        by_cases hl : isLead (id.take (lcp other id + 1)) y = true
        · exfalso
          have hyt : y.take (lcp other id + 1) = id.take (lcp other id + 1) := by
            have := isLead_iff.mp hl
            rw [List.length_take, show min (lcp other id + 1) id.length =
              lcp other id + 1 by omega] at this
            exact this
          by_cases hyo : y = other
          · rw [hyo] at hyt
            have := (take_eq_iff_lcp other id hoid _).mp hyt
            omega
          · refine share_clash hoL hio hproper hy hyo ?_
            have h1 : y.take (scanIdx ps id) = (y.take (lcp other id + 1)).take (scanIdx ps id) := by
              rw [List.take_take]
              congr 1
              omega
            rw [h1, hyt, List.take_take, show min (scanIdx ps id) (lcp other id + 1) =
              scanIdx ps id by omega, ← heq0]
        · exact Bool.eq_false_iff.mpr hl
    · rw [show min (lcp other id + 1) id.length = id.length by omega]
      refine nlen_all_false _ _ ?_
      intro l h1 h2
      exact hlow l h1 (by omega)
  have hsame : ∀ z, z ∈ L → z ≠ other → nlen (L ++ [id]) z = nlen L z := by
    intro z hz hzo
    rcases Nat.lt_or_ge (nlen L z) z.length with hp | hp
    · refine nlen_append_keep hp ?_
      by_cases hl : isLead (z.take (nlen L z)) id = true
      · exfalso
        rcases Nat.le_total (nlen L z) (nlen L other) with hh | hh
        · exact collider_unique_aux hoL hzo hp (by omega) hh hl hcol
        · exact collider_unique_aux hz (fun he => hzo he.symm) (by omega) hp hh hcol hl
      · exact Bool.eq_false_iff.mpr hl
    · have he : nlen L z = z.length := by
        have := nlen_le L z
        omega
      rw [he]
      exact nlen_append_fallback (hLne z hz) he
  -- shared arithmetic about the two new keys
  have hktop_ne : id.take (lcp other id + 1) ≠ [] := take_nonempty (by omega) hne
  have hkok_ne : other.take (lcp other id + 1) ≠ [] := take_nonempty (by omega) hone
  have hkio : id.take (lcp other id + 1) ≠ other.take (lcp other id + 1) := by
    intro he
    have := (take_eq_iff_lcp other id hoid _).mp he.symm
    omega
  have hrange : scanIdx ps id + (lcp other id + 1 - scanIdx ps id) ≤ id.length + 1 := by
    omega
  -- the four lookup outcomes in the updated dict
  have htop : pdGet? (pdSet (pdSet (tombs id (lcp other id + 1 - scanIdx ps id)
      (scanIdx ps id) ps) (other.take (lcp other id + 1)) other)
      (id.take (lcp other id + 1)) id) (id.take (lcp other id + 1)) = some id :=
    pdGet?_pdSet_self _ _ _
  have hok : pdGet? (pdSet (pdSet (tombs id (lcp other id + 1 - scanIdx ps id)
      (scanIdx ps id) ps) (other.take (lcp other id + 1)) other)
      (id.take (lcp other id + 1)) id) (other.take (lcp other id + 1)) = some other := by
    rw [pdGet?_pdSet_ne _ _ _ _ (fun he => hkio he.symm), pdGet?_pdSet_self]
  have hout : ∀ p, p ≠ id.take (lcp other id + 1) → p ≠ other.take (lcp other id + 1) →
      (¬ ∃ l, scanIdx ps id ≤ l ∧ l ≤ lcp other id ∧ p = id.take l) →
      pdGet? (pdSet (pdSet (tombs id (lcp other id + 1 - scanIdx ps id)
        (scanIdx ps id) ps) (other.take (lcp other id + 1)) other)
        (id.take (lcp other id + 1)) id) p = pdGet? ps p := by
    intro p h1 h2 h3
    rw [pdGet?_pdSet_ne _ _ _ _ h1, pdGet?_pdSet_ne _ _ _ _ h2]
    exact pdGet?_tombs_out _ _ _ _ _ (fun l hl1 hl2 he => h3 ⟨l, by omega, by omega, he⟩)
  have hinrange : ∀ l, scanIdx ps id ≤ l → l ≤ lcp other id + 1 →
      pdGet? (pdSet (pdSet (tombs id (lcp other id + 1 - scanIdx ps id)
        (scanIdx ps id) ps) (other.take (lcp other id + 1)) other)
        (id.take (lcp other id + 1)) id) (id.take l) ≠ none := by
    intro l hl1 hl2
    by_cases hk1 : id.take l = id.take (lcp other id + 1)
    · rw [hk1, htop]
      exact fun h => Option.noConfusion h
    · rw [pdGet?_pdSet_ne _ _ _ _ hk1]
      by_cases hk2 : id.take l = other.take (lcp other id + 1)
      · rw [hk2, pdGet?_pdSet_self]
        exact fun h => Option.noConfusion h
      · rw [pdGet?_pdSet_ne _ _ _ _ hk2]
        have hl3 : l ≤ lcp other id := by
          by_cases hc : l = lcp other id + 1
          · exact absurd (by rw [hc]) hk1
          · omega
        rw [pdGet?_tombs_in _ _ _ _ hrange l (by omega) (by omega)]
        exact fun h => Option.noConfusion h
  have hnonone : ∀ p, pdGet? (pdSet (pdSet (tombs id (lcp other id + 1 - scanIdx ps id)
      (scanIdx ps id) ps) (other.take (lcp other id + 1)) other)
      (id.take (lcp other id + 1)) id) p = none → pdGet? ps p = none := by
    intro p hp
    by_cases h1 : p = id.take (lcp other id + 1)
    · rw [h1, htop] at hp
      cases hp
    · by_cases h2 : p = other.take (lcp other id + 1)
      · rw [h2, hok] at hp
        cases hp
      · by_cases h3 : ∃ l, scanIdx ps id ≤ l ∧ l ≤ lcp other id ∧ p = id.take l
        · obtain ⟨l, hl1, hl2, rfl⟩ := h3
          rw [pdGet?_pdSet_ne _ _ _ _ h1, pdGet?_pdSet_ne _ _ _ _ h2,
            pdGet?_tombs_in _ _ _ _ hrange l (by omega) (by omega)] at hp
          cases hp
        · rw [hout p h1 h2 h3] at hp
          exact hp
  -- a processed id other than the owner never shares the owner prefix slot key
  have hshareclash : ∀ z, z ∈ L → z ≠ other → ∀ q, scanIdx ps id ≤ q →
      z.take q = id.take q → False := by
    intro z hz hzo q hq he
    refine share_clash hoL hio hproper hz hzo ?_
    have h1 : z.take (scanIdx ps id) = (z.take q).take (scanIdx ps id) := by
      rw [List.take_take]
      congr 1
      omega
    rw [h1, he, List.take_take, show min (scanIdx ps id) q = scanIdx ps id by omega,
      ← heq0]
  refine ⟨aSet_nodup (aSet_nodup (tombs_uniq _ _ _ _ hq1)), ?_, ?_, ?_, ?_, ?_⟩
  · -- empty key
    intro p v hv hp
    rw [hout p (by rw [hp]; exact fun he => hktop_ne he.symm)
      (by rw [hp]; exact fun he => hkok_ne he.symm)
      (by
        rintro ⟨l, hl1, hl2, he⟩
        rw [hp] at he
        exact take_nonempty (by omega) hne he.symm)] at hv
    exact hq2 _ _ hv hp
  · -- domain only holds leading substrings up to the final prefix length
    intro p v hv hp
    by_cases hk1 : p = id.take (lcp other id + 1)
    · refine ⟨id, List.mem_append.mpr (Or.inr (List.mem_singleton.mpr rfl)), ?_, ?_⟩
      · rw [hk1]
        exact isLead_take id _
      · rw [hni, hk1, List.length_take]
    · by_cases hk2 : p = other.take (lcp other id + 1)
      · refine ⟨other, List.mem_append.mpr (Or.inl hoL), ?_, ?_⟩
        · rw [hk2]
          exact isLead_take other _
        · rw [hno, hk2, List.length_take]
      · by_cases hk3 : ∃ l, scanIdx ps id ≤ l ∧ l ≤ lcp other id ∧ p = id.take l
        · obtain ⟨l, hl1, hl2, rfl⟩ := hk3
          refine ⟨id, List.mem_append.mpr (Or.inr (List.mem_singleton.mpr rfl)), ?_, ?_⟩
          · exact isLead_take id _
          · rw [hni, List.length_take]
            omega
        · rw [hout p hk1 hk2 hk3] at hv
          obtain ⟨z, hz, hlz, hlen⟩ := hq3 _ _ hv hp
          refine ⟨z, List.mem_append.mpr (Or.inl hz), hlz, ?_⟩
          by_cases hzo : z = other
          · rw [hzo] at hlen ⊢
            rw [hno]
            rw [hio] at hlen
            omega
          · rw [hsame z hz hzo]
            exact hlen
  · -- every leading substring up to the prefix length has a slot
    intro z hz l h1 h2
    rcases List.mem_append.mp hz with hzL | hzid
    · by_cases hzo : z = other
      · rw [hzo] at h2 ⊢
        rw [hno] at h2
        rcases Nat.le_total l (scanIdx ps id) with hl | hl
        · intro hnone
          exact hq4 other hoL l h1 (by omega) (hnonone _ hnone)
        · by_cases hlc : l ≤ lcp other id
          · have : other.take l = id.take l :=
              (take_eq_iff_lcp other id hoid _).mpr (by omega)
            rw [this]
            exact hinrange l (by omega) (by omega)
          · have hl4 : l = lcp other id + 1 := by omega
            rw [hl4, hok]
            exact fun h => Option.noConfusion h
      · rw [hsame z hzL hzo] at h2
        intro hnone
        exact hq4 z hzL l h1 h2 (hnonone _ hnone)
    · have hzid' : z = id := List.mem_singleton.mp hzid
      rw [hzid'] at h2 ⊢
      rw [hni] at h2
      rcases Nat.lt_or_ge l (scanIdx ps id) with hl | hl
      · intro hnone
        obtain ⟨v, hv, _⟩ := breakCond_false (scanIdx_min ps id l h1 hl)
        rw [hnonone _ hnone] at hv
        cases hv
      · exact hinrange l hl (by omega)
  · -- the slot at the prefix of each id holds that id
    intro z hz
    rcases List.mem_append.mp hz with hzL | hzid
    · by_cases hzo : z = other
      · rw [hzo, hno]
        rw [show other.take (min (lcp other id + 1) other.length) =
          other.take (lcp other id + 1) from List.take_eq_take.mpr (by omega)]
        exact hok
      · rw [hsame z hzL hzo]
        have hk1 : z.take (nlen L z) ≠ id.take (lcp other id + 1) := by
          intro he
          have hlen := congrArg List.length he
          rw [List.length_take, List.length_take,
            show min (nlen L z) z.length = nlen L z by
              have := nlen_le L z
              omega] at hlen
          refine hshareclash z hzL hzo (nlen L z) (by omega) ?_
          have h1 : z.take (nlen L z) = (id.take (lcp other id + 1)).take (nlen L z) := by
            rw [← he]
            rw [List.take_take]
            congr 1
            omega
          rw [h1, List.take_take, show min (nlen L z) (lcp other id + 1) = nlen L z by omega]
        have hk2 : z.take (nlen L z) ≠ other.take (lcp other id + 1) := by
          intro he
          have hlen := congrArg List.length he
          rw [List.length_take, List.length_take,
            show min (nlen L z) z.length = nlen L z by
              have := nlen_le L z
              omega] at hlen
          refine share_clash hoL hio hproper hzL hzo ?_
          have h1 : z.take (scanIdx ps id) = (z.take (nlen L z)).take (scanIdx ps id) := by
            rw [List.take_take]
            congr 1
            omega
          rw [h1, he, List.take_take,
            show min (scanIdx ps id) (lcp other id + 1) = scanIdx ps id by omega]
        have hk3 : ¬ ∃ l, scanIdx ps id ≤ l ∧ l ≤ lcp other id ∧
            z.take (nlen L z) = id.take l := by
          rintro ⟨l, hl1, hl2, he⟩
          have hlen := congrArg List.length he
          rw [List.length_take, List.length_take,
            show min (nlen L z) z.length = nlen L z by
              have := nlen_le L z
              omega,
            show min l id.length = l by omega] at hlen
          exact hshareclash z hzL hzo (nlen L z) (by omega) (by rw [he, hlen])
        rw [hout _ hk1 hk2 hk3]
        exact hq5 z hzL
    · have hzid' : z = id := List.mem_singleton.mp hzid
      rw [hzid', hni]
      rw [show id.take (min (lcp other id + 1) id.length) =
        id.take (lcp other id + 1) from List.take_eq_take.mpr (by omega)]
      exact htop
  · -- non-tombstone values sit exactly at their prefix slot
    intro p v hv hvne
    by_cases hk1 : p = id.take (lcp other id + 1)
    · rw [hk1, htop] at hv
      injection hv with hv
      refine ⟨?_, ?_⟩
      · rw [← hv]
        exact List.mem_append.mpr (Or.inr (List.mem_singleton.mpr rfl))
      · rw [← hv, hni, hk1]
        rw [show id.take (min (lcp other id + 1) id.length) =
          id.take (lcp other id + 1) from List.take_eq_take.mpr (by omega)]
    · by_cases hk2 : p = other.take (lcp other id + 1)
      · rw [hk2, hok] at hv
        injection hv with hv
        refine ⟨?_, ?_⟩
        · rw [← hv]
          exact List.mem_append.mpr (Or.inl hoL)
        · rw [← hv, hno, hk2]
          rw [show other.take (min (lcp other id + 1) other.length) =
            other.take (lcp other id + 1) from List.take_eq_take.mpr (by omega)]
      · by_cases hk3 : ∃ l, scanIdx ps id ≤ l ∧ l ≤ lcp other id ∧ p = id.take l
        · exfalso
          obtain ⟨l, hl1, hl2, rfl⟩ := hk3
          rw [pdGet?_pdSet_ne _ _ _ _ hk1, pdGet?_pdSet_ne _ _ _ _ hk2,
            pdGet?_tombs_in _ _ _ _ hrange l (by omega) (by omega)] at hv
          injection hv with hv
          exact hvne hv.symm
        · rw [hout p hk1 hk2 hk3] at hv
          obtain ⟨hvL, hkey⟩ := hq6 _ _ hv hvne
          by_cases hvo : v = other
          · exfalso
            refine hk3 ⟨scanIdx ps id, le_refl _, by omega, ?_⟩
            rw [hkey, hvo, hio, heq0]
          · exact ⟨List.mem_append.mpr (Or.inl hvL),
              by rw [hsame v hvL hvo]; exact hkey⟩

theorem step_exhaust {L : List Str} {ps : PDict} {id other : Str}
    (hinv : INV L ps) (hnm : id ∉ L) (hne : id ≠ [])
    (hLne : ∀ z, z ∈ L → z ≠ [])
    (hsome : pdGet? ps (id.take (scanIdx ps id)) = some other)
    (hbf : breakCond ps id (scanIdx ps id) = false) :
    INV (L ++ [id]) (collide other id id.length (scanIdx ps id) ps) := by
  obtain ⟨hq1, hq2, hq3, hq4, hq5, hq6⟩ := hinv
  have hi1 : 1 ≤ scanIdx ps id := scanIdx_pos ps id hne
  obtain ⟨hsn, hall⟩ : scanIdx ps id = id.length ∧
      ∀ l, 1 ≤ l → l ≤ id.length → breakCond ps id l = false := by
    rcases scanIdx_breaks ps id with h | h
    · rw [h] at hbf
      cases hbf
    · exact h
  have htid : id.take (scanIdx ps id) = id := by
    rw [hsn]
    exact List.take_of_length_le (le_refl _)
  have hoe : other = [] := by
    obtain ⟨v, hv, hvor⟩ := breakCond_false hbf
    rw [hsome] at hv
    injection hv with hv
    rcases hvor with h | h
    · rw [← hv] at h
      exact h
    · exfalso
      rw [← hv, htid] at h
      have := hq6 _ _ hsome (by rw [h]; exact hne)
      rw [h] at this
      exact hnm this.1
  have hshape : collide other id id.length (scanIdx ps id) ps =
      pdSet (pdSet ps [] []) id id := by
    rw [collide, hsn, show id.length + 1 - id.length = 1 by omega, collideAux]
    rw [if_neg (by
      rw [hoe]
      intro hh
      exact hne (by
        have h2 := hh.symm
        rw [List.take_of_length_le (le_refl _), List.take_nil] at h2
        exact h2))]
    rw [hoe, List.take_nil, List.take_of_length_le (le_refl _)]
  rw [hshape]
  have hni : nlen (L ++ [id]) id = id.length := by
    rw [nlen_self_append]
    refine nlen_all_false _ _ ?_
    intro l h1 h2
    obtain ⟨v, hv, _⟩ := breakCond_false (hall l h1 (by omega))
    have := slot_not_unique hq3 hnm hne h1 hv
    rw [uniqueAt_self_append] at this
    exact this
  have hnc : ∀ w, w ∈ L → w ≠ [] → nlen L w < w.length →
      isLead (w.take (nlen L w)) id = false := by
    intro w hw hwne hproper
    by_cases hl : isLead (w.take (nlen L w)) id = true
    · exfalso
      have hwlen : nlen L w ≤ id.length := by
        have := isLead_length hl
        rw [List.length_take] at this
        omega
      have heq : w.take (nlen L w) = id.take (nlen L w) := by
        have h0 := isLead_iff.mp hl
        rw [List.length_take, show min (nlen L w) w.length = nlen L w by omega] at h0
        exact h0.symm
      exact owner_slot_clash hq5 hw hwne hproper heq
        (hall _ (nlen_pos L w hwne) hwlen)
    · exact Bool.eq_false_iff.mpr hl
  have hsame : ∀ z, z ∈ L → nlen (L ++ [id]) z = nlen L z :=
    fun z hz => nlen_append_of_no_collider hnc z hz (hLne z hz)
  refine ⟨aSet_nodup (aSet_nodup hq1), ?_, ?_, ?_, ?_, ?_⟩
  · intro p v hv hp
    rw [pdGet?_pdSet_ne _ _ _ _ (by rw [hp]; exact fun he => hne he.symm)] at hv
    rw [hp, pdGet?_pdSet_self] at hv
    injection hv with hv
    exact hv.symm
  · intro p v hv hp
    by_cases hk1 : p = id
    · refine ⟨id, List.mem_append.mpr (Or.inr (List.mem_singleton.mpr rfl)), ?_, ?_⟩
      · rw [hk1, isLead_iff, List.take_of_length_le (le_refl _)]
      · rw [hni, hk1]
    · rw [pdGet?_pdSet_ne _ _ _ _ hk1, pdGet?_pdSet_ne _ _ _ _ hp] at hv
      obtain ⟨z, hz, hlz, hlen⟩ := hq3 _ _ hv hp
      exact ⟨z, List.mem_append.mpr (Or.inl hz), hlz, by rw [hsame z hz]; exact hlen⟩
  · intro z hz l h1 h2
    rcases List.mem_append.mp hz with hzL | hzid
    · rw [hsame z hzL] at h2
      intro hnone
      refine hq4 z hzL l h1 h2 ?_
      by_cases hk1 : z.take l = id
      · rw [hk1, pdGet?_pdSet_self] at hnone
        cases hnone
      · rw [pdGet?_pdSet_ne _ _ _ _ hk1,
          pdGet?_pdSet_ne _ _ _ _ (take_nonempty h1 (hLne z hzL))] at hnone
        exact hnone
    · have hzid' : z = id := List.mem_singleton.mp hzid
      rw [hzid'] at h2 ⊢
      rw [hni] at h2
      by_cases hl : l = id.length
      · rw [hl, List.take_of_length_le (le_refl _), pdGet?_pdSet_self]
        exact fun h => Option.noConfusion h
      · have hk1 : id.take l ≠ id := by
          intro he
          have hlen := congrArg List.length he
          rw [List.length_take] at hlen
          omega
        rw [pdGet?_pdSet_ne _ _ _ _ hk1,
          pdGet?_pdSet_ne _ _ _ _ (take_nonempty h1 hne)]
        obtain ⟨v, hv, _⟩ := breakCond_false (hall l h1 (by omega))
        rw [hv]
        exact fun h => Option.noConfusion h
  · intro z hz
    rcases List.mem_append.mp hz with hzL | hzid
    · rw [hsame z hzL]
      have hk1 : z.take (nlen L z) ≠ id := by
        intro he
        have h5 := hq5 z hzL
        rw [he] at h5
        rw [htid] at hsome
        rw [hsome] at h5
        injection h5 with h5
        exact hLne z hzL (by rw [← h5, hoe])
      rw [pdGet?_pdSet_ne _ _ _ _ hk1,
        pdGet?_pdSet_ne _ _ _ _ (take_nonempty (nlen_pos L z (hLne z hzL)) (hLne z hzL))]
      exact hq5 z hzL
    · have hzid' : z = id := List.mem_singleton.mp hzid
      rw [hzid', hni, List.take_of_length_le (le_refl _), pdGet?_pdSet_self]
  · intro p v hv hvne
    by_cases hk1 : p = id
    · rw [hk1, pdGet?_pdSet_self] at hv
      injection hv with hv
      refine ⟨?_, ?_⟩
      · rw [← hv]
        exact List.mem_append.mpr (Or.inr (List.mem_singleton.mpr rfl))
      · rw [← hv, hni, hk1, List.take_of_length_le (le_refl _)]
    · by_cases hk2 : p = []
      · exfalso
        rw [pdGet?_pdSet_ne _ _ _ _ hk1, hk2, pdGet?_pdSet_self] at hv
        injection hv with hv
        exact hvne hv.symm
      · rw [pdGet?_pdSet_ne _ _ _ _ hk1, pdGet?_pdSet_ne _ _ _ _ hk2] at hv
        obtain ⟨hvL, hkey⟩ := hq6 _ _ hv hvne
        exact ⟨List.mem_append.mpr (Or.inl hvL), by rw [hsame v hvL]; exact hkey⟩

theorem insId_inv {L : List Str} {ps : PDict} {id : Str}
    (hinv : INV L ps) (hnm : id ∉ L) (hne : id ≠ [])
    (hLne : ∀ z, z ∈ L → z ≠ []) :
    INV (L ++ [id]) (insId ps id) := by
  simp only [insId]
  match hs : pdGet? ps (id.take (scanIdx ps id)) with
  | none => exact step_free hinv hnm hne hLne hs
  | some other =>
      by_cases hbt : breakCond ps id (scanIdx ps id) = true
      · rcases breakCond_true hbt with h | ⟨v, hv, hvne, hkv⟩
        · rw [hs] at h
          cases h
        · rw [hs] at hv
          injection hv with hv
          rw [← hv] at hvne hkv
          exact step_owner hinv hnm hne hLne hs hvne hkv
      · exact step_exhaust hinv hnm hne hLne hs (Bool.eq_false_iff.mpr hbt)

theorem foldl_insId_inv : ∀ (ids L : List Str) (ps : PDict),
    INV L ps → (∀ z ∈ L, z ≠ []) → (∀ x ∈ ids, x ≠ []) →
    (∀ x ∈ ids, x ∉ L) → ids.Nodup →
    INV (L ++ ids) (ids.foldl insId ps) := by
  intro ids
  induction ids with
  | nil =>
      intro L ps hinv _ _ _ _
      rw [List.append_nil]
      exact hinv
  | cons x xs ih =>
      intro L ps hinv hLne hidsne hfresh hnd
      rw [List.foldl_cons]
      have hinv' : INV (L ++ [x]) (insId ps x) :=
        insId_inv hinv (hfresh x (List.mem_cons_self _ _))
          (hidsne x (List.mem_cons_self _ _)) hLne
      have hres := ih (L ++ [x]) (insId ps x) hinv'
        (by
          intro z hz
          rcases List.mem_append.mp hz with h | h
          · exact hLne z h
          · rw [List.mem_singleton.mp h]
            exact hidsne x (List.mem_cons_self _ _))
        (fun y hy => hidsne y (List.mem_cons_of_mem _ hy))
        (by
          intro y hy hmem
          rcases List.mem_append.mp hmem with h | h
          · exact hfresh y (List.mem_cons_of_mem _ hy) h
          · rw [List.mem_singleton.mp h] at hy
            exact (List.nodup_cons.mp hnd).1 hy)
        (List.nodup_cons.mp hnd).2
      rw [List.append_assoc] at hres
      exact hres

theorem invert_lookup (x px : Str) : ∀ (l : PDict) (acc : PDict),
    (∀ pv ∈ l, pv.2 = x → pv.1 = px) →
    ((∃ pv ∈ l, pv.2 = x) ∨ aGet? acc x = some px) →
    aGet? (l.foldl (fun acc kv => pdSet acc kv.2 kv.1) acc) x = some px := by
  intro l
  induction l with
  | nil =>
      intro acc _ hd
      rcases hd with ⟨pv, hpv, _⟩ | hd
      · cases hpv
      · exact hd
  | cons kv rest ih =>
      intro acc hkeys hd
      rw [List.foldl_cons]
      by_cases hvx : kv.2 = x
      · refine ih _ (fun pv hpv => hkeys pv (List.mem_cons_of_mem _ hpv)) (Or.inr ?_)
        rw [hvx, aGet?_aSet_self]
        rw [hkeys kv (List.mem_cons_self _ _) hvx]
      · refine ih _ (fun pv hpv => hkeys pv (List.mem_cons_of_mem _ hpv)) ?_
        rcases hd with ⟨pv, hpv, hpvx⟩ | hd
        · rcases List.mem_cons.mp hpv with h | h
          · exact absurd (h ▸ hpvx) hvx
          · exact Or.inl ⟨pv, h, hpvx⟩
        · refine Or.inr ?_
          rw [aGet?_aSet_ne _ _ _ _ (fun he => hvx he.symm)]
          exact hd

theorem prefixes_lookup (ids : List Str) (hnd : ids.Nodup)
    (hne : ∀ x ∈ ids, x ≠ []) :
    ∀ x ∈ ids, pdGet? (_prefixes ids) x = some (x.take (nlen ids x)) := by
  intro x hx
  have hinv : INV ids (ids.foldl insId []) := by
    have := foldl_insId_inv ids [] [] INV_nil (fun z hz => absurd hz (List.not_mem_nil z))
      hne (fun y _ hm => absurd hm (List.not_mem_nil y)) hnd
    rw [List.nil_append] at this
    exact this
  obtain ⟨hq1, hq2, hq3, hq4, hq5, hq6⟩ := hinv
  rw [_prefixes]
  have hxne : x ≠ [] := hne x hx
  rw [show pdGet? (pdDel (invert (ids.foldl insId [])) []) x =
    pdGet? (invert (ids.foldl insId [])) x from aGet?_aDel_ne _ _ _ hxne]
  rw [invert]
  refine invert_lookup x (x.take (nlen ids x)) _ [] ?_ ?_
  · rintro ⟨p1, p2⟩ hpv hpx
    have hl := mem_aGet? hq1 hpv
    have hpx' : p2 = x := hpx
    rw [hpx'] at hl
    have := hq6 _ _ hl hxne
    show p1 = x.take (nlen ids x)
    exact this.2
  · refine Or.inl ⟨(x.take (nlen ids x), x), ?_, rfl⟩
    exact aGet?_mem (hq5 x hx)

/-- CLAIM C1 (amended). For pairwise-distinct non-empty ids, `_prefixes` maps
each id to its shortest leading substring that is not a leading substring of
any other id of the set when one exists, and to the id's own full identifier
when none exists (`expectedPfx` captures exactly this rule, including that
only an id that is a leading substring of another is forced to its full
identifier). In particular the empty set yields the empty mapping and a
singleton set maps its id to its first character. -/
theorem C1_amended_shortest_unique (ids : List Str)
    (hnd : ids.Nodup) (hne : ∀ x ∈ ids, x ≠ []) :
    (∀ x ∈ ids, pdGet? (_prefixes ids) x = some (expectedPfx ids x)) ∧
    _prefixes [] = ([] : PDict) ∧
    (∀ x : Str, x ≠ [] → pdGet? (_prefixes [x]) x = some (x.take 1)) := by
  refine ⟨?_, rfl, ?_⟩
  · intro x hx
    rw [expectedPfx_take]
    exact prefixes_lookup ids hnd hne x hx
  · intro x hx
    have h := prefixes_lookup [x] (List.nodup_singleton x)
      (by
        intro y hy
        rw [List.mem_singleton.mp hy]
        exact hx)
      x (List.mem_singleton.mpr rfl)
    rw [h]
    have hn1 : nlen [x] x = 1 := by
      refine nlen_det _ _ _ (le_refl _) ?_ ?_ ?_
      · have : x.length ≠ 0 := fun h0 => hx (List.eq_nil_of_length_eq_zero h0)
        omega
      · intro l h1 h2
        omega
      · rw [uniqueAt_sem]
        intro y hy hyne
        exact absurd (List.mem_singleton.mp hy) hyne
    rw [hn1]

/-- Witness for C1: the theorem applied to the concrete id set of the
counterexample family, hypotheses discharged by computation. -/
theorem C1_amended_witness :
    (["ab".data, "abcd".data].Nodup ∧ ∀ x ∈ ["ab".data, "abcd".data], x ≠ []) ∧
    ((∀ x ∈ ["ab".data, "abcd".data], pdGet? (_prefixes ["ab".data, "abcd".data]) x =
        some (expectedPfx ["ab".data, "abcd".data] x)) ∧
      _prefixes [] = ([] : PDict) ∧
      (∀ x : Str, x ≠ [] → pdGet? (_prefixes [x]) x = some (x.take 1))) :=
  ⟨⟨by decide, by decide⟩,
    C1_amended_shortest_unique ["ab".data, "abcd".data] (by decide) (by decide)⟩
